import Mathlib

/-!
Push HTTP parser: a shallow embedding of `library/http/push_parser/http_parser.cpp`.

The parser object `THttpParser` is embedded as a record; every member function
becomes a function on that record.  A member function that may throw returns
`Except TError _`.  The unread part of the current input buffer
(`Data_ .. DataEnd_`) is the list `Data_`.  Loops are driven by a fuel counter
that is initialised with the number of unread bytes plus one, which is an upper
bound for the number of iterations since every iteration that continues
consumes at least one byte.  Calls of `reserve` only pre-allocate memory and are
left out.  The set `AcceptEncodings_` is a list used through membership only.
-/

set_option maxRecDepth 100000

/-- Byte strings (`TString`, `TStringBuf`) are lists of characters. -/
abbrev TString := List Char

/-- The exceptions the parser can raise. `NullDereference` stands for the
undefined behaviour of `*ChunkInputState_` on an empty holder, and
`FuelExhausted` for a loop of the embedding running out of fuel. -/
inductive TError where
  | THttpParseException
  | yexception
  | THttpException
  | NullDereference
  | FuelExhausted
  deriving DecidableEq, Repr

/-- Message kind (`THttpParser::TMessageType`). -/
inductive TMessageType where
  | Request
  | Response
  deriving DecidableEq, Repr

/-- The member function `Parser_` points to. -/
inductive TParserFn where
  | FirstLineParser
  | HeadersParser
  | ContentParser
  | ChunkedContentParser
  | OnEndParsing
  deriving DecidableEq, Repr

/-- Chunk decode state (`TChunkInputState`). -/
structure TChunkInputState where
  LeftBytes_ : Nat
  ReadLastChunk_ : Bool
  deriving DecidableEq, Repr

/-- HTTP version (`THttpVersion`). -/
structure THttpVersion where
  Major : Nat
  Minor : Nat
  deriving DecidableEq, Repr

/-- The parser session. -/
structure THttpParser where
  Parser_ : TParserFn
  MessageType_ : TMessageType
  CollectHeaders_ : Bool
  Data_ : TString
  CurrentLine_ : TString
  HeaderLine_ : TString
  FirstLine_ : TString
  HttpVersion_ : THttpVersion
  RetCode_ : Nat
  KeepAlive_ : Bool
  Headers_ : List (TString × TString)
  HasContentLength_ : Bool
  ContentLength_ : Nat
  ChunkInputState_ : Option TChunkInputState
  AcceptEncodings_ : List TString
  ContentEncoding_ : TString
  Content_ : TString
  DecodedContent_ : TString
  ExtraDataSize_ : Nat
  deriving DecidableEq, Repr

/-! ## String helpers of the utility library -/

/-- Modelled from the spec: `TString::find(char)` of the utility library is not
under src/; it gives the index of the first occurrence, `none` for `npos`. -/
def find (c : Char) : TString → Option Nat
  | [] => none
  | x :: xs => if x = c then some 0 else (find c xs).map (· + 1)

/-- Modelled from the spec: `TString::find_first_of(set)` of the utility library
is not under src/; index of the first character that belongs to `set`. -/
def find_first_of (set : TString) : TString → Option Nat
  | [] => none
  | x :: xs => if x ∈ set then some 0 else (find_first_of set xs).map (· + 1)

/-- Modelled from the spec: `to_lower` of the utility library is not under src/;
section 4.2 says names and values are lower-cased; upper-case ASCII letters are
mapped to lower case. -/
def to_lower (s : TString) : TString := s.map Char.toLower

/-- Modelled from the spec: the white-space test used by `StripString` (utility
library, not under src/): space, tab, line feed, vertical tab, form feed,
carriage return. -/
def IsAsciiSpace (c : Char) : Bool :=
  c = ' ' || c = '\t' || c = '\n' || c = Char.ofNat 11 || c = Char.ofNat 12 || c = '\r'

/-- Modelled from the spec: `StripString` of the utility library is not under
src/; section 4.2 says header values are whitespace-trimmed. -/
def StripString (s : TString) : TString :=
  ((s.dropWhile IsAsciiSpace).reverse.dropWhile IsAsciiSpace).reverse

/-- Modelled from the spec: `TStringBuf::TrySplit(char, l, r)` of the utility
library is not under src/; splits at the first occurrence of the delimiter. -/
def TrySplit (s : TString) (c : Char) : Option (TString × TString) :=
  match find c s with
  | none => none
  | some i => some (s.take i, s.drop (i + 1))

/-- Modelled from the spec: `TStringBuf::After(char)` of the utility library is
not under src/; the part after the first delimiter, the whole buffer when the
delimiter is absent. -/
def After (s : TString) (c : Char) : TString :=
  match TrySplit s c with
  | some (_, r) => r
  | none => s

/-- Modelled from the spec: `TStringBuf::Before(char)` of the utility library is
not under src/; the part before the first delimiter, the whole buffer when the
delimiter is absent. -/
def Before (s : TString) (c : Char) : TString :=
  match TrySplit s c with
  | some (l, _) => l
  | none => s

/-- Modelled from the spec: `TStringBuf::NextTok(char)` of the utility library is
not under src/; on a non-empty buffer it returns the token before the first
delimiter and leaves the part after it. The second component is `none` when the
buffer has been cleared (no delimiter found). -/
def NextTok (s : TString) (c : Char) : TString × Option TString :=
  match TrySplit s c with
  | some (l, r) => (l, some r)
  | none => (s, none)

/-- Modelled from the spec: `GetNext(s, delim, tok)` of the utility library is
not under src/; it throws when the buffer holds no further field. -/
def GetNext (s : Option TString) (c : Char) : Except TError (TString × Option TString) :=
  match s with
  | none => .error .yexception
  | some b => if b = [] then .error .yexception else .ok (NextTok b c)

/-- Modelled from the spec: the value of a digit in the given base, used by the
number parsers of the utility library (not under src/). -/
def DigitValue (base : Nat) (c : Char) : Option Nat :=
  if 48 ≤ c.toNat ∧ c.toNat ≤ 57 then some (c.toNat - 48)
  else if base = 16 ∧ 97 ≤ c.toNat ∧ c.toNat ≤ 102 then some (c.toNat - 87)
  else if base = 16 ∧ 65 ≤ c.toNat ∧ c.toNat ≤ 70 then some (c.toNat - 55)
  else none

/-- Modelled from the spec: digit loop of the number parsers of the utility
library (not under src/); fails on a non-digit and on overflow past `max`. -/
def ParseDigits (base max : Nat) : TString → Nat → Option Nat
  | [], acc => some acc
  | c :: cs, acc =>
    match DigitValue base c with
    | none => none
    | some d => if acc * base + d ≤ max then ParseDigits base max cs (acc * base + d) else none

/-- Modelled from the spec: `FromString<unsigned>`, `FromString<ui64>` and
`IntFromString<ui32, 16>` of the utility library are not under src/; sections
4.2, 4.3 and 7 say the text must parse as an unsigned integer (decimal, or a
hexadecimal literal for chunk sizes) and that an empty text is an error. The
text is accepted when it is a non-empty run of digits of the base whose value
does not exceed `max`; no sign and no white space is accepted. -/
def IntFromString (base max : Nat) (s : TString) : Except TError Nat :=
  if s = [] then .error .yexception
  else match ParseDigits base max s 0 with
    | none => .error .yexception
    | some n => .ok n

/-- Largest value of `unsigned` and of `ui32`. -/
def MaxUi32 : Nat := 4294967295

/-- Largest value of `ui64` and of `size_t`. -/
def MaxUi64 : Nat := 18446744073709551615

/-- Modelled from the spec: `Split(s, delim, a, b)` of the utility library is not
under src/; exactly two fields separated by the delimiter are expected. -/
def Split (s : TString) (c : Char) : Except TError (TString × TString) :=
  match GetNext (some s) c with
  | .error e => .error e
  | .ok (a, s1) =>
    match GetNext s1 c with
    | .error e => .error e
    | .ok (b, s2) =>
      match s2 with
      | none => .ok (a, b)
      | some _ => .error .yexception

/-- Modelled from the spec: the constructor of `THttpInputHeader` (library/http/io,
not under src/) splits a header line at the first colon into a name and a value
and trims both. Section 4.3 has the line split on the first colon and the value
trimmed, and the branch of `ParseHeaderLine` for disabled header collection, which
its comment calls an optimisation of the branch that builds the header object,
trims name and value with `StripString`. A line without a colon is a parse error
(section 7, MalformedHeaderLine). -/
def THttpInputHeader (line : TString) : Except TError (TString × TString) :=
  match find ':' line with
  | none => .error .THttpParseException
  | some pos => .ok (StripString (line.take pos), StripString (line.drop (pos + 1)))

namespace THttpParser

/-- Modelled from the spec: the constructor lives in http_parser.h, which is not
under src/; a fresh session starts in the first-line state with everything
empty, `keepAlive` false and no content length known (section 3). -/
def Init (mt : TMessageType) (collect : Bool) : THttpParser :=
  { Parser_ := .FirstLineParser, MessageType_ := mt, CollectHeaders_ := collect,
    Data_ := [], CurrentLine_ := [], HeaderLine_ := [], FirstLine_ := [],
    HttpVersion_ := ⟨1, 0⟩, RetCode_ := 0, KeepAlive_ := false, Headers_ := [],
    HasContentLength_ := false, ContentLength_ := 0, ChunkInputState_ := none,
    AcceptEncodings_ := [], ContentEncoding_ := [], Content_ := [],
    DecodedContent_ := [], ExtraDataSize_ := 0 }

/-- The table `BestCodings`. -/
def BestCodings : List TString :=
  ["gzip".toList, "deflate".toList, "br".toList, "x-gzip".toList, "x-deflate".toList,
   "y-lzo".toList, "y-lzf".toList, "y-lzq".toList, "y-bzip2".toList, "y-lzma".toList]

/-- The loop `for (auto& coding : BestCodings)` of `GetBestCompressionScheme`. -/
def FirstAccepted (accepted : List TString) : List TString → TString
  | [] => []
  | coding :: rest => if coding ∈ accepted then coding else FirstAccepted accepted rest

/-- `THttpParser::GetBestCompressionScheme`. -/
def GetBestCompressionScheme (s : THttpParser) : TString :=
  if "*".toList ∈ s.AcceptEncodings_ then BestCodings.headD []
  else FirstAccepted s.AcceptEncodings_ BestCodings

/-- `THttpParser::OnEndParsing`. -/
def OnEndParsing (s : THttpParser) : Bool × THttpParser :=
  (true, { s with Parser_ := .OnEndParsing, ExtraDataSize_ := s.Data_.length })

/-- `THttpParser::ReadLine`. -/
def ReadLine (s : THttpParser) : Bool × THttpParser :=
  match find '\n' s.Data_ with
  | none => (false, { s with CurrentLine_ := s.CurrentLine_ ++ s.Data_ })
  | some endl =>
    let line := s.CurrentLine_ ++ s.Data_.take endl
    let line := if line ≠ [] ∧ line.getLast? = some '\r' then line.dropLast else line
    (true, { s with CurrentLine_ := line, Data_ := s.Data_.drop (endl + 1) })

/-- `THttpParser::ParseHttpVersion`. -/
def ParseHttpVersion (s : THttpParser) (httpVersion : TString) : Except TError THttpParser :=
  if httpVersion.take 5 ≠ "HTTP/".toList then .error .yexception
  else
    match Split (httpVersion.drop 5) '.' with
    | .error e => .error e
    | .ok (major, minor) =>
      match IntFromString 10 MaxUi32 major with
      | .error e => .error e
      | .ok ma =>
        match IntFromString 10 MaxUi32 minor with
        | .error e => .error e
        | .ok mi =>
          let s1 := { s with HttpVersion_ := ⟨ma, mi⟩ }
          if ma > 1 ∨ mi > 0 then .ok { s1 with KeepAlive_ := true } else .ok s1

/-- The loop `while (+encodings)` of the accept-encoding branch of
`ApplyHeaderLine`. -/
def AcceptEncodingLoop : Nat → TString → List TString → Except TError (List TString)
  | 0, _, _ => .error .FuelExhausted
  | fuel + 1, encodings, acc =>
    if encodings = [] then .ok acc
    else
      let (tok, rest) := NextTok encodings ','
      let enc := Before (After tok ' ') ' '
      let acc1 := if enc = [] then acc else (to_lower enc) :: acc
      match rest with
      | none => .ok acc1
      | some r => AcceptEncodingLoop fuel r acc1

/-- `THttpParser::ApplyHeaderLine`. -/
def ApplyHeaderLine (s : THttpParser) (name val : TString) : Except TError THttpParser :=
  if name = "connection".toList then
    .ok { s with KeepAlive_ := decide (val = "keep-alive".toList) }
  else if name = "content-length".toList then
    if val = [] then .error .yexception
    else match IntFromString 10 MaxUi64 val with
      | .error e => .error e
      | .ok n => .ok { s with ContentLength_ := n, HasContentLength_ := true }
  else if name = "transfer-encoding".toList then
    if val = "chunked".toList then .ok { s with ChunkInputState_ := some ⟨0, false⟩ }
    else .ok s
  else if name = "accept-encoding".toList then
    match AcceptEncodingLoop (val.length + 1) val s.AcceptEncodings_ with
    | .error e => .error e
    | .ok acc => .ok { s with AcceptEncodings_ := acc }
  else if name = "content-encoding".toList then
    .ok { s with ContentEncoding_ := to_lower val }
  else .ok s

/-- `THttpParser::ParseHeaderLine`. -/
def ParseHeaderLine (s : THttpParser) : Except TError THttpParser :=
  if s.HeaderLine_ ≠ [] then
    if s.CollectHeaders_ then
      match THttpInputHeader s.HeaderLine_ with
      | .error e => .error e
      | .ok hdr =>
        match ApplyHeaderLine { s with Headers_ := s.Headers_ ++ [hdr] }
            (to_lower hdr.1) (to_lower hdr.2) with
        | .error e => .error e
        | .ok s2 => .ok { s2 with HeaderLine_ := [] }
    else
      match find ':' s.HeaderLine_ with
      | none => .error .THttpParseException
      | some pos =>
        let s1 := { s with HeaderLine_ := to_lower s.HeaderLine_ }
        match ApplyHeaderLine s1 (StripString (s1.HeaderLine_.take pos))
            (StripString (s1.HeaderLine_.drop (pos + 1))) with
        | .error e => .error e
        | .ok s2 => .ok { s2 with HeaderLine_ := [] }
  else .ok s

/-- `THttpParser::ContentParser`. The subtraction
`ContentLength_ - Content_.Size()` is a `size_t` subtraction and wraps. -/
def ContentParser (s : THttpParser) : Bool × THttpParser :=
  if s.HasContentLength_ then
    let rd := min s.Data_.length
      ((s.ContentLength_ + (MaxUi64 + 1) - s.Content_.length % (MaxUi64 + 1)) % (MaxUi64 + 1))
    let s1 := { s with Content_ := s.Content_ ++ s.Data_.take rd, Data_ := s.Data_.drop rd }
    if s1.Content_.length = s1.ContentLength_ then OnEndParsing s1
    else (false, { s1 with Parser_ := .ContentParser })
  else
    if s.MessageType_ = .Request then OnEndParsing s
    else if s.RetCode_ < 200 ∨ s.RetCode_ = 204 ∨ s.RetCode_ = 304 then OnEndParsing s
    else (false, { s with Content_ := s.Content_ ++ s.Data_, Data_ := [],
                          Parser_ := .ContentParser })

/-- The part of one iteration of the `do ... while` loop of
`ChunkedContentParser` that is guarded by `if (!ci.LeftBytes_)`: it either
leaves the function (`Sum.inl`, by `return` or `break`) or falls through to the
copying of chunk bytes (`Sum.inr`). -/
def ChunkedSizeLine (s : THttpParser) (ci : TChunkInputState) :
    Except TError (Sum (Bool × THttpParser) THttpParser) :=
  if ci.LeftBytes_ = 0 then
    match ReadLine s with
    | (false, s1) => .ok (.inl (false, { s1 with Parser_ := .ChunkedContentParser }))
    | (true, s1) =>
      if ci.ReadLastChunk_ then .ok (.inl (OnEndParsing s1))
      else
        match (if s1.CurrentLine_ = [] then ReadLine s1 else (true, s1)) with
        | (false, s2) => .ok (.inl (false, { s2 with Parser_ := .ChunkedContentParser }))
        | (true, s2) =>
          if s2.CurrentLine_ = [] then .error .yexception
          else
            let size := match find_first_of " \t;".toList s2.CurrentLine_ with
              | none => s2.CurrentLine_.length
              | some i => i
            match IntFromString 16 MaxUi32 (s2.CurrentLine_.take size) with
            | .error e => .error e
            | .ok n =>
              let s3 := { s2 with ChunkInputState_ := some { ci with LeftBytes_ := n },
                                  CurrentLine_ := [] }
              if n = 0 then
                match ReadLine { s3 with ChunkInputState_ := some ⟨n, true⟩ } with
                | (true, s5) => .ok (.inl (OnEndParsing s5))
                | (false, s5) => .ok (.inl (false, { s5 with Parser_ := .ChunkedContentParser }))
              else .ok (.inr s3)
  else .ok (.inr s)

/-- The copying of chunk bytes at the end of one iteration of the loop of
`ChunkedContentParser`. -/
def ChunkedCopy (s : THttpParser) (ci : TChunkInputState) : THttpParser :=
  let rd := min s.Data_.length ci.LeftBytes_
  { s with Content_ := s.Content_ ++ s.Data_.take rd, Data_ := s.Data_.drop rd,
           ChunkInputState_ := some { ci with LeftBytes_ := ci.LeftBytes_ - rd } }

/-- The `do ... while (Data_ != DataEnd_)` loop of `ChunkedContentParser`. -/
def ChunkedContentLoop : Nat → THttpParser → Except TError (Bool × THttpParser)
  | 0, _ => .error .FuelExhausted
  | fuel + 1, s =>
    match s.ChunkInputState_ with
    | none => .error .NullDereference
    | some ci =>
      match ChunkedSizeLine s ci with
      | .error e => .error e
      | .ok (.inl r) => .ok r
      | .ok (.inr s1) =>
        match s1.ChunkInputState_ with
        | none => .error .NullDereference
        | some ci1 =>
          let s2 := ChunkedCopy s1 ci1
          if s2.Data_ ≠ [] then ChunkedContentLoop fuel s2
          else .ok (false, { s2 with Parser_ := .ChunkedContentParser })

/-- `THttpParser::ChunkedContentParser`. -/
def ChunkedContentParser (s : THttpParser) : Except TError (Bool × THttpParser) :=
  ChunkedContentLoop (s.Data_.length + 1) s

/-- The `while (ReadLine())` loop of `HeadersParser`. -/
def HeadersLoop : Nat → THttpParser → Except TError (Bool × THttpParser)
  | 0, _ => .error .FuelExhausted
  | fuel + 1, s =>
    match ReadLine s with
    | (false, s1) => .ok (false, { s1 with Parser_ := .HeadersParser })
    | (true, s1) =>
      if s1.CurrentLine_ = [] then
        if s1.HasContentLength_ ∧ s1.ContentLength_ = 0 then .ok (OnEndParsing s1)
        else
          match ParseHeaderLine s1 with
          | .error e => .error e
          | .ok s2 =>
            if s2.ChunkInputState_.isSome then ChunkedContentParser s2
            else .ok (ContentParser s2)
      else if s1.CurrentLine_.head? = some ' ' ∨ s1.CurrentLine_.head? = some '\t' then
        HeadersLoop fuel { s1 with HeaderLine_ := s1.HeaderLine_ ++ s1.CurrentLine_,
                                   CurrentLine_ := [] }
      else
        match ParseHeaderLine s1 with
        | .error e => .error e
        | .ok s2 =>
          HeadersLoop fuel { s2 with HeaderLine_ := s2.CurrentLine_,
                                     CurrentLine_ := s2.HeaderLine_ }

/-- `THttpParser::HeadersParser`. -/
def HeadersParser (s : THttpParser) : Except TError (Bool × THttpParser) :=
  HeadersLoop (s.Data_.length + 1) s

/-- The body of the `try` block of `FirstLineParser`. -/
def ParseFirstLine (s : THttpParser) : Except TError THttpParser :=
  if s.MessageType_ = .Response then
    match GetNext (some s.FirstLine_) ' ' with
    | .error e => .error e
    | .ok (httpVersion, rest) =>
      match ParseHttpVersion s httpVersion with
      | .error e => .error e
      | .ok s1 =>
        match GetNext rest ' ' with
        | .error e => .error e
        | .ok (statusCode, _) =>
          match IntFromString 10 MaxUi32 statusCode with
          | .error e => .error e
          | .ok code => .ok { s1 with RetCode_ := code }
  else ParseHttpVersion s (After (After s.FirstLine_ ' ') ' ')

/-- `THttpParser::FirstLineParser`. -/
def FirstLineParser (s : THttpParser) : Except TError (Bool × THttpParser) :=
  match ReadLine s with
  | (false, s1) => .ok (false, s1)
  | (true, s1) =>
    match ParseFirstLine { s1 with CurrentLine_ := s1.FirstLine_, FirstLine_ := s1.CurrentLine_ } with
    | .error _ => .error .THttpParseException
    | .ok s2 => HeadersParser s2

/-- Modelled from the spec: `Parse(data, len)` is defined in http_parser.h, which
is not under src/; section 6 and section 9 describe it as the single resume
function that points the session at the new buffer and invokes the member
function `Parser_` currently points to. -/
def Parse (s : THttpParser) (data : TString) : Except TError (Bool × THttpParser) :=
  let s0 := { s with Data_ := data }
  match s0.Parser_ with
  | .FirstLineParser => FirstLineParser s0
  | .HeadersParser => HeadersParser s0
  | .ContentParser => .ok (ContentParser s0)
  | .ChunkedContentParser => ChunkedContentParser s0
  | .OnEndParsing => .ok (OnEndParsing s0)

/-- `THttpParser::OnEof`: the member function assigns nothing, so the session is
returned as it was together with the outcome. -/
def OnEof (s : THttpParser) : THttpParser × Except TError Unit :=
  if s.Parser_ = .ContentParser ∧ s.HasContentLength_ = false ∧ s.ChunkInputState_ = none then
    (s, .ok ())
  else (s, .error .THttpException)

/-- Feeding a list of slices in order with `Parse`; the result is the outcome of
the last call (`false` and the untouched session when there is no slice). An
exception ends the feeding. -/
def Feed (s : THttpParser) : List TString → Except TError (Bool × THttpParser)
  | [] => .ok (false, s)
  | [d] => Parse s d
  | d :: ds =>
    match Parse s d with
    | .error e => .error e
    | .ok (_, s1) => Feed s1 ds

end THttpParser

/-! ## Wire format used to state the claims -/

/-- The line terminator CR LF. -/
def Crlf : TString := ['\r', '\n']

/-- A header block on the wire: every line followed by CR LF. -/
def HeaderBlock : List TString → TString
  | [] => []
  | l :: ls => l ++ Crlf ++ HeaderBlock ls

/-- Decimal rendering of a number, most significant digit first; the first
argument bounds the number of digits. -/
def DecimalDigits : Nat → Nat → TString
  | 0, _ => []
  | fuel + 1, n =>
    if n < 10 then [Char.ofNat (48 + n)]
    else DecimalDigits fuel (n / 10) ++ [Char.ofNat (48 + n % 10)]

/-- Decimal rendering of a number. -/
def Decimal (n : Nat) : TString := DecimalDigits (n + 1) n

/-- The status line `HTTP/M.m SP code SP reason`. -/
def StatusLine (major minor code : Nat) (reason : TString) : TString :=
  "HTTP/".toList ++ Decimal major ++ ['.'] ++ Decimal minor ++ [' '] ++ Decimal code ++ [' '] ++ reason

/-- The header line `Content-Length: n`. -/
def ContentLengthLine (n : Nat) : TString := "Content-Length: ".toList ++ Decimal n

/-- The header line `Transfer-Encoding: chunked`. -/
def ChunkedLine : TString := "Transfer-Encoding: chunked".toList

/-- The lower-cased, trimmed name of a header line (text before the first colon). -/
def HeaderName (l : TString) : TString :=
  match find ':' l with
  | none => []
  | some pos => to_lower (StripString (l.take pos))

/-- The lower-cased, trimmed value of a header line (text after the first colon). -/
def HeaderValue (l : TString) : TString :=
  match find ':' l with
  | none => []
  | some pos => to_lower (StripString (l.drop (pos + 1)))

/-- A header line that is not a continuation line, holds a colon, and whose name
is neither `content-length` nor `transfer-encoding`: it does not affect framing. -/
def PlainHeader (l : TString) : Prop :=
  l ≠ [] ∧ l.head? ≠ some ' ' ∧ l.head? ≠ some '\t' ∧ '\n' ∉ l ∧ (find ':' l).isSome ∧
  HeaderName l ≠ "content-length".toList ∧ HeaderName l ≠ "transfer-encoding".toList

instance (l : TString) : Decidable (PlainHeader l) := by
  unfold PlainHeader; infer_instance

/-- The value of a hexadecimal literal, `none` when a character is not a
hexadecimal digit. -/
def HexValue : TString → Nat → Option Nat
  | [], acc => some acc
  | c :: cs, acc =>
    match DigitValue 16 c with
    | none => none
    | some d => HexValue cs (acc * 16 + d)

/-- One chunk on the wire: the size literal, the optional extension, the data. -/
structure TChunk where
  Size : TString
  Ext : TString
  Data : TString

/-- A chunk as the chunked framing writes it: the data is not empty and shorter
than 2^32 bytes, the size literal is hexadecimal and denotes the length of the
data, the extension is absent or introduced by a semicolon. -/
def TChunk.WellFormed (c : TChunk) : Prop :=
  c.Data ≠ [] ∧ c.Data.length < 4294967296 ∧ HexValue c.Size 0 = some c.Data.length ∧
  (c.Ext = [] ∨ c.Ext.head? = some ';') ∧ '\n' ∉ c.Ext

instance (c : TChunk) : Decidable c.WellFormed := by
  unfold TChunk.WellFormed; infer_instance

/-- The chunk on the wire: size literal, extension, CR LF, data, CR LF. -/
def TChunk.Encode (c : TChunk) : TString := c.Size ++ c.Ext ++ Crlf ++ c.Data ++ Crlf

/-- A chunked body on the wire: the chunks followed by the zero-size chunk and the
empty line. -/
def ChunkedBody : List TChunk → TString
  | [] => "0\r\n\r\n".toList
  | c :: cs => c.Encode ++ ChunkedBody cs

/-- The chunks of a chunked body on the wire, without the zero-size chunk. -/
def ChunkedData : List TChunk → TString
  | [] => []
  | c :: cs => c.Encode ++ ChunkedData cs

/-- The decoded payload of a list of chunks. -/
def ChunkPayload : List TChunk → TString
  | [] => []
  | c :: cs => c.Data ++ ChunkPayload cs

/-- The fields of the session that the application of a header line leaves
alone; the pending header line is cleared. -/
structure HeaderFrame (s s2 : THttpParser) : Prop where
  parser : s2.Parser_ = s.Parser_
  msg : s2.MessageType_ = s.MessageType_
  collect : s2.CollectHeaders_ = s.CollectHeaders_
  data : s2.Data_ = s.Data_
  cur : s2.CurrentLine_ = s.CurrentLine_
  first : s2.FirstLine_ = s.FirstLine_
  ver : s2.HttpVersion_ = s.HttpVersion_
  code : s2.RetCode_ = s.RetCode_
  body : s2.Content_ = s.Content_
  decoded : s2.DecodedContent_ = s.DecodedContent_
  extra : s2.ExtraDataSize_ = s.ExtraDataSize_
  pending : s2.HeaderLine_ = []

/-- The header lines of the messages the claims are stated for: a header that does
not affect framing, the line `Content-Length: m` when the message declares the
length `m`, and the line `Transfer-Encoding: chunked` when the message is chunked. -/
def AllowedHeader (n : Option Nat) (te : Bool) (l : TString) : Prop :=
  PlainHeader l ∨ (∃ m, n = some m ∧ m ≤ MaxUi64 ∧ l = ContentLengthLine m) ∨
  (te = true ∧ l = ChunkedLine)

/-- What is known of the session while the header block is read: `s0` is the
session when the block starts, `done` the header lines applied so far. -/
structure HeadersInv (n : Option Nat) (te : Bool) (s0 : THttpParser) (done : List TString)
    (s : THttpParser) : Prop where
  msg : s.MessageType_ = s0.MessageType_
  ver : s.HttpVersion_ = s0.HttpVersion_
  code : s.RetCode_ = s0.RetCode_
  body : s.Content_ = s0.Content_
  cl : s.HasContentLength_ = true → n = some s.ContentLength_
  ch : s.ChunkInputState_ = none ∨ (te = true ∧ s.ChunkInputState_ = some ⟨0, false⟩)
  clDone : ∀ m, n = some m → ContentLengthLine m ∈ done → s.HasContentLength_ = true
  teDone : te = true → ChunkedLine ∈ done → s.ChunkInputState_ = some ⟨0, false⟩

/-- A first line the first-line parser of a session of kind `mt` accepts. -/
def FirstLineOk (mt : TMessageType) (fl : TString) : Bool :=
  match THttpParser.ParseFirstLine { THttpParser.Init mt true with FirstLine_ := fl } with
  | .ok _ => true
  | .error _ => false

/-- What every reachable session satisfies about the accumulated body: the known
content length fits 64 bits while it can still bound a body, the body is empty
until the header block has been read, it is shorter than a known content length
while the Content state waits for more bytes, a session in the chunked state has
a chunk state, and a completed message without chunk state whose content length
is known has a body of exactly that length. -/
structure BodyInv (s : THttpParser) : Prop where
  bound : (s.Parser_ = .FirstLineParser ∨ s.Parser_ = .HeadersParser ∨
      s.Parser_ = .ContentParser) → s.HasContentLength_ = true → s.ContentLength_ ≤ MaxUi64
  empty : (s.Parser_ = .FirstLineParser ∨ s.Parser_ = .HeadersParser) → s.Content_ = []
  unfinished : s.Parser_ = .ContentParser → s.HasContentLength_ = true →
      s.Content_.length < s.ContentLength_
  chunked : s.Parser_ = .ChunkedContentParser → s.ChunkInputState_.isSome = true
  complete : s.Parser_ = .OnEndParsing → s.ChunkInputState_ = none →
      s.HasContentLength_ = true → s.Content_.length = s.ContentLength_

/-- A line without its trailing carriage return, when it has one. -/
def StripCR (l : TString) : TString :=
  if l.getLast? = some '\r' then l.dropLast else l

/-- `THttpParser::DecodeContent`. The decompressors of the utility library,
`TZLibDecompress(&in, ZLib::GZip).ReadAll()` and
`TZLibDecompress(&in, ZLib::ZLib).ReadAll()`, are the parameters `gzip` and
`zlib`: transforms of the raw bytes that may throw. -/
def THttpParser.DecodeContent (gzip zlib : TString → Except TError TString)
    (s : THttpParser) : Except TError (Bool × THttpParser) :=
  if s.ContentEncoding_ = [] then .ok (false, { s with DecodedContent_ := s.Content_ })
  else if s.ContentEncoding_ = "gzip".toList then
    match gzip s.Content_ with
    | .error e => .error e
    | .ok out => .ok (true, { s with DecodedContent_ := out })
  else if s.ContentEncoding_ = "deflate".toList then
    match zlib s.Content_ with
    | .error e => .error e
    | .ok out => .ok (true, { s with DecodedContent_ := out })
  else .error .THttpParseException

/-- The status code the first-line parser of a session of kind `mt` leaves in
`RetCode_` on the first line `fl`; `none` when the line is rejected. -/
def FirstLineCode (mt : TMessageType) (fl : TString) : Option Nat :=
  match THttpParser.ParseFirstLine { THttpParser.Init mt true with FirstLine_ := fl } with
  | .ok s => some s.RetCode_
  | .error _ => none

/-- A hexadecimal digit `0-9`, `a-f` or `A-F`. -/
def IsHexDigit (c : Char) : Bool :=
  ('0'.toNat ≤ c.toNat && c.toNat ≤ '9'.toNat) || ('a'.toNat ≤ c.toNat && c.toNat ≤ 'f'.toNat) ||
    ('A'.toNat ≤ c.toNat && c.toNat ≤ 'F'.toNat)

/-- The size field of a chunk-size line: the text before the first space, tab or
semicolon, the whole line when it has none. -/
def SizeField (line : TString) : TString :=
  match find_first_of " \t;".toList line with
  | none => line
  | some i => line.take i

/-- The size field of the line is empty or holds a character that is not a
hexadecimal digit. -/
def BadSizeField (line : TString) : Bool :=
  SizeField line = [] || (SizeField line).any (fun c => !IsHexDigit c)

/-- The errors that stand for a C++ exception. The other two belong to the
model: a loop that used up its fuel, and the dereference of an empty chunk-state
holder. -/
def TError.IsException : TError → Bool
  | .THttpParseException => true
  | .yexception => true
  | .THttpException => true
  | .NullDereference => false
  | .FuelExhausted => false

/-- An outcome of a parsing step that started on the unread bytes `d`: an error is
a C++ exception, and a result leaves as unread bytes a suffix of `d` and, when it
reports completion, counts exactly those as trailing. -/
def StaysInBuffer (d : TString) (r : Except TError (Bool × THttpParser)) : Prop :=
  match r with
  | .error e => e.IsException = true
  | .ok (b, s1) => s1.Data_ <:+ d ∧ (b = true → s1.ExtraDataSize_ = s1.Data_.length)

namespace NHelpers

/-- The ways `ParseRangeString` ends without returning a set: the exception
`yexception() << "Invalid range: " << range`, behaviour the C and C++ standards
leave undefined (a value that does not fit `int`, signed overflow of `first++`),
and a loop of the model that used up its fuel. -/
inductive TRangeError where
  | InvalidRange (range : TString)
  | Undefined
  | FuelExhausted
  deriving DecidableEq, Repr

/-- Largest value of `int`. -/
def IntMax : Int := 2147483647

/-- Smallest value of `int`. -/
def IntMin : Int := -2147483648

/-- The C library classifier `isspace` in the C locale. -/
def isspace (c : Char) : Bool :=
  c = ' ' || c = '\t' || c = '\n' || c = '\x0b' || c = '\x0c' || c = '\r'

/-- The C library classifier `isdigit`. -/
def isdigit (c : Char) : Bool :=
  '0'.toNat ≤ c.toNat && c.toNat ≤ '9'.toNat

/-- The digit loop of `atoi`: the value of the leading run of decimal digits. -/
def atoiDigits : TString → Nat → Nat
  | [], acc => acc
  | c :: cs, acc =>
    if isdigit c then atoiDigits cs (acc * 10 + (c.toNat - '0'.toNat)) else acc

/-- The optional sign of `atoi` and the digits after it. -/
def atoiSigned (t : TString) : Int :=
  match t with
  | '-' :: r => -(atoiDigits r 0 : Int)
  | '+' :: r => (atoiDigits r 0 : Int)
  | _ => (atoiDigits t 0 : Int)

/-- The C library function `atoi`: white space is skipped, an optional sign is
read, then the leading run of digits; text without digits gives 0. The result is
undefined when the value does not fit `int`. -/
def atoi (s : TString) : Except TRangeError Int :=
  let v := atoiSigned (s.dropWhile isspace)
  if IntMin ≤ v ∧ v ≤ IntMax then .ok v else .error .Undefined

/-- `TString::find(c, pos)` for a position inside the string or at its end. -/
def findFrom (c : Char) (s : TString) (pos : Nat) : Option Nat :=
  (find c (s.drop pos)).map (· + pos)

/-- `TString::substr(pos, n)`; `none` stands for a count that reaches the end of
the string, as `npos - prev` and the defaulted count do. -/
def substr (s : TString) (pos : Nat) (n : Option Nat) : TString :=
  match n with
  | none => s.drop pos
  | some k => (s.drop pos).take k

/-- Conversion of an `int` to `ui32`. -/
def ToUi32 (v : Int) : Nat := (v % 4294967296).toNat

/-- `TSet<ui32>::insert` on the set kept as a list without repetition; the order
of iteration of the set is not modelled. -/
def Insert (x : Nat) (data : List Nat) : List Nat :=
  if x ∈ data then data else data ++ [x]

/-- The loop `while (first <= last) data.insert(first++);`. -/
def InsertLoop : Nat → Int → Int → List Nat → Except TRangeError (List Nat)
  | 0, _, _, _ => .error .FuelExhausted
  | fuel + 1, first, last, data =>
    if first ≤ last then
      if first = IntMax then .error .Undefined
      else InsertLoop fuel (first + 1) last (Insert (ToUi32 first) data)
    else .ok data

/-- The part of the body of the loop of `ParseRangeString` that handles the item
`range`. -/
def ParseItem (range : TString) (data : List Nat) : Except TRangeError (List Nat) :=
  let dash := find '-' range
  if range.length ≠ 0 then
    match dash with
    | none =>
      match atoi range with
      | .error e => .error e
      | .ok v => .ok (Insert (ToUi32 v) data)
    | some dash =>
      if dash > 0 ∧ dash < range.length - 1 then
        match atoi (substr range 0 (some dash)) with
        | .error e => .error e
        | .ok first =>
          match atoi (substr range (dash + 1) none) with
          | .error e => .error e
          | .ok last => InsertLoop ((last + 1 - first).toNat + 1) first last data
      else .error (.InvalidRange range)
  else .ok data

/-- The loop `while (cur != TString::npos)` of `ParseRangeString`. -/
def RangeLoop : Nat → TString → Nat → List Nat → Except TRangeError (List Nat)
  | 0, _, _, _ => .error .FuelExhausted
  | fuel + 1, str, prev, data =>
    let cur := findFrom ':' str prev
    let range := substr str prev (cur.map (· - prev))
    match ParseItem range data with
    | .error e => .error e
    | .ok data1 =>
      match cur with
      | none => .ok data1
      | some c => RangeLoop fuel str (c + 1) data1

/-- `NHelpers::ParseRangeString`. -/
def ParseRangeString (str : TString) : Except TRangeError (List Nat) :=
  RangeLoop (str.length + 1) str 0 []

/-- An item of a range string: nothing, a number, or two numbers joined by a
dash; the numbers are given by their text. -/
inductive TRangeItem where
  | empty
  | single (n : TString)
  | range (a b : TString)
  deriving DecidableEq, Repr

/-- The number a text of decimal digits denotes. -/
def DecimalValue (t : TString) : Nat :=
  t.foldl (fun acc c => acc * 10 + (c.toNat - '0'.toNat)) 0

/-- The text of an item. -/
def TRangeItem.Text : TRangeItem → TString
  | .empty => []
  | .single n => n
  | .range a b => a ++ '-' :: b

/-- Items joined by colons. -/
def RangeString : List TString → TString
  | [] => []
  | [t] => t
  | t :: ts => t ++ ':' :: RangeString ts

/-- The numbers of the item are texts of decimal digits (a number of a dash item
may be missing) whose values fit `int`, and the upper end of a dash item that is
not below its lower end is less than the largest `int`. -/
def TRangeItem.InBounds : TRangeItem → Bool
  | .empty => true
  | .single n => n ≠ [] && n.all isdigit && DecimalValue n ≤ 2147483647
  | .range a b =>
    a.all isdigit && b.all isdigit && DecimalValue a ≤ 2147483647 &&
    DecimalValue b ≤ 2147483647 &&
    (DecimalValue b < DecimalValue a || DecimalValue b < 2147483647)

/-- A dash item with a missing number: its first dash is its first or its last
character. -/
def TRangeItem.Invalid : TRangeItem → Bool
  | .range a b => a = [] || b = []
  | _ => false

/-- The items of a range string handled one after the other, as the loop of
`ParseRangeString` does; the first failure ends the run. -/
def ParseItems : List TString → List Nat → Except TRangeError (List Nat)
  | [], data => .ok data
  | t :: ts, data =>
    match ParseItem t data with
    | .error e => .error e
    | .ok data1 => ParseItems ts data1

/-- The numbers an item stands for. -/
def TRangeItem.Holds (x : Nat) : TRangeItem → Prop
  | .empty => False
  | .single n => x = DecimalValue n
  | .range a b => DecimalValue a ≤ x ∧ x ≤ DecimalValue b

end NHelpers
/-! ## Lemmas on the string helpers -/

theorem find_append_cons (c : Char) (a b : TString) (h : c ∉ a) :
    find c (a ++ c :: b) = some a.length := by
  induction a with
  | nil => simp [find]
  | cons x xs ih =>
    have hx : x ≠ c := fun hxc => h (by simp [hxc])
    have hxs : c ∉ xs := fun hm => h (List.mem_cons_of_mem _ hm)
    simp [find, hx, ih hxs]

theorem find_eq_none (c : Char) (a : TString) (h : c ∉ a) : find c a = none := by
  induction a with
  | nil => rfl
  | cons x xs ih =>
    have hx : x ≠ c := fun hxc => h (by simp [hxc])
    have hxs : c ∉ xs := fun hm => h (List.mem_cons_of_mem _ hm)
    simp [find, hx, ih hxs]

theorem find_some_le (c : Char) (a : TString) (i : Nat) (h : find c a = some i) :
    i < a.length := by
  induction a generalizing i with
  | nil => simp [find] at h
  | cons x xs ih =>
    by_cases hx : x = c
    · simp [find, hx] at h
      subst h
      simp
    · simp only [find, if_neg hx, Option.map_eq_some'] at h
      obtain ⟨j, hj, rfl⟩ := h
      have := ih j hj
      simp
      omega

theorem find_first_of_append_cons (set : TString) (c : Char) (a b : TString)
    (hc : c ∈ set) (h : ∀ x ∈ a, x ∉ set) :
    find_first_of set (a ++ c :: b) = some a.length := by
  induction a with
  | nil => simp [find_first_of, hc]
  | cons x xs ih =>
    have hx : x ∉ set := h x (List.mem_cons_self _ _)
    have hxs : ∀ y ∈ xs, y ∉ set := fun y hy => h y (List.mem_cons_of_mem _ hy)
    simp [find_first_of, hx, ih hxs]

theorem find_first_of_eq_none (set : TString) (a : TString) (h : ∀ x ∈ a, x ∉ set) :
    find_first_of set a = none := by
  induction a with
  | nil => rfl
  | cons x xs ih =>
    have hx : x ∉ set := h x (List.mem_cons_self _ _)
    have hxs : ∀ y ∈ xs, y ∉ set := fun y hy => h y (List.mem_cons_of_mem _ hy)
    simp [find_first_of, hx, ih hxs]

theorem TrySplit_append_cons (c : Char) (a b : TString) (h : c ∉ a) :
    TrySplit (a ++ c :: b) c = some (a, b) := by
  simp [TrySplit, find_append_cons c a b h]

theorem TrySplit_eq_none (c : Char) (a : TString) (h : c ∉ a) : TrySplit a c = none := by
  simp [TrySplit, find_eq_none c a h]

theorem ParseDigits_append (base max : Nat) (a b : TString) (acc : Nat) :
    ParseDigits base max (a ++ b) acc
      = (ParseDigits base max a acc).bind (ParseDigits base max b) := by
  induction a generalizing acc with
  | nil => rfl
  | cons x xs ih =>
    simp only [List.cons_append, ParseDigits]
    cases hd : DigitValue base x with
    | none => rfl
    | some d =>
      simp only []
      split_ifs
      · exact ih _
      · rfl

theorem toNat_digit (d : Nat) (h : d < 10) : (Char.ofNat (48 + d)).toNat = 48 + d := by
  interval_cases d <;> rfl

theorem DigitValue_digit (base d : Nat) (h : d < 10) :
    DigitValue base (Char.ofNat (48 + d)) = some d := by
  unfold DigitValue
  rw [toNat_digit d h]
  simp
  omega

theorem ParseDigits_DecimalDigits (max : Nat) (fuel n : Nat) (hf : n < fuel) (hn : n ≤ max) :
    ParseDigits 10 max (DecimalDigits fuel n) 0 = some n := by
  induction fuel generalizing n with
  | zero => omega
  | succ f ih =>
    unfold DecimalDigits
    split_ifs with h10
    · simp [ParseDigits, DigitValue_digit 10 n h10, hn]
    · rw [ParseDigits_append, ih (n / 10) (by omega) (by omega)]
      have hm : n % 10 < 10 := Nat.mod_lt _ (by omega)
      simp only [Option.bind, ParseDigits, DigitValue_digit 10 (n % 10) hm]
      have : n / 10 * 10 + n % 10 = n := by omega
      simp [this, hn]

theorem DecimalDigits_ne_nil (fuel n : Nat) (hf : 0 < fuel) : DecimalDigits fuel n ≠ [] := by
  cases fuel with
  | zero => omega
  | succ f =>
    unfold DecimalDigits
    split_ifs <;> simp

theorem DecimalDigits_digit (fuel n : Nat) (c : Char) (h : c ∈ DecimalDigits fuel n) :
    48 ≤ c.toNat ∧ c.toNat ≤ 57 := by
  induction fuel generalizing n with
  | zero => simp [DecimalDigits] at h
  | succ f ih =>
    unfold DecimalDigits at h
    split_ifs at h with h10
    · simp at h
      subst h
      rw [toNat_digit n h10]
      omega
    · rw [List.mem_append] at h
      rcases h with h | h
      · exact ih _ h
      · simp at h
        subst h
        have hm : n % 10 < 10 := Nat.mod_lt _ (by omega)
        rw [toNat_digit _ hm]
        omega

theorem IntFromString_Decimal (max n : Nat) (hn : n ≤ max) :
    IntFromString 10 max (Decimal n) = .ok n := by
  unfold IntFromString Decimal
  rw [if_neg (DecimalDigits_ne_nil _ _ (by omega)), ParseDigits_DecimalDigits max _ n (by omega) hn]

theorem Decimal_not_mem (n : Nat) (c : Char) (hc : c.toNat < 48 ∨ 57 < c.toNat) :
    c ∉ Decimal n := by
  intro h
  have := DecimalDigits_digit _ _ c h
  omega

theorem Decimal_ne_nil (n : Nat) : Decimal n ≠ [] := DecimalDigits_ne_nil _ _ (by omega)

namespace THttpParser

theorem FirstAccepted_eq_find (accepted : List TString) (l : List TString) :
    FirstAccepted accepted l = (l.find? (fun c => decide (c ∈ accepted))).getD [] := by
  induction l with
  | nil => rfl
  | cons c rest ih =>
    by_cases hc : c ∈ accepted
    · simp [FirstAccepted, List.find?, hc]
    · simp [FirstAccepted, List.find?, hc, ih]

theorem FirstAccepted_nil_iff (accepted : List TString) (l : List TString)
    (hl : ∀ c ∈ l, c ≠ []) :
    FirstAccepted accepted l = [] ↔ ∀ c ∈ l, c ∉ accepted := by
  induction l with
  | nil => simp [FirstAccepted]
  | cons c rest ih =>
    have hrest : ∀ c ∈ rest, c ≠ [] := fun x hx => hl x (List.mem_cons_of_mem _ hx)
    have hc0 : c ≠ [] := hl c (List.mem_cons_self _ _)
    by_cases hc : c ∈ accepted
    · simp [FirstAccepted, hc, hc0]
    · simp [FirstAccepted, hc, ih hrest]

end THttpParser

theorem toLower_IsAsciiSpace (c : Char) : IsAsciiSpace c.toLower = IsAsciiSpace c := by
  unfold Char.toLower
  simp only []
  split_ifs with h
  · have h1 : IsAsciiSpace c = false := by
      unfold IsAsciiSpace
      have : c ≠ ' ' ∧ c ≠ '\t' ∧ c ≠ '\n' ∧ c ≠ Char.ofNat 11 ∧ c ≠ Char.ofNat 12 ∧ c ≠ '\r' := by
        refine ⟨?_, ?_, ?_, ?_, ?_, ?_⟩ <;> (intro hc; subst hc; revert h; decide)
      simp [this]
    rw [h1]
    have hn : c.toNat < 91 := by omega
    have hn2 : 65 ≤ c.toNat := h.1
    generalize c.toNat = n at hn hn2
    interval_cases n <;> rfl
  · rfl

theorem StripString_to_lower (l : TString) : StripString (to_lower l) = to_lower (StripString l) := by
  unfold StripString to_lower
  have h : (IsAsciiSpace ∘ Char.toLower) = IsAsciiSpace := by
    funext c
    exact toLower_IsAsciiSpace c
  rw [List.dropWhile_map, h, ← List.map_reverse, List.dropWhile_map, h, List.map_reverse]

theorem take_append_cons (a b : TString) (c : Char) : (a ++ c :: b).take a.length = a := by
  induction a with
  | nil => rfl
  | cons x xs ih => simp [ih]

theorem drop_append_cons (a b : TString) (c : Char) : (a ++ c :: b).drop (a.length + 1) = b := by
  induction a with
  | nil => rfl
  | cons x xs ih => simp [ih]

namespace THttpParser

theorem ReadLine_crlf (s : THttpParser) (l rest : TString) (hl : '\n' ∉ l)
    (hc : s.CurrentLine_ = []) (hd : s.Data_ = l ++ Crlf ++ rest) :
    ReadLine s = (true, { s with CurrentLine_ := l, Data_ := rest }) := by
  have hd2 : s.Data_ = (l ++ ['\r']) ++ '\n' :: rest := by simp [hd, Crlf]
  have hn : '\n' ∉ l ++ ['\r'] := by
    simp only [List.mem_append, List.mem_singleton, not_or]
    exact ⟨hl, by decide⟩
  unfold ReadLine
  rw [hd2, find_append_cons _ _ _ hn, hc]
  simp only [take_append_cons, drop_append_cons, List.nil_append]
  have h1 : (l ++ ['\r']) ≠ [] := by simp
  have h2 : (l ++ ['\r']).getLast? = some '\r' := by simp
  simp only [h1, h2, ne_eq, not_false_eq_true, and_self, if_true, List.dropLast_concat]

theorem AcceptEncodingLoop_ok (fuel : Nat) (enc : TString) (acc : List TString)
    (h : enc.length < fuel) : ∃ r, AcceptEncodingLoop fuel enc acc = .ok r := by
  induction fuel generalizing enc acc with
  | zero => omega
  | succ f ih =>
    unfold AcceptEncodingLoop
    split_ifs with he
    · exact ⟨_, rfl⟩
    · simp only [NextTok, TrySplit]
      cases hf : find ',' enc with
      | none => exact ⟨_, rfl⟩
      | some i =>
        simp only []
        apply ih
        have := find_some_le _ _ _ hf
        simp only [List.length_drop]
        omega

/-- What `ApplyHeaderLine` can do to the session. -/
theorem ApplyHeaderLine_frame (s s2 : THttpParser) (name val : TString)
    (h : ApplyHeaderLine s name val = .ok s2) :
    s2 = { s with KeepAlive_ := s2.KeepAlive_, HasContentLength_ := s2.HasContentLength_,
                  ContentLength_ := s2.ContentLength_, ChunkInputState_ := s2.ChunkInputState_,
                  AcceptEncodings_ := s2.AcceptEncodings_,
                  ContentEncoding_ := s2.ContentEncoding_ } := by
  unfold ApplyHeaderLine at h
  split_ifs at h
  · cases h; rfl
  · cases hv : IntFromString 10 MaxUi64 val with
    | error e => rw [hv] at h; cases h
    | ok n => rw [hv] at h; cases h; rfl
  · cases h; rfl
  · cases h; rfl
  · cases hv : AcceptEncodingLoop (val.length + 1) val s.AcceptEncodings_ with
    | error e => rw [hv] at h; cases h
    | ok n => rw [hv] at h; cases h; rfl
  · cases h; rfl
  · cases h; rfl

theorem ApplyHeaderLine_framing (s s2 : THttpParser) (name val : TString)
    (h : ApplyHeaderLine s name val = .ok s2) :
    (s2.HasContentLength_ = s.HasContentLength_ ∧ s2.ContentLength_ = s.ContentLength_ ∧
        s2.ChunkInputState_ = s.ChunkInputState_) ∨
    (name = "content-length".toList ∧ s2.HasContentLength_ = true ∧
        IntFromString 10 MaxUi64 val = .ok s2.ContentLength_ ∧
        s2.ChunkInputState_ = s.ChunkInputState_) ∨
    (name = "transfer-encoding".toList ∧ val = "chunked".toList ∧
        s2.HasContentLength_ = s.HasContentLength_ ∧ s2.ContentLength_ = s.ContentLength_ ∧
        s2.ChunkInputState_ = some ⟨0, false⟩) := by
  unfold ApplyHeaderLine at h
  split_ifs at h with h1 h2 h3 h4 h5 h6 h7
  · cases h; exact Or.inl ⟨rfl, rfl, rfl⟩
  · cases hv : IntFromString 10 MaxUi64 val with
    | error e => rw [hv] at h; cases h
    | ok n => rw [hv] at h; cases h; exact Or.inr (Or.inl ⟨h2, rfl, rfl, rfl⟩)
  · cases h; exact Or.inr (Or.inr ⟨h4, h5, rfl, rfl, rfl⟩)
  · cases h; exact Or.inl ⟨rfl, rfl, rfl⟩
  · cases hv : AcceptEncodingLoop (val.length + 1) val s.AcceptEncodings_ with
    | error e => rw [hv] at h; cases h
    | ok n => rw [hv] at h; cases h; exact Or.inl ⟨rfl, rfl, rfl⟩
  · cases h; exact Or.inl ⟨rfl, rfl, rfl⟩
  · cases h; exact Or.inl ⟨rfl, rfl, rfl⟩

theorem ApplyHeaderLine_plain (s : THttpParser) (name val : TString)
    (h1 : name ≠ "content-length".toList) (h2 : name ≠ "transfer-encoding".toList) :
    ∃ s2, ApplyHeaderLine s name val = .ok s2 := by
  unfold ApplyHeaderLine
  rw [if_neg h1, if_neg h2]
  split_ifs
  · exact ⟨_, rfl⟩
  · obtain ⟨r, hr⟩ := AcceptEncodingLoop_ok (val.length + 1) val s.AcceptEncodings_ (by omega)
    rw [hr]
    exact ⟨_, rfl⟩
  · exact ⟨_, rfl⟩
  · exact ⟨_, rfl⟩

/-- `ParseHeaderLine` on a pending line with a colon is `ApplyHeaderLine` on the
lower-cased, trimmed name and value of the line. -/
theorem ParseHeaderLine_eq (s : THttpParser) (pos : Nat) (hne : s.HeaderLine_ ≠ [])
    (hpos : find ':' s.HeaderLine_ = some pos) :
    ∃ hs hl name, (name = HeaderName s.HeaderLine_ ∨ name = to_lower (s.HeaderLine_.take pos)) ∧
      ParseHeaderLine s =
      match ApplyHeaderLine { s with Headers_ := hs, HeaderLine_ := hl }
          name (HeaderValue s.HeaderLine_) with
      | .error e => .error e
      | .ok s2 => .ok { s2 with HeaderLine_ := [] } := by
  unfold ParseHeaderLine
  rw [if_pos hne]
  cases hcol : s.CollectHeaders_ with
  | true =>
    refine ⟨s.Headers_ ++ [(StripString (s.HeaderLine_.take pos),
      StripString (s.HeaderLine_.drop (pos + 1)))], s.HeaderLine_,
      HeaderName s.HeaderLine_, Or.inl rfl, ?_⟩
    simp only [THttpInputHeader, hpos, HeaderName, HeaderValue, if_true]
  | false =>
    refine ⟨s.Headers_, to_lower s.HeaderLine_, HeaderName s.HeaderLine_, Or.inl rfl, ?_⟩
    simp only [hpos, HeaderName, HeaderValue, Bool.false_eq_true, if_false]
    have e1 : StripString ((to_lower s.HeaderLine_).take pos)
        = to_lower (StripString (s.HeaderLine_.take pos)) := by
      rw [← StripString_to_lower]; simp [to_lower, List.map_take]
    have e2 : StripString ((to_lower s.HeaderLine_).drop (pos + 1))
        = to_lower (StripString (s.HeaderLine_.drop (pos + 1))) := by
      rw [← StripString_to_lower]; simp [to_lower, List.map_drop]
    rw [e1, e2]

theorem ParseHeaderLine_frame (s s2 : THttpParser) (h : ParseHeaderLine s = .ok s2) :
    HeaderFrame s s2 := by
  by_cases hne : s.HeaderLine_ = []
  · unfold ParseHeaderLine at h
    simp only [hne, ne_eq, not_true_eq_false, if_false] at h
    cases h
    exact ⟨rfl, rfl, rfl, rfl, rfl, rfl, rfl, rfl, rfl, rfl, rfl, hne⟩
  · cases hpos : find ':' s.HeaderLine_ with
    | none =>
      unfold ParseHeaderLine at h
      simp only [hne, ne_eq, not_false_eq_true, if_true, THttpInputHeader, hpos] at h
      split_ifs at h
    | some pos =>
      obtain ⟨hs, hl, name, -, he⟩ := ParseHeaderLine_eq s pos hne hpos
      rw [he] at h
      cases ha : ApplyHeaderLine { s with Headers_ := hs, HeaderLine_ := hl }
          name (HeaderValue s.HeaderLine_) with
      | error e => rw [ha] at h; cases h
      | ok s3 =>
        rw [ha] at h
        cases h
        have hf := ApplyHeaderLine_frame _ _ _ _ ha
        rw [hf]
        exact ⟨rfl, rfl, rfl, rfl, rfl, rfl, rfl, rfl, rfl, rfl, rfl, rfl⟩

end THttpParser

theorem IsAsciiSpace_digit (c : Char) (h : 48 ≤ c.toNat) : IsAsciiSpace c = false := by
  unfold IsAsciiSpace
  have : c ≠ ' ' ∧ c ≠ '\t' ∧ c ≠ '\n' ∧ c ≠ Char.ofNat 11 ∧ c ≠ Char.ofNat 12 ∧ c ≠ '\r' := by
    refine ⟨?_, ?_, ?_, ?_, ?_, ?_⟩ <;> (intro hc; subst hc; revert h; decide)
  simp [this]

theorem toLower_digit (c : Char) (h : c.toNat < 65) : c.toLower = c := by
  unfold Char.toLower
  simp only []
  rw [if_neg]
  omega

theorem StripString_of_not_space (d : TString) (h : ∀ c ∈ d, IsAsciiSpace c = false) :
    StripString d = d := by
  have key : ∀ l : TString, (∀ c ∈ l, IsAsciiSpace c = false) → l.dropWhile IsAsciiSpace = l := by
    intro l hl
    cases l with
    | nil => rfl
    | cons x xs => simp [List.dropWhile, hl x (List.mem_cons_self _ _)]
  unfold StripString
  rw [key d h, key d.reverse (fun c hc => h c (List.mem_reverse.mp hc)), List.reverse_reverse]

theorem StripString_space_cons (d : TString) (h : ∀ c ∈ d, IsAsciiSpace c = false) :
    StripString (' ' :: d) = d := by
  have h0 : StripString (' ' :: d) = StripString d := by
    unfold StripString
    have : IsAsciiSpace ' ' = true := by decide
    simp [List.dropWhile, this]
  rw [h0, StripString_of_not_space d h]

theorem StripString_Decimal (n : Nat) : StripString (' ' :: Decimal n) = Decimal n :=
  StripString_space_cons _ (fun c hc => IsAsciiSpace_digit c (DecimalDigits_digit _ _ c hc).1)

theorem to_lower_Decimal (n : Nat) : to_lower (Decimal n) = Decimal n := by
  unfold to_lower
  conv_rhs => rw [← List.map_id (Decimal n)]
  apply List.map_congr_left
  intro c hc
  have := DecimalDigits_digit _ _ c hc
  exact toLower_digit c (by omega)

theorem to_lower_ne_of_strip (x t : TString) (h : to_lower (StripString x) ≠ t)
    (ht : ∀ c ∈ t, IsAsciiSpace c = false) : to_lower x ≠ t := by
  intro hx
  apply h
  have hns : ∀ c ∈ x, IsAsciiSpace c = false := by
    intro c hc
    rw [← toLower_IsAsciiSpace]
    apply ht
    rw [← hx]
    exact List.mem_map_of_mem _ hc
  rw [StripString_of_not_space x hns, hx]

theorem take_ContentLengthLine (n : Nat) :
    (ContentLengthLine n).take 14 = "Content-Length".toList := by
  have e : ContentLengthLine n = "Content-Length".toList ++ ':' :: (' ' :: Decimal n) := by
    simp [ContentLengthLine]
  rw [e]
  exact take_append_cons "Content-Length".toList _ _

theorem find_ContentLengthLine (n : Nat) : find ':' (ContentLengthLine n) = some 14 := by
  have e : ContentLengthLine n = "Content-Length".toList ++ ':' :: (' ' :: Decimal n) := by
    simp [ContentLengthLine]
  rw [e, find_append_cons _ _ _ (by decide)]
  rfl

theorem HeaderName_ContentLengthLine (n : Nat) :
    HeaderName (ContentLengthLine n) = "content-length".toList := by
  unfold HeaderName
  rw [find_ContentLengthLine]
  have e : ContentLengthLine n = "Content-Length".toList ++ ':' :: (' ' :: Decimal n) := by
    simp [ContentLengthLine]
  have : (ContentLengthLine n).take 14 = "Content-Length".toList := by
    rw [e]; exact take_append_cons "Content-Length".toList _ _
  simp only [this]
  decide

theorem HeaderValue_ContentLengthLine (n : Nat) :
    HeaderValue (ContentLengthLine n) = Decimal n := by
  unfold HeaderValue
  rw [find_ContentLengthLine]
  have e : ContentLengthLine n = "Content-Length".toList ++ ':' :: (' ' :: Decimal n) := by
    simp [ContentLengthLine]
  have : (ContentLengthLine n).drop (14 + 1) = ' ' :: Decimal n := by
    rw [e]; exact drop_append_cons "Content-Length".toList _ _
  simp only [this, StripString_Decimal, to_lower_Decimal]

theorem ContentLengthLine_shape (n : Nat) :
    ContentLengthLine n ≠ [] ∧ (ContentLengthLine n).head? ≠ some ' ' ∧
    (ContentLengthLine n).head? ≠ some '\t' ∧ '\n' ∉ ContentLengthLine n := by
  have e : ContentLengthLine n = 'C' :: ("ontent-Length: ".toList ++ Decimal n) := by
    simp [ContentLengthLine]
  refine ⟨by rw [e]; simp, by rw [e]; simp, by rw [e]; simp, ?_⟩
  unfold ContentLengthLine
  rw [List.mem_append, not_or]
  exact ⟨by decide, Decimal_not_mem n _ (by decide)⟩

namespace THttpParser

theorem ParseHeaderLine_nil (s : THttpParser) (h : s.HeaderLine_ = []) :
    ParseHeaderLine s = .ok s := by
  unfold ParseHeaderLine
  simp [h]

theorem ParseHeaderLine_plain (s : THttpParser) (h : PlainHeader s.HeaderLine_) :
    ∃ s2, ParseHeaderLine s = .ok s2 ∧ s2.HasContentLength_ = s.HasContentLength_ ∧
      s2.ContentLength_ = s.ContentLength_ ∧ s2.ChunkInputState_ = s.ChunkInputState_ := by
  obtain ⟨hne, -, -, -, hcolon, hn1, hn2⟩ := h
  obtain ⟨pos, hpos⟩ := Option.isSome_iff_exists.mp hcolon
  obtain ⟨hs, hl, name, hname, he⟩ := ParseHeaderLine_eq s pos hne hpos
  have hraw : HeaderName s.HeaderLine_ = to_lower (StripString (s.HeaderLine_.take pos)) := by
    simp only [HeaderName, hpos]
  have hm1 : name ≠ "content-length".toList := by
    rcases hname with rfl | rfl
    · exact hn1
    · exact to_lower_ne_of_strip _ _ (by rw [← hraw]; exact hn1) (by decide)
  have hm2 : name ≠ "transfer-encoding".toList := by
    rcases hname with rfl | rfl
    · exact hn2
    · exact to_lower_ne_of_strip _ _ (by rw [← hraw]; exact hn2) (by decide)
  obtain ⟨s3, h3⟩ := ApplyHeaderLine_plain { s with Headers_ := hs, HeaderLine_ := hl }
    name (HeaderValue s.HeaderLine_) hm1 hm2
  rw [h3] at he
  refine ⟨_, he, ?_⟩
  rcases ApplyHeaderLine_framing _ _ _ _ h3 with h | h | h
  · exact h
  · exact absurd h.1 hm1
  · exact absurd h.1 hm2

theorem ParseHeaderLine_ContentLengthLine (s : THttpParser) (n : Nat) (hn : n ≤ MaxUi64)
    (h : s.HeaderLine_ = ContentLengthLine n) :
    ∃ s2, ParseHeaderLine s = .ok s2 ∧ s2.HasContentLength_ = true ∧
      s2.ContentLength_ = n ∧ s2.ChunkInputState_ = s.ChunkInputState_ := by
  have hne : s.HeaderLine_ ≠ [] := by rw [h]; exact (ContentLengthLine_shape n).1
  obtain ⟨hs, hl, name, hname, he⟩ :=
    ParseHeaderLine_eq s 14 hne (by rw [h]; exact find_ContentLengthLine n)
  have hnm : name = "content-length".toList := by
    rcases hname with rfl | rfl
    · rw [h, HeaderName_ContentLengthLine]
    · rw [h, take_ContentLengthLine]
      decide
  rw [hnm, h, HeaderValue_ContentLengthLine] at he
  simp only [ApplyHeaderLine, if_true, Decimal_ne_nil, if_false, IntFromString_Decimal _ _ hn,
    show ("content-length".toList = "connection".toList) = False from by decide] at he
  exact ⟨_, he, rfl, rfl, rfl⟩

theorem ParseHeaderLine_ChunkedLine (s : THttpParser) (h : s.HeaderLine_ = ChunkedLine) :
    ∃ s2, ParseHeaderLine s = .ok s2 ∧ s2.HasContentLength_ = s.HasContentLength_ ∧
      s2.ContentLength_ = s.ContentLength_ ∧ s2.ChunkInputState_ = some ⟨0, false⟩ := by
  have hne : s.HeaderLine_ ≠ [] := by rw [h]; decide
  obtain ⟨hs, hl, name, hname, he⟩ := ParseHeaderLine_eq s 17 hne (by rw [h]; decide)
  have e1 : name = "transfer-encoding".toList := by
    rcases hname with rfl | rfl
    · rw [h]; decide
    · rw [h]; decide
  have e2 : HeaderValue ChunkedLine = "chunked".toList := by decide
  rw [e1, h, e2] at he
  simp only [ApplyHeaderLine, if_true,
    show ("transfer-encoding".toList = "connection".toList) = False from by decide,
    show ("transfer-encoding".toList = "content-length".toList) = False from by decide,
    if_false] at he
  exact ⟨_, he, rfl, rfl, rfl⟩

end THttpParser

theorem HeaderBlock_length (lines : List TString) : lines.length ≤ (HeaderBlock lines).length := by
  induction lines with
  | nil => simp
  | cons l ls ih => simp [HeaderBlock, Crlf]; omega

theorem AllowedHeader_shape (n : Option Nat) (te : Bool) (l : TString)
    (h : AllowedHeader n te l) :
    l ≠ [] ∧ l.head? ≠ some ' ' ∧ l.head? ≠ some '\t' ∧ '\n' ∉ l := by
  rcases h with h | ⟨m, -, -, rfl⟩ | ⟨-, rfl⟩
  · exact ⟨h.1, h.2.1, h.2.2.1, h.2.2.2.1⟩
  · exact ContentLengthLine_shape m
  · decide

theorem ContentLengthLine_not_plain (m : Nat) : ¬ PlainHeader (ContentLengthLine m) :=
  fun h => h.2.2.2.2.2.1 (HeaderName_ContentLengthLine m)

theorem ChunkedLine_not_plain : ¬ PlainHeader ChunkedLine := by decide

theorem ChunkedLine_ne_ContentLengthLine (m : Nat) : ChunkedLine ≠ ContentLengthLine m := by
  intro h
  have h1 := HeaderName_ContentLengthLine m
  rw [← h] at h1
  revert h1
  decide

namespace THttpParser

theorem HeadersInv_weaken (n : Option Nat) (te : Bool) (s0 s : THttpParser)
    (done : List TString) (h : HeadersInv n te s0 done s) : HeadersInv n te s0 [] s :=
  ⟨h.msg, h.ver, h.code, h.body, h.cl, h.ch, fun _ _ hm => absurd hm (List.not_mem_nil _),
    fun _ hm => absurd hm (List.not_mem_nil _)⟩

/-- Applying the pending header line of a session that is reading an allowed
header block. -/
theorem ParseHeaderLine_pending (n : Option Nat) (te : Bool) (s0 s : THttpParser)
    (done : List TString) (hinv : HeadersInv n te s0 done s)
    (hp : s.HeaderLine_ = [] ∨ AllowedHeader n te s.HeaderLine_) :
    ∃ s2, ParseHeaderLine s = .ok s2 ∧ HeaderFrame s s2 ∧
      HeadersInv n te s0 (done ++ [s.HeaderLine_]) s2 := by
  rcases hp with hp | hp | ⟨m, hm, hle, hp⟩ | ⟨hte, hp⟩
  · refine ⟨s, ParseHeaderLine_nil s hp, ParseHeaderLine_frame s s (ParseHeaderLine_nil s hp), ?_⟩
    refine ⟨hinv.msg, hinv.ver, hinv.code, hinv.body, hinv.cl, hinv.ch, ?_, ?_⟩
    · intro k hk hmem
      rw [hp, List.mem_append, List.mem_singleton] at hmem
      rcases hmem with hmem | hmem
      · exact hinv.clDone k hk hmem
      · exact absurd hmem (ContentLengthLine_shape k).1
    · intro ht hmem
      rw [hp, List.mem_append, List.mem_singleton] at hmem
      rcases hmem with hmem | hmem
      · exact hinv.teDone ht hmem
      · exact absurd hmem (by decide)
  · obtain ⟨s2, h2, e1, e2, e3⟩ := ParseHeaderLine_plain s hp
    have hf := ParseHeaderLine_frame s s2 h2
    refine ⟨s2, h2, hf, ?_⟩
    refine ⟨hf.msg.trans hinv.msg, hf.ver.trans hinv.ver, hf.code.trans hinv.code,
      hf.body.trans hinv.body, ?_, ?_, ?_, ?_⟩
    · rw [e1, e2]; exact hinv.cl
    · rw [e3]; exact hinv.ch
    · intro k hk hmem
      rw [List.mem_append, List.mem_singleton] at hmem
      rcases hmem with hmem | hmem
      · rw [e1]; exact hinv.clDone k hk hmem
      · rw [← hmem] at hp; exact absurd hp (ContentLengthLine_not_plain k)
    · intro ht hmem
      rw [List.mem_append, List.mem_singleton] at hmem
      rcases hmem with hmem | hmem
      · rw [e3]; exact hinv.teDone ht hmem
      · rw [← hmem] at hp; exact absurd hp ChunkedLine_not_plain
  · obtain ⟨s2, h2, e1, e2, e3⟩ := ParseHeaderLine_ContentLengthLine s m hle hp
    have hf := ParseHeaderLine_frame s s2 h2
    refine ⟨s2, h2, hf, ?_⟩
    refine ⟨hf.msg.trans hinv.msg, hf.ver.trans hinv.ver, hf.code.trans hinv.code,
      hf.body.trans hinv.body, ?_, ?_, ?_, ?_⟩
    · intro _; rw [e2]; exact hm
    · rw [e3]; exact hinv.ch
    · intro _ _ _; exact e1
    · intro ht hmem
      rw [List.mem_append, List.mem_singleton] at hmem
      rcases hmem with hmem | hmem
      · rw [e3]; exact hinv.teDone ht hmem
      · rw [hp] at hmem; exact absurd hmem (ChunkedLine_ne_ContentLengthLine m)
  · obtain ⟨s2, h2, e1, e2, e3⟩ := ParseHeaderLine_ChunkedLine s hp
    have hf := ParseHeaderLine_frame s s2 h2
    refine ⟨s2, h2, hf, ?_⟩
    refine ⟨hf.msg.trans hinv.msg, hf.ver.trans hinv.ver, hf.code.trans hinv.code,
      hf.body.trans hinv.body, ?_, ?_, ?_, ?_⟩
    · rw [e1, e2]; exact hinv.cl
    · exact Or.inr ⟨hte, e3⟩
    · intro k hk hmem
      rw [List.mem_append, List.mem_singleton] at hmem
      rcases hmem with hmem | hmem
      · rw [e1]; exact hinv.clDone k hk hmem
      · rw [hp] at hmem; exact absurd hmem.symm (ChunkedLine_ne_ContentLengthLine k)
    · intro _ _; exact e3

/-- The header loop on an allowed header block followed by the empty line: either
a known content length of zero ends the message at the empty line, or every
header line is applied and the body parser takes over. -/
theorem HeadersLoop_block (n : Option Nat) (te : Bool) (s0 : THttpParser) (rest : TString) :
    ∀ (lines done : List TString) (s : THttpParser) (fuel : Nat),
    (∀ l ∈ lines, AllowedHeader n te l) →
    HeadersInv n te s0 done s → s.CurrentLine_ = [] →
    (s.HeaderLine_ = [] ∨ AllowedHeader n te s.HeaderLine_) →
    s.Data_ = HeaderBlock lines ++ Crlf ++ rest → lines.length < fuel →
    ∃ sF, sF.Data_ = rest ∧ sF.CurrentLine_ = [] ∧
      ((HeadersInv n te s0 [] sF ∧ sF.HasContentLength_ = true ∧ sF.ContentLength_ = 0 ∧
          HeadersLoop fuel s = .ok (OnEndParsing sF)) ∨
       (HeadersInv n te s0 (done ++ s.HeaderLine_ :: lines) sF ∧ sF.HeaderLine_ = [] ∧
          HeadersLoop fuel s =
            if sF.ChunkInputState_.isSome then ChunkedContentParser sF
            else .ok (ContentParser sF))) := by
  intro lines
  induction lines with
  | nil =>
    intro done s fuel _ hinv hcur hpend hdata hfuel
    obtain ⟨f, rfl⟩ : ∃ f, fuel = f + 1 := ⟨fuel - 1, by omega⟩
    have hrl := ReadLine_crlf s [] rest (by simp) hcur (by simpa [HeaderBlock] using hdata)
    by_cases hz : s.HasContentLength_ = true ∧ s.ContentLength_ = 0
    · refine ⟨{ s with CurrentLine_ := [], Data_ := rest }, rfl, rfl, Or.inl
        ⟨HeadersInv_weaken n te s0 _ done
          ⟨hinv.msg, hinv.ver, hinv.code, hinv.body, hinv.cl, hinv.ch, hinv.clDone, hinv.teDone⟩,
          hz.1, hz.2, ?_⟩⟩
      unfold HeadersLoop
      rw [hrl]
      simp only [if_true]
      rw [if_pos hz]
    · obtain ⟨s2, h2, hf, hinv2⟩ := ParseHeaderLine_pending n te s0
        { s with CurrentLine_ := [], Data_ := rest } done
        ⟨hinv.msg, hinv.ver, hinv.code, hinv.body, hinv.cl, hinv.ch, hinv.clDone, hinv.teDone⟩
        hpend
      refine ⟨s2, hf.data, hf.cur, Or.inr ⟨by simpa using hinv2, hf.pending, ?_⟩⟩
      unfold HeadersLoop
      rw [hrl]
      simp only [if_true]
      rw [if_neg hz, h2]
  | cons l ls ih =>
    intro done s fuel hall hinv hcur hpend hdata hfuel
    obtain ⟨f, rfl⟩ : ∃ f, fuel = f + 1 := ⟨fuel - 1, by simp at hfuel; omega⟩
    have hl := AllowedHeader_shape n te l (hall l (List.mem_cons_self _ _))
    have hrl := ReadLine_crlf s l (HeaderBlock ls ++ Crlf ++ rest) hl.2.2.2 hcur
      (by simp [hdata, HeaderBlock, List.append_assoc])
    obtain ⟨s2, h2, hf, hinv2⟩ := ParseHeaderLine_pending n te s0
      { s with CurrentLine_ := l, Data_ := HeaderBlock ls ++ Crlf ++ rest } done
      ⟨hinv.msg, hinv.ver, hinv.code, hinv.body, hinv.cl, hinv.ch, hinv.clDone, hinv.teDone⟩
      hpend
    have hstep : HeadersLoop (f + 1) s
        = HeadersLoop f { s2 with HeaderLine_ := l, CurrentLine_ := [] } := by
      conv_lhs => unfold HeadersLoop
      rw [hrl]
      simp only [if_neg hl.1, hl.2.1, hl.2.2.1, or_self, if_false, h2]
      rw [hf.cur, hf.pending]
    obtain ⟨sF, hd, hc, hres⟩ := ih (done ++ [s.HeaderLine_])
      { s2 with HeaderLine_ := l, CurrentLine_ := [] } f
      (fun x hx => hall x (List.mem_cons_of_mem _ hx))
      ⟨hinv2.msg, hinv2.ver, hinv2.code, hinv2.body, hinv2.cl, hinv2.ch, hinv2.clDone,
        hinv2.teDone⟩
      rfl (Or.inr (hall l (List.mem_cons_self _ _)))
      (by show s2.Data_ = _; rw [hf.data])
      (by simp at hfuel; omega)
    refine ⟨sF, hd, hc, ?_⟩
    rw [hstep]
    rcases hres with hres | hres
    · exact Or.inl hres
    · refine Or.inr ?_
      simpa [List.append_assoc] using hres

theorem ParseHttpVersion_frame (s r : THttpParser) (v : TString)
    (h : ParseHttpVersion s v = .ok r) :
    r = { s with HttpVersion_ := r.HttpVersion_, KeepAlive_ := r.KeepAlive_ } := by
  unfold ParseHttpVersion at h
  split_ifs at h
  cases hs : Split (v.drop 5) '.' with
  | error e => rw [hs] at h; cases h
  | ok p =>
    obtain ⟨a, b⟩ := p
    rw [hs] at h
    simp only [] at h
    cases ha : IntFromString 10 MaxUi32 a with
    | error e => rw [ha] at h; cases h
    | ok ma =>
      rw [ha] at h
      simp only [] at h
      cases hb : IntFromString 10 MaxUi32 b with
      | error e => rw [hb] at h; cases h
      | ok mi =>
        rw [hb] at h
        simp only [] at h
        split_ifs at h <;> (cases h; rfl)

theorem ParseHttpVersion_congr (s r s' : THttpParser) (v : TString)
    (h : ParseHttpVersion s v = .ok r) : ∃ r', ParseHttpVersion s' v = .ok r' := by
  unfold ParseHttpVersion at h ⊢
  split_ifs at h ⊢
  cases hs : Split (v.drop 5) '.' with
  | error e => rw [hs] at h; cases h
  | ok p =>
    obtain ⟨a, b⟩ := p
    rw [hs] at h
    simp only [] at h ⊢
    cases ha : IntFromString 10 MaxUi32 a with
    | error e => rw [ha] at h; cases h
    | ok ma =>
      rw [ha] at h
      simp only [] at h ⊢
      cases hb : IntFromString 10 MaxUi32 b with
      | error e => rw [hb] at h; cases h
      | ok mi =>
        simp only []
        split_ifs <;> exact ⟨_, rfl⟩

theorem ParseFirstLine_frame (s r : THttpParser) (h : ParseFirstLine s = .ok r) :
    r = { s with HttpVersion_ := r.HttpVersion_, KeepAlive_ := r.KeepAlive_,
                 RetCode_ := r.RetCode_ } := by
  unfold ParseFirstLine at h
  split_ifs at h
  · cases hg : GetNext (some s.FirstLine_) ' ' with
    | error e => rw [hg] at h; cases h
    | ok p =>
      obtain ⟨v, rest⟩ := p
      rw [hg] at h
      simp only [] at h
      cases hv : ParseHttpVersion s v with
      | error e => rw [hv] at h; cases h
      | ok s1 =>
        rw [hv] at h
        simp only [] at h
        cases hg2 : GetNext rest ' ' with
        | error e => rw [hg2] at h; cases h
        | ok p2 =>
          obtain ⟨c, rest2⟩ := p2
          rw [hg2] at h
          simp only [] at h
          cases hc : IntFromString 10 MaxUi32 c with
          | error e => rw [hc] at h; cases h
          | ok code =>
            rw [hc] at h
            cases h
            have := ParseHttpVersion_frame s s1 v hv
            rw [this]
  · have := ParseHttpVersion_frame s r _ h
    rw [this]

theorem ParseFirstLine_congr (s r s' : THttpParser) (hm : s'.MessageType_ = s.MessageType_)
    (hf : s'.FirstLine_ = s.FirstLine_) (h : ParseFirstLine s = .ok r) :
    ∃ r', ParseFirstLine s' = .ok r' := by
  unfold ParseFirstLine at h ⊢
  rw [hm, hf]
  split_ifs at h ⊢
  · cases hg : GetNext (some s.FirstLine_) ' ' with
    | error e => rw [hg] at h; cases h
    | ok p =>
      obtain ⟨v, rest⟩ := p
      rw [hg] at h
      simp only [] at h ⊢
      cases hv : ParseHttpVersion s v with
      | error e => rw [hv] at h; cases h
      | ok s1 =>
        rw [hv] at h
        simp only [] at h
        obtain ⟨s1', hv'⟩ := ParseHttpVersion_congr s s1 s' v hv
        rw [hv']
        simp only []
        cases hg2 : GetNext rest ' ' with
        | error e => rw [hg2] at h; cases h
        | ok p2 =>
          obtain ⟨c, rest2⟩ := p2
          rw [hg2] at h
          simp only [] at h ⊢
          cases hc : IntFromString 10 MaxUi32 c with
          | error e => rw [hc] at h; cases h
          | ok code => exact ⟨_, rfl⟩
  · exact ParseHttpVersion_congr s r s' _ h

theorem ParseFirstLine_of_FirstLineOk (mt : TMessageType) (fl : TString)
    (h : FirstLineOk mt fl = true) (s : THttpParser) (hm : s.MessageType_ = mt)
    (hf : s.FirstLine_ = fl) : ∃ r, ParseFirstLine s = .ok r := by
  unfold FirstLineOk at h
  cases hp : ParseFirstLine { Init mt true with FirstLine_ := fl } with
  | error e => rw [hp] at h; cases h
  | ok r0 => exact ParseFirstLine_congr _ r0 s hm hf hp

theorem FirstLineParser_line (s : THttpParser) (fl rest : TString) (hfl : '\n' ∉ fl)
    (hc : s.CurrentLine_ = []) (hf : s.FirstLine_ = []) (hd : s.Data_ = fl ++ Crlf ++ rest) :
    FirstLineParser s =
      match ParseFirstLine { s with CurrentLine_ := [], FirstLine_ := fl, Data_ := rest } with
      | .error _ => .error .THttpParseException
      | .ok s2 => HeadersParser s2 := by
  unfold FirstLineParser
  rw [ReadLine_crlf s fl rest hfl hc hd]
  simp only [hf]

/-- Feeding a whole message head (first line, allowed header block, empty line)
and what follows it to a fresh session. -/
theorem Parse_message (mt : TMessageType) (collect : Bool) (fl : TString)
    (lines : List TString) (rest : TString) (n : Option Nat) (te : Bool)
    (hfl : '\n' ∉ fl) (hall : ∀ l ∈ lines, AllowedHeader n te l) (s2 : THttpParser)
    (h2 : ParseFirstLine { Init mt collect with
            FirstLine_ := fl, Data_ := HeaderBlock lines ++ Crlf ++ rest } = .ok s2) :
    ∃ sF, sF.Data_ = rest ∧ sF.CurrentLine_ = [] ∧
      ((HeadersInv n te s2 [] sF ∧ sF.HasContentLength_ = true ∧ sF.ContentLength_ = 0 ∧
          Parse (Init mt collect) (fl ++ Crlf ++ HeaderBlock lines ++ Crlf ++ rest)
            = .ok (OnEndParsing sF)) ∨
       (HeadersInv n te s2 ([] :: lines) sF ∧ sF.HeaderLine_ = [] ∧
          Parse (Init mt collect) (fl ++ Crlf ++ HeaderBlock lines ++ Crlf ++ rest) =
            if sF.ChunkInputState_.isSome then ChunkedContentParser sF
            else .ok (ContentParser sF))) := by
  have hfr := ParseFirstLine_frame _ _ h2
  have hcl : s2.HasContentLength_ = false := by rw [hfr]; rfl
  have hch : s2.ChunkInputState_ = none := by rw [hfr]; rfl
  have hcur : s2.CurrentLine_ = [] := by rw [hfr]; rfl
  have hhl : s2.HeaderLine_ = [] := by rw [hfr]; rfl
  have hdata : s2.Data_ = HeaderBlock lines ++ Crlf ++ rest := by rw [hfr]
  have hinv : HeadersInv n te s2 [] s2 :=
    ⟨rfl, rfl, rfl, rfl, (fun h => by rw [hcl] at h; cases h), Or.inl hch,
      fun _ _ hm => absurd hm (List.not_mem_nil _), fun _ hm => absurd hm (List.not_mem_nil _)⟩
  have hparse : Parse (Init mt collect) (fl ++ Crlf ++ HeaderBlock lines ++ Crlf ++ rest)
      = HeadersLoop (s2.Data_.length + 1) s2 := by
    have e : fl ++ Crlf ++ HeaderBlock lines ++ Crlf ++ rest
        = fl ++ Crlf ++ (HeaderBlock lines ++ Crlf ++ rest) := by simp [List.append_assoc]
    rw [e]
    show FirstLineParser { Init mt collect with
      Data_ := fl ++ Crlf ++ (HeaderBlock lines ++ Crlf ++ rest) } = _
    rw [FirstLineParser_line _ fl (HeaderBlock lines ++ Crlf ++ rest) hfl rfl rfl rfl]
    have h2' : ParseFirstLine { ({ Init mt collect with
        Data_ := fl ++ Crlf ++ (HeaderBlock lines ++ Crlf ++ rest) } : THttpParser) with
        CurrentLine_ := [], FirstLine_ := fl, Data_ := HeaderBlock lines ++ Crlf ++ rest }
        = .ok s2 := h2
    rw [h2']
    rfl
  obtain ⟨sF, hd, hc, hres⟩ := HeadersLoop_block n te s2 rest lines [] s2 (s2.Data_.length + 1)
    hall hinv hcur (Or.inl hhl) hdata
    (by rw [hdata]; have := HeaderBlock_length lines; simp; omega)
  refine ⟨sF, hd, hc, ?_⟩
  rw [hparse]
  rw [hhl] at hres
  simpa using hres

theorem ParseHttpVersion_Decimal (s : THttpParser) (major minor : Nat)
    (hM : major ≤ MaxUi32) (hm : minor ≤ MaxUi32) :
    ∃ ka, ParseHttpVersion s ("HTTP/".toList ++ Decimal major ++ ['.'] ++ Decimal minor)
      = .ok { s with HttpVersion_ := ⟨major, minor⟩, KeepAlive_ := ka } := by
  have e : "HTTP/".toList ++ Decimal major ++ ['.'] ++ Decimal minor
      = "HTTP/".toList ++ (Decimal major ++ '.' :: Decimal minor) := by simp [List.append_assoc]
  have hdot1 : '.' ∉ Decimal major := Decimal_not_mem _ _ (by decide)
  have hdot2 : '.' ∉ Decimal minor := Decimal_not_mem _ _ (by decide)
  have hsplit : Split (Decimal major ++ '.' :: Decimal minor) '.'
      = .ok (Decimal major, Decimal minor) := by
    have hne : Decimal major ++ '.' :: Decimal minor ≠ [] := by simp
    simp only [Split, GetNext, if_neg hne, NextTok, TrySplit_append_cons _ _ _ hdot1,
      if_neg (Decimal_ne_nil minor), TrySplit_eq_none _ _ hdot2]
  unfold ParseHttpVersion
  rw [e]
  have h5 : ("HTTP/".toList ++ (Decimal major ++ '.' :: Decimal minor)).take 5 = "HTTP/".toList := by
    simp
  have h5d : ("HTTP/".toList ++ (Decimal major ++ '.' :: Decimal minor)).drop 5
      = Decimal major ++ '.' :: Decimal minor := by
    simp
  rw [h5, h5d, hsplit]
  simp only [ne_eq, not_true_eq_false, if_false, IntFromString_Decimal _ _ hM,
    IntFromString_Decimal _ _ hm]
  split_ifs
  · exact ⟨true, rfl⟩
  · exact ⟨s.KeepAlive_, rfl⟩

theorem ParseFirstLine_StatusLine (s : THttpParser) (major minor code : Nat)
    (reason : TString) (hmt : s.MessageType_ = .Response)
    (hf : s.FirstLine_ = StatusLine major minor code reason)
    (hM : major ≤ MaxUi32) (hm : minor ≤ MaxUi32) (hc : code ≤ MaxUi32) :
    ∃ ka, ParseFirstLine s
      = .ok { s with HttpVersion_ := ⟨major, minor⟩, KeepAlive_ := ka, RetCode_ := code } := by
  have e : StatusLine major minor code reason
      = ("HTTP/".toList ++ Decimal major ++ ['.'] ++ Decimal minor)
          ++ ' ' :: (Decimal code ++ ' ' :: reason) := by
    simp [StatusLine, List.append_assoc]
  have hsp : ' ' ∉ "HTTP/".toList ++ Decimal major ++ ['.'] ++ Decimal minor := by
    simp only [List.mem_append, not_or]
    exact ⟨⟨⟨by decide, Decimal_not_mem _ _ (by decide)⟩, by decide⟩,
      Decimal_not_mem _ _ (by decide)⟩
  have hsp2 : ' ' ∉ Decimal code := Decimal_not_mem _ _ (by decide)
  obtain ⟨ka, hv⟩ := ParseHttpVersion_Decimal s major minor hM hm
  refine ⟨ka, ?_⟩
  unfold ParseFirstLine
  rw [if_pos hmt, hf, e]
  have hne : ("HTTP/".toList ++ Decimal major ++ ['.'] ++ Decimal minor)
          ++ ' ' :: (Decimal code ++ ' ' :: reason) ≠ [] := by simp
  have hne2 : Decimal code ++ ' ' :: reason ≠ [] := by simp
  simp only [GetNext, if_neg hne, NextTok, TrySplit_append_cons _ _ _ hsp, hv, if_neg hne2,
    TrySplit_append_cons _ _ _ hsp2, IntFromString_Decimal _ _ hc]
  rw [hf, e]

end THttpParser

theorem StatusLine_no_newline (major minor code : Nat) (reason : TString)
    (hr : '\n' ∉ reason) : '\n' ∉ StatusLine major minor code reason := by
  intro h
  simp only [StatusLine, List.mem_append] at h
  rcases h with ((((((h | h) | h) | h) | h) | h) | h) | h
  · exact absurd h (by decide)
  · exact Decimal_not_mem _ _ (by decide) h
  · exact absurd h (by decide)
  · exact Decimal_not_mem _ _ (by decide) h
  · exact absurd h (by decide)
  · exact Decimal_not_mem _ _ (by decide) h
  · exact absurd h (by decide)
  · exact hr h

namespace THttpParser

theorem ContentParser_exact (s : THttpParser) (n : Nat) (b extra : TString)
    (hcl : s.HasContentLength_ = true) (hn : s.ContentLength_ = n) (hmax : n ≤ MaxUi64)
    (hbody : s.Content_ = []) (hd : s.Data_ = b ++ extra) (hb : b.length = n) :
    ContentParser s = (true, { s with Content_ := b, Data_ := extra, Parser_ := .OnEndParsing,
                                      ExtraDataSize_ := extra.length }) := by
  unfold ContentParser
  have hrd : min (b ++ extra).length
      ((n + (MaxUi64 + 1) - ([] : TString).length % (MaxUi64 + 1)) % (MaxUi64 + 1)) = b.length := by
    simp only [List.length_append, List.length_nil, Nat.zero_mod, Nat.sub_zero, hb]
    unfold MaxUi64 at hmax ⊢
    omega
  rw [if_pos hcl, hbody, hd, hn, hrd]
  simp only [List.take_left', List.drop_left', List.nil_append, hb, if_true, OnEndParsing]

end THttpParser

theorem HexValue_le (h : TString) (acc v : Nat) (hv : HexValue h acc = some v) : acc ≤ v := by
  induction h generalizing acc with
  | nil => simp [HexValue] at hv; omega
  | cons c cs ih =>
    unfold HexValue at hv
    cases hd : DigitValue 16 c with
    | none => rw [hd] at hv; cases hv
    | some d =>
      rw [hd] at hv
      have := ih _ hv
      omega

theorem ParseDigits_of_HexValue (max : Nat) (h : TString) (acc v : Nat)
    (hv : HexValue h acc = some v) (hmax : v ≤ max) : ParseDigits 16 max h acc = some v := by
  induction h generalizing acc with
  | nil => simpa [HexValue, ParseDigits] using hv
  | cons c cs ih =>
    unfold HexValue at hv
    unfold ParseDigits
    cases hd : DigitValue 16 c with
    | none => rw [hd] at hv; cases hv
    | some d =>
      rw [hd] at hv
      simp only [] at hv ⊢
      have hle := HexValue_le _ _ _ hv
      rw [if_pos (by omega)]
      exact ih _ hv

theorem HexValue_digit (h : TString) (acc v : Nat) (hv : HexValue h acc = some v) :
    ∀ c ∈ h, (DigitValue 16 c).isSome = true := by
  induction h generalizing acc with
  | nil => intro c hc; cases hc
  | cons x xs ih =>
    unfold HexValue at hv
    cases hd : DigitValue 16 x with
    | none => rw [hd] at hv; cases hv
    | some d =>
      rw [hd] at hv
      intro c hc
      rcases List.mem_cons.mp hc with rfl | hc
      · rw [hd]; rfl
      · exact ih _ hv c hc

theorem DigitValue_isSome_ge (base : Nat) (c : Char) (h : (DigitValue base c).isSome = true) :
    48 ≤ c.toNat ∧ c.toNat ≠ 59 := by
  unfold DigitValue at h
  split_ifs at h with h1 h2 h3
  · omega
  · omega
  · omega
  · cases h

theorem hex_not_delim (c : Char) (h : (DigitValue 16 c).isSome = true) :
    c ∉ " \t;".toList ∧ c ≠ '\n' := by
  have hc := DigitValue_isSome_ge 16 c h
  refine ⟨?_, ?_⟩
  · intro hm
    have : c = ' ' ∨ c = '\t' ∨ c = ';' := by simpa using hm
    rcases this with rfl | rfl | rfl
    · exact absurd hc.1 (by decide)
    · exact absurd hc.1 (by decide)
    · exact hc.2 (by decide)
  · rintro rfl
    exact absurd hc.1 (by decide)

/-- The size line of a well-formed chunk: it is not empty, holds no line feed, and
its size field is the size literal, which parses to the length of the data. -/
theorem TChunk.sizeLine (c : TChunk) (h : c.WellFormed) :
    c.Size ++ c.Ext ≠ [] ∧ '\n' ∉ c.Size ++ c.Ext ∧
    (c.Size ++ c.Ext).take (match find_first_of " \t;".toList (c.Size ++ c.Ext) with
      | none => (c.Size ++ c.Ext).length
      | some i => i) = c.Size ∧
    IntFromString 16 MaxUi32 c.Size = .ok c.Data.length := by
  obtain ⟨hne, hlen, hval, hext, hnl⟩ := h
  have hdig := HexValue_digit _ _ _ hval
  have hsz : c.Size ≠ [] := by
    intro h0
    rw [h0] at hval
    simp only [HexValue, Option.some.injEq] at hval
    exact hne (List.length_eq_zero.mp hval.symm)
  refine ⟨by simp [hsz], ?_, ?_, ?_⟩
  · rw [List.mem_append, not_or]
    exact ⟨fun hm => (hex_not_delim _ (hdig _ hm)).2 rfl, hnl⟩
  · rcases hext with he | he
    · rw [he, List.append_nil,
        find_first_of_eq_none _ _ (fun x hx => (hex_not_delim _ (hdig _ hx)).1)]
      simp
    · obtain ⟨e, he2⟩ : ∃ e, c.Ext = ';' :: e := by
        cases hce : c.Ext with
        | nil => rw [hce] at he; cases he
        | cons x xs =>
          rw [hce] at he
          simp only [List.head?_cons, Option.some.injEq] at he
          exact ⟨xs, by rw [he]⟩
      rw [he2, find_first_of_append_cons _ _ _ _ (by decide)
        (fun x hx => (hex_not_delim _ (hdig _ hx)).1)]
      exact take_append_cons _ _ _
  · unfold IntFromString
    rw [if_neg hsz, ParseDigits_of_HexValue _ _ _ _ hval (by unfold MaxUi32; omega)]

namespace THttpParser

/-- Reading a non-empty line that may be preceded by the CR LF that ends the
previous chunk. -/
theorem ReadLine_skip (s : THttpParser) (pre line rest : TString)
    (hpre : pre = [] ∨ pre = Crlf) (hne : line ≠ []) (hnl : '\n' ∉ line)
    (hc : s.CurrentLine_ = []) (hd : s.Data_ = pre ++ (line ++ Crlf ++ rest)) :
    ∃ s1, ReadLine s = (true, s1) ∧
      (if s1.CurrentLine_ = [] then ReadLine s1 else (true, s1))
        = (true, { s with CurrentLine_ := line, Data_ := rest }) := by
  rcases hpre with rfl | rfl
  · refine ⟨_, ReadLine_crlf s line rest hnl hc (by simpa using hd), ?_⟩
    simp only [if_neg hne]
  · refine ⟨_, ReadLine_crlf s [] (line ++ Crlf ++ rest) (by simp) hc (by simpa using hd), ?_⟩
    simp only [if_true]
    exact ReadLine_crlf _ line rest hnl rfl rfl

theorem ChunkedSizeLine_chunk (s : THttpParser) (c : TChunk) (pre rest : TString)
    (hwf : c.WellFormed) (hpre : pre = [] ∨ pre = Crlf) (hc : s.CurrentLine_ = [])
    (hd : s.Data_ = pre ++ (c.Size ++ c.Ext ++ Crlf ++ rest)) :
    ChunkedSizeLine s ⟨0, false⟩ = .ok (.inr { s with
      ChunkInputState_ := some ⟨c.Data.length, false⟩, CurrentLine_ := [], Data_ := rest }) := by
  obtain ⟨h1, h2, h3, h4⟩ := c.sizeLine hwf
  obtain ⟨s1, hr1, hr2⟩ := ReadLine_skip s pre (c.Size ++ c.Ext) rest hpre h1 h2 hc hd
  have hlen : c.Data.length ≠ 0 := fun h => hwf.1 (List.length_eq_zero.mp h)
  unfold ChunkedSizeLine
  simp only [if_true, hr1, Bool.false_eq_true, if_false, hr2, if_neg h1, h3, h4, if_neg hlen]

theorem ChunkedSizeLine_last (s : THttpParser) (pre extra : TString)
    (hpre : pre = [] ∨ pre = Crlf) (hc : s.CurrentLine_ = [])
    (hd : s.Data_ = pre ++ ("0\r\n\r\n".toList ++ extra)) :
    ChunkedSizeLine s ⟨0, false⟩ = .ok (.inl (true, { s with
      ChunkInputState_ := some ⟨0, true⟩, CurrentLine_ := [], Data_ := extra,
      Parser_ := .OnEndParsing, ExtraDataSize_ := extra.length })) := by
  obtain ⟨s1, hr1, hr2⟩ := ReadLine_skip s pre ['0'] (Crlf ++ extra) hpre (by simp) (by decide) hc
    (by rw [hd]; rfl)
  have h3 : IntFromString 16 MaxUi32 ['0'] = .ok 0 := rfl
  have hr3 := ReadLine_crlf
    { s with CurrentLine_ := [], Data_ := Crlf ++ extra, ChunkInputState_ := some ⟨0, true⟩ }
    [] extra (by simp) rfl rfl
  unfold ChunkedSizeLine
  simp only [if_true, hr1, Bool.false_eq_true, if_false, hr2,
    show find_first_of " \t;".toList ['0'] = none from by decide, List.length_singleton,
    List.take_succ_cons, List.take_zero, h3, show (['0'] : TString) ≠ [] from by simp, hr3,
    OnEndParsing]

/-- The chunk loop on the chunks of a well-formed chunked body. -/
theorem ChunkedContentLoop_body (extra : TString) :
    ∀ (cs : List TChunk) (s : THttpParser) (fuel : Nat) (pre : TString),
    (∀ c ∈ cs, c.WellFormed) → s.ChunkInputState_ = some ⟨0, false⟩ → s.CurrentLine_ = [] →
    (pre = [] ∨ pre = Crlf) → s.Data_ = pre ++ (ChunkedBody cs ++ extra) → cs.length < fuel →
    ChunkedContentLoop fuel s = .ok (true, { s with
      Content_ := s.Content_ ++ ChunkPayload cs, ChunkInputState_ := some ⟨0, true⟩,
      CurrentLine_ := [], Data_ := extra, Parser_ := .OnEndParsing,
      ExtraDataSize_ := extra.length }) := by
  intro cs
  induction cs with
  | nil =>
    intro s fuel pre _ hci hc hpre hd hfuel
    obtain ⟨f, rfl⟩ : ∃ f, fuel = f + 1 := ⟨fuel - 1, by omega⟩
    unfold ChunkedContentLoop
    rw [hci]
    simp only [ChunkedSizeLine_last s pre extra hpre hc hd, ChunkPayload, List.append_nil]
  | cons c cs ih =>
    intro s fuel pre hall hci hc hpre hd hfuel
    obtain ⟨f, rfl⟩ : ∃ f, fuel = f + 1 := ⟨fuel - 1, by simp at hfuel; omega⟩
    have hwf := hall c (List.mem_cons_self _ _)
    have hd2 : s.Data_ = pre ++ (c.Size ++ c.Ext ++ Crlf ++
        (c.Data ++ (Crlf ++ (ChunkedBody cs ++ extra)))) := by
      rw [hd]; simp [ChunkedBody, TChunk.Encode, List.append_assoc]
    have hsz := ChunkedSizeLine_chunk s c pre _ hwf hpre hc hd2
    have hne : Crlf ++ (ChunkedBody cs ++ extra) ≠ [] := by simp [Crlf]
    unfold ChunkedContentLoop
    rw [hci]
    simp only [hsz, ChunkedCopy, List.length_append, Nat.le_add_right, min_eq_right,
      List.take_left', List.drop_left', Nat.sub_self, ne_eq, hne, not_false_eq_true, if_true]
    rw [ih _ f Crlf (fun x hx => hall x (List.mem_cons_of_mem _ hx)) rfl rfl (Or.inr rfl) rfl
      (by simp at hfuel; omega)]
    simp [ChunkPayload, List.append_assoc]

end THttpParser

theorem ChunkedBody_length (cs : List TChunk) : cs.length ≤ (ChunkedBody cs).length := by
  induction cs with
  | nil => simp
  | cons c cs ih => simp [ChunkedBody, TChunk.Encode, Crlf]; omega

namespace THttpParser

/-- `ReadLine` touches nothing but the current line and the read position. -/
theorem ReadLine_frame (s : THttpParser) :
    (ReadLine s).2 = { s with CurrentLine_ := (ReadLine s).2.CurrentLine_,
                              Data_ := (ReadLine s).2.Data_ } := by
  unfold ReadLine
  split <;> rfl

theorem ReadLine_same (s : THttpParser) (b : Bool) (s1 : THttpParser)
    (h : ReadLine s = (b, s1)) :
    s1.Content_ = s.Content_ ∧ s1.ChunkInputState_ = s.ChunkInputState_ ∧
    s1.Parser_ = s.Parser_ ∧ s1.HasContentLength_ = s.HasContentLength_ ∧
    s1.ContentLength_ = s.ContentLength_ ∧ s1.MessageType_ = s.MessageType_ ∧
    s1.RetCode_ = s.RetCode_ := by
  have e := ReadLine_frame s
  rw [h] at e
  simp only [] at e
  rw [e]
  exact ⟨rfl, rfl, rfl, rfl, rfl, rfl, rfl⟩

theorem ChunkedSizeLine_inv (s : THttpParser) (ci : TChunkInputState)
    (hci : s.ChunkInputState_ = some ci) :
    (∀ b s1, ChunkedSizeLine s ci = .ok (.inl (b, s1)) →
      s1.Content_ = s.Content_ ∧
      (b = true → s1.ChunkInputState_ = some ⟨0, true⟩ ∧ s1.Parser_ = .OnEndParsing) ∧
      (b = false → s1.ChunkInputState_.isSome = true ∧ s1.Parser_ = .ChunkedContentParser)) ∧
    (∀ s1, ChunkedSizeLine s ci = .ok (.inr s1) →
      s1.Content_ = s.Content_ ∧ s1.ChunkInputState_.isSome = true) := by
  unfold ChunkedSizeLine
  by_cases h0 : ci.LeftBytes_ = 0
  · rw [if_pos h0]
    cases hr : ReadLine s with
    | mk b1 s1 =>
      have f1 := ReadLine_same s b1 s1 hr
      cases b1 with
      | false =>
        refine ⟨?_, (fun _ h => by cases h)⟩
        intro b s' h
        simp only [Except.ok.injEq, Sum.inl.injEq, Prod.mk.injEq] at h
        obtain ⟨rfl, rfl⟩ := h
        exact ⟨f1.1, (fun h => by cases h),
          (fun _ => ⟨(by show s1.ChunkInputState_.isSome = true; rw [f1.2.1, hci]; rfl), rfl⟩)⟩
      | true =>
        simp only []
        by_cases hlast : ci.ReadLastChunk_ = true
        · rw [if_pos hlast]
          refine ⟨?_, (fun _ h => by cases h)⟩
          intro b s' h
          simp only [OnEndParsing, Except.ok.injEq, Sum.inl.injEq, Prod.mk.injEq] at h
          obtain ⟨rfl, rfl⟩ := h
          refine ⟨f1.1, (fun _ => ⟨?_, rfl⟩), (fun h => by cases h)⟩
          show s1.ChunkInputState_ = _
          rw [f1.2.1, hci]
          cases ci with
          | mk l r =>
            simp only [] at h0 hlast
            rw [h0, hlast]
        · rw [if_neg hlast]
          cases hr2 : (if s1.CurrentLine_ = [] then ReadLine s1 else (true, s1)) with
          | mk b2 s2 =>
            have f2 : s2.Content_ = s.Content_ ∧ s2.ChunkInputState_ = s.ChunkInputState_ := by
              split_ifs at hr2 with hc
              · have f := ReadLine_same s1 b2 s2 hr2
                exact ⟨f.1.trans f1.1, f.2.1.trans f1.2.1⟩
              · cases hr2
                exact ⟨f1.1, f1.2.1⟩
            cases b2 with
            | false =>
              refine ⟨?_, (fun _ h => by cases h)⟩
              intro b s' h
              simp only [Except.ok.injEq, Sum.inl.injEq, Prod.mk.injEq] at h
              obtain ⟨rfl, rfl⟩ := h
              exact ⟨f2.1, (fun h => by cases h),
                (fun _ => ⟨(by show s2.ChunkInputState_.isSome = true; rw [f2.2, hci]; rfl),
                  rfl⟩)⟩
            | true =>
              simp only []
              by_cases hc2 : s2.CurrentLine_ = []
              · rw [if_pos hc2]
                exact ⟨(fun _ _ h => by cases h), (fun _ h => by cases h)⟩
              · rw [if_neg hc2]
                cases hint : IntFromString 16 MaxUi32 (s2.CurrentLine_.take
                    (match find_first_of " \t;".toList s2.CurrentLine_ with
                      | none => s2.CurrentLine_.length
                      | some i => i)) with
                | error e => exact ⟨(fun _ _ h => by cases h), (fun _ h => by cases h)⟩
                | ok n =>
                  simp only []
                  by_cases hn : n = 0
                  · rw [if_pos hn]
                    cases hr3 : ReadLine ({ s2 with ChunkInputState_ := some ⟨n, true⟩, CurrentLine_ := [] } : THttpParser) with
                    | mk b3 s3 =>
                      have f3 := ReadLine_same _ b3 s3 hr3
                      cases b3 with
                      | true =>
                        refine ⟨?_, (fun _ h => by cases h)⟩
                        intro b s' h
                        simp only [OnEndParsing, Except.ok.injEq, Sum.inl.injEq,
                          Prod.mk.injEq] at h
                        obtain ⟨rfl, rfl⟩ := h
                        refine ⟨f3.1.trans f2.1, (fun _ => ⟨?_, rfl⟩), (fun h => by cases h)⟩
                        show s3.ChunkInputState_ = _
                        rw [f3.2.1, hn]
                      | false =>
                        refine ⟨?_, (fun _ h => by cases h)⟩
                        intro b s' h
                        simp only [Except.ok.injEq, Sum.inl.injEq, Prod.mk.injEq] at h
                        obtain ⟨rfl, rfl⟩ := h
                        refine ⟨f3.1.trans f2.1, (fun h => by cases h), (fun _ => ⟨?_, rfl⟩)⟩
                        show s3.ChunkInputState_.isSome = true
                        rw [f3.2.1]
                        rfl
                  · rw [if_neg hn]
                    refine ⟨(fun _ _ h => by cases h), ?_⟩
                    intro s' h
                    simp only [Except.ok.injEq, Sum.inr.injEq] at h
                    subst h
                    exact ⟨f2.1, rfl⟩
  · rw [if_neg h0]
    refine ⟨(fun _ _ h => by cases h), ?_⟩
    intro s' h
    simp only [Except.ok.injEq, Sum.inr.injEq] at h
    subst h
    exact ⟨rfl, by simp [hci]⟩

/-- The chunk loop reports completion only with the last-chunk flag set. -/
theorem ChunkedContentLoop_inv :
    ∀ (fuel : Nat) (s : THttpParser) (b : Bool) (s' : THttpParser),
    s.ChunkInputState_.isSome = true → ChunkedContentLoop fuel s = .ok (b, s') →
    (b = true → s'.ChunkInputState_ = some ⟨0, true⟩ ∧ s'.Parser_ = .OnEndParsing) ∧
    (b = false → s'.ChunkInputState_.isSome = true ∧ s'.Parser_ = .ChunkedContentParser) := by
  intro fuel
  induction fuel with
  | zero => intro s b s' _ h; cases h
  | succ f ih =>
    intro s b s' hsome h
    obtain ⟨ci, hci⟩ := Option.isSome_iff_exists.mp hsome
    unfold ChunkedContentLoop at h
    rw [hci] at h
    simp only [] at h
    have hinv := ChunkedSizeLine_inv s ci hci
    cases hsz : ChunkedSizeLine s ci with
    | error e => rw [hsz] at h; cases h
    | ok r =>
      rw [hsz] at h
      cases r with
      | inl r1 =>
        simp only [Except.ok.injEq] at h
        subst h
        have := hinv.1 b s' hsz
        exact ⟨this.2.1, this.2.2⟩
      | inr s1 =>
        simp only [] at h
        obtain ⟨ci1, hci1⟩ := Option.isSome_iff_exists.mp (hinv.2 s1 hsz).2
        rw [hci1] at h
        simp only [] at h
        by_cases hd : (ChunkedCopy s1 ci1).Data_ ≠ []
        · rw [if_pos hd] at h
          exact ih (ChunkedCopy s1 ci1) b s' rfl h
        · rw [if_neg hd] at h
          simp only [Except.ok.injEq, Prod.mk.injEq] at h
          obtain ⟨rfl, rfl⟩ := h
          exact ⟨(fun h => by cases h), (fun _ => ⟨rfl, rfl⟩)⟩

/-- The sessions that are inside or at the end of a chunked body. -/
theorem Parse_chunked_inv (s : THttpParser) (d : TString) (b : Bool) (s' : THttpParser)
    (hs : (s.Parser_ = .ChunkedContentParser ∧ s.ChunkInputState_.isSome = true) ∨
          (s.Parser_ = .OnEndParsing ∧ s.ChunkInputState_ = some ⟨0, true⟩))
    (h : Parse s d = .ok (b, s')) :
    (b = true → s'.ChunkInputState_ = some ⟨0, true⟩ ∧ s'.Parser_ = .OnEndParsing) ∧
    (b = false → s'.ChunkInputState_.isSome = true ∧ s'.Parser_ = .ChunkedContentParser) := by
  rcases hs with ⟨hp, hc⟩ | ⟨hp, hc⟩
  · have e : Parse s d = ChunkedContentParser { s with Data_ := d } := by
      unfold Parse
      simp only []
      rw [hp]
    rw [e] at h
    exact ChunkedContentLoop_inv (d.length + 1) { s with Data_ := d } b s' hc h
  · have e : Parse s d = .ok (OnEndParsing { s with Data_ := d }) := by
      unfold Parse
      simp only []
      rw [hp]
    rw [e] at h
    simp only [OnEndParsing, Except.ok.injEq, Prod.mk.injEq] at h
    obtain ⟨rfl, rfl⟩ := h
    exact ⟨(fun _ => ⟨hc, rfl⟩), (fun h => by cases h)⟩

theorem Feed_chunked_inv :
    ∀ (ds : List TString) (s : THttpParser) (b : Bool) (s' : THttpParser),
    ((s.Parser_ = .ChunkedContentParser ∧ s.ChunkInputState_.isSome = true) ∨
          (s.Parser_ = .OnEndParsing ∧ s.ChunkInputState_ = some ⟨0, true⟩)) →
    Feed s ds = .ok (b, s') →
    (b = true → s'.ChunkInputState_ = some ⟨0, true⟩ ∧ s'.Parser_ = .OnEndParsing) := by
  intro ds
  induction ds with
  | nil =>
    intro s b s' _ h
    simp only [Feed, Except.ok.injEq, Prod.mk.injEq] at h
    intro hb
    rw [← h.1] at hb
    cases hb
  | cons d ds ih =>
    intro s b s' hs h
    cases ds with
    | nil => exact (Parse_chunked_inv s d b s' hs h).1
    | cons d2 ds2 =>
      simp only [Feed] at h
      cases hp : Parse s d with
      | error e => rw [hp] at h; cases h
      | ok r =>
        obtain ⟨b1, s1⟩ := r
        rw [hp] at h
        simp only [] at h
        have h1 := Parse_chunked_inv s d b1 s1 hs hp
        refine ih s1 b s' ?_ h
        cases b1 with
        | true => exact Or.inr ⟨(h1.1 rfl).2, (h1.1 rfl).1⟩
        | false => exact Or.inl ⟨(h1.2 rfl).2, (h1.2 rfl).1⟩

end THttpParser

theorem ParseDigits_le (base max : Nat) (s : TString) (acc v : Nat) (hacc : acc ≤ max)
    (h : ParseDigits base max s acc = some v) : v ≤ max := by
  induction s generalizing acc with
  | nil =>
    simp only [ParseDigits, Option.some.injEq] at h
    omega
  | cons c cs ih =>
    unfold ParseDigits at h
    cases hd : DigitValue base c with
    | none => rw [hd] at h; cases h
    | some d =>
      rw [hd] at h
      simp only [] at h
      by_cases hle : acc * base + d ≤ max
      · rw [if_pos hle] at h
        exact ih _ hle h
      · rw [if_neg hle] at h
        cases h

theorem IntFromString_le (base max : Nat) (s : TString) (n : Nat)
    (h : IntFromString base max s = .ok n) : n ≤ max := by
  unfold IntFromString at h
  by_cases hs : s = []
  · rw [if_pos hs] at h; cases h
  · rw [if_neg hs] at h
    cases hp : ParseDigits base max s 0 with
    | none => rw [hp] at h; cases h
    | some v =>
      rw [hp] at h
      simp only [Except.ok.injEq] at h
      subst h
      exact ParseDigits_le base max s 0 v (Nat.zero_le _) hp

namespace THttpParser

theorem ParseHeaderLine_bound (s s2 : THttpParser) (h : ParseHeaderLine s = .ok s2)
    (hb : s.HasContentLength_ = true → s.ContentLength_ ≤ MaxUi64) :
    s2.HasContentLength_ = true → s2.ContentLength_ ≤ MaxUi64 := by
  by_cases hne : s.HeaderLine_ = []
  · rw [ParseHeaderLine_nil s hne] at h
    cases h
    exact hb
  · cases hpos : find ':' s.HeaderLine_ with
    | none =>
      unfold ParseHeaderLine at h
      simp only [hne, ne_eq, not_false_eq_true, if_true, THttpInputHeader, hpos] at h
      split_ifs at h
    | some pos =>
      obtain ⟨hs, hl, name, -, he⟩ := ParseHeaderLine_eq s pos hne hpos
      rw [he] at h
      cases ha : ApplyHeaderLine ({ s with Headers_ := hs, HeaderLine_ := hl } : THttpParser)
          name (HeaderValue s.HeaderLine_) with
      | error e => rw [ha] at h; cases h
      | ok s3 =>
        rw [ha] at h
        cases h
        show s3.HasContentLength_ = true → s3.ContentLength_ ≤ MaxUi64
        rcases ApplyHeaderLine_framing _ _ _ _ ha with hf | hf | hf
        · rw [hf.1, hf.2.1]; exact hb
        · intro _; exact IntFromString_le _ _ _ _ hf.2.2.1
        · rw [hf.2.2.1, hf.2.2.2.1]; exact hb

/-- `ContentParser` keeps the body within a known content length and reports
completion exactly when the session becomes Done. -/
theorem ContentParser_inv (s : THttpParser) (b : Bool) (s' : THttpParser)
    (hpre : s.HasContentLength_ = true →
      s.Content_.length ≤ s.ContentLength_ ∧ s.ContentLength_ ≤ MaxUi64)
    (h : ContentParser s = (b, s')) :
    (b = true ↔ s'.Parser_ = .OnEndParsing) ∧ BodyInv s' ∧
    s'.ChunkInputState_ = s.ChunkInputState_ := by
  unfold ContentParser at h
  by_cases hcl : s.HasContentLength_ = true
  · obtain ⟨h1, h2⟩ := hpre hcl
    rw [if_pos hcl] at h
    have hrd : (s.ContentLength_ + (MaxUi64 + 1) - s.Content_.length % (MaxUi64 + 1))
        % (MaxUi64 + 1) = s.ContentLength_ - s.Content_.length := by
      unfold MaxUi64 at h2 ⊢
      omega
    rw [hrd] at h
    simp only [List.length_append, List.length_take] at h
    by_cases heq : s.Content_.length
        + min (min s.Data_.length (s.ContentLength_ - s.Content_.length)) s.Data_.length
        = s.ContentLength_
    · rw [if_pos heq] at h
      simp only [OnEndParsing, Prod.mk.injEq] at h
      obtain ⟨rfl, rfl⟩ := h
      refine ⟨⟨fun _ => rfl, fun _ => rfl⟩,
        ⟨(fun hp => by rcases hp with hp | hp | hp <;> cases hp),
         (fun hp => by rcases hp with hp | hp <;> cases hp), (fun hp => by cases hp),
         (fun hp => by cases hp), (fun _ _ _ => ?_)⟩, rfl⟩
      show (s.Content_ ++ _).length = s.ContentLength_
      simp only [List.length_append, List.length_take]
      exact heq
    · rw [if_neg heq] at h
      simp only [Prod.mk.injEq] at h
      obtain ⟨rfl, rfl⟩ := h
      refine ⟨⟨(fun hp => by cases hp), (fun hp => by cases hp)⟩,
        ⟨(fun _ _ => h2), (fun hp => by rcases hp with hp | hp <;> cases hp), (fun _ _ => ?_),
         (fun hp => by cases hp), (fun hp => by cases hp)⟩, rfl⟩
      show (s.Content_ ++ _).length < s.ContentLength_
      simp only [List.length_append, List.length_take]
      omega
  · rw [if_neg hcl] at h
    have hdone : ∀ t : THttpParser, t.HasContentLength_ = s.HasContentLength_ →
        BodyInv (OnEndParsing t).2 := by
      intro t ht
      exact ⟨(fun hp => by rcases hp with hp | hp | hp <;> cases hp),
         (fun hp => by rcases hp with hp | hp <;> cases hp), (fun hp => by cases hp),
         (fun hp => by cases hp), (fun _ _ hc => absurd (ht ▸ hc) hcl)⟩
    by_cases hreq : s.MessageType_ = .Request
    · rw [if_pos hreq] at h
      have := hdone s rfl
      rw [h] at this
      simp only [OnEndParsing, Prod.mk.injEq] at h
      obtain ⟨rfl, rfl⟩ := h
      exact ⟨⟨fun _ => rfl, fun _ => rfl⟩, this, rfl⟩
    · rw [if_neg hreq] at h
      by_cases hcode : s.RetCode_ < 200 ∨ s.RetCode_ = 204 ∨ s.RetCode_ = 304
      · rw [if_pos hcode] at h
        have := hdone s rfl
        rw [h] at this
        simp only [OnEndParsing, Prod.mk.injEq] at h
        obtain ⟨rfl, rfl⟩ := h
        exact ⟨⟨fun _ => rfl, fun _ => rfl⟩, this, rfl⟩
      · rw [if_neg hcode] at h
        simp only [Prod.mk.injEq] at h
        obtain ⟨rfl, rfl⟩ := h
        exact ⟨⟨(fun hp => by cases hp), (fun hp => by cases hp)⟩,
          ⟨(fun _ hc => absurd hc hcl), (fun hp => by rcases hp with hp | hp <;> cases hp),
           (fun _ hc => absurd hc hcl), (fun hp => by cases hp), (fun hp => by cases hp)⟩, rfl⟩

theorem BodyInv_of_chunked (b : Bool) (s' : THttpParser)
    (h : (b = true → s'.ChunkInputState_ = some ⟨0, true⟩ ∧ s'.Parser_ = .OnEndParsing) ∧
      (b = false → s'.ChunkInputState_.isSome = true ∧ s'.Parser_ = .ChunkedContentParser)) :
    (b = true ↔ s'.Parser_ = .OnEndParsing) ∧ BodyInv s' := by
  cases b with
  | true =>
    obtain ⟨hc, hp⟩ := h.1 rfl
    refine ⟨⟨fun _ => hp, fun _ => rfl⟩, ?_⟩
    exact ⟨(fun hq => by rw [hp] at hq; rcases hq with hq | hq | hq <;> cases hq),
      (fun hq => by rw [hp] at hq; rcases hq with hq | hq <;> cases hq),
      (fun hq => by rw [hp] at hq; cases hq), (fun hq => by rw [hp] at hq; cases hq),
      (fun _ hn => by rw [hc] at hn; cases hn)⟩
  | false =>
    obtain ⟨hc, hp⟩ := h.2 rfl
    refine ⟨⟨(fun hq => by cases hq), (fun hq => by rw [hp] at hq; cases hq)⟩, ?_⟩
    exact ⟨(fun hq => by rw [hp] at hq; rcases hq with hq | hq | hq <;> cases hq),
      (fun hq => by rw [hp] at hq; rcases hq with hq | hq <;> cases hq),
      (fun hq => by rw [hp] at hq; cases hq), (fun _ => hc),
      (fun hq => by rw [hp] at hq; cases hq)⟩

/-- The header loop, on any input, ends in a session that satisfies the body
invariant, and reports completion exactly when the session becomes Done. -/
theorem HeadersLoop_inv :
    ∀ (fuel : Nat) (s : THttpParser) (b : Bool) (s' : THttpParser),
    s.Content_ = [] → (s.HasContentLength_ = true → s.ContentLength_ ≤ MaxUi64) →
    HeadersLoop fuel s = .ok (b, s') →
    (b = true ↔ s'.Parser_ = .OnEndParsing) ∧ BodyInv s' := by
  intro fuel
  induction fuel with
  | zero => intro s b s' _ _ h; cases h
  | succ f ih =>
    intro s b s' hbody hbound h
    unfold HeadersLoop at h
    cases hr : ReadLine s with
    | mk b1 s1 =>
      have f1 := ReadLine_same s b1 s1 hr
      have hbody1 : s1.Content_ = [] := f1.1.trans hbody
      have hbound1 : s1.HasContentLength_ = true → s1.ContentLength_ ≤ MaxUi64 := by
        rw [f1.2.2.2.1, f1.2.2.2.2.1]; exact hbound
      rw [hr] at h
      cases b1 with
      | false =>
        simp only [Except.ok.injEq, Prod.mk.injEq] at h
        obtain ⟨rfl, rfl⟩ := h
        exact ⟨⟨(fun hq => by cases hq), (fun hq => by cases hq)⟩,
          ⟨(fun _ => hbound1), (fun _ => hbody1), (fun hq => by cases hq),
           (fun hq => by cases hq), (fun hq => by cases hq)⟩⟩
      | true =>
        simp only [] at h
        by_cases hcur : s1.CurrentLine_ = []
        · rw [if_pos hcur] at h
          by_cases hz : s1.HasContentLength_ = true ∧ s1.ContentLength_ = 0
          · rw [if_pos hz] at h
            simp only [OnEndParsing, Except.ok.injEq, Prod.mk.injEq] at h
            obtain ⟨rfl, rfl⟩ := h
            refine ⟨⟨fun _ => rfl, fun _ => rfl⟩,
              ⟨(fun hq => by rcases hq with hq | hq | hq <;> cases hq),
               (fun hq => by rcases hq with hq | hq <;> cases hq), (fun hq => by cases hq),
               (fun hq => by cases hq), (fun _ _ _ => ?_)⟩⟩
            show s1.Content_.length = s1.ContentLength_
            rw [hbody1, hz.2]
            rfl
          · rw [if_neg hz] at h
            cases hp : ParseHeaderLine s1 with
            | error e => rw [hp] at h; cases h
            | ok s2 =>
              rw [hp] at h
              simp only [] at h
              have hf := ParseHeaderLine_frame s1 s2 hp
              have hb2 := ParseHeaderLine_bound s1 s2 hp hbound1
              by_cases hch : s2.ChunkInputState_.isSome = true
              · rw [if_pos hch] at h
                exact BodyInv_of_chunked b s' (ChunkedContentLoop_inv _ s2 b s' hch h)
              · rw [if_neg hch] at h
                simp only [Except.ok.injEq] at h
                have := ContentParser_inv s2 b s'
                  (fun hc => ⟨by rw [hf.body, hbody1]; exact Nat.zero_le _, hb2 hc⟩) h
                exact ⟨this.1, this.2.1⟩
        · rw [if_neg hcur] at h
          by_cases hcont : s1.CurrentLine_.head? = some ' ' ∨ s1.CurrentLine_.head? = some '\t'
          · rw [if_pos hcont] at h
            refine ih _ b s' ?_ ?_ h
            · exact hbody1
            · exact hbound1
          · rw [if_neg hcont] at h
            cases hp : ParseHeaderLine s1 with
            | error e => rw [hp] at h; cases h
            | ok s2 =>
              rw [hp] at h
              simp only [] at h
              have hf := ParseHeaderLine_frame s1 s2 hp
              have hb2 := ParseHeaderLine_bound s1 s2 hp hbound1
              refine ih _ b s' ?_ ?_ h
              · exact hf.body.trans hbody1
              · exact hb2

theorem FirstLineParser_inv (s : THttpParser) (b : Bool) (s' : THttpParser)
    (hp : s.Parser_ = .FirstLineParser) (hbody : s.Content_ = [])
    (hbound : s.HasContentLength_ = true → s.ContentLength_ ≤ MaxUi64)
    (h : FirstLineParser s = .ok (b, s')) :
    (b = true ↔ s'.Parser_ = .OnEndParsing) ∧ BodyInv s' := by
  unfold FirstLineParser at h
  cases hr : ReadLine s with
  | mk b1 s1 =>
    have f1 := ReadLine_same s b1 s1 hr
    have hbody1 : s1.Content_ = [] := f1.1.trans hbody
    have hbound1 : s1.HasContentLength_ = true → s1.ContentLength_ ≤ MaxUi64 := by
      rw [f1.2.2.2.1, f1.2.2.2.2.1]; exact hbound
    have hp1 : s1.Parser_ = .FirstLineParser := f1.2.2.1.trans hp
    rw [hr] at h
    cases b1 with
    | false =>
      simp only [Except.ok.injEq, Prod.mk.injEq] at h
      obtain ⟨rfl, rfl⟩ := h
      exact ⟨⟨(fun hq => by cases hq), (fun hq => by rw [hp1] at hq; cases hq)⟩,
        ⟨(fun _ => hbound1), (fun _ => hbody1), (fun hq => by rw [hp1] at hq; cases hq),
         (fun hq => by rw [hp1] at hq; cases hq), (fun hq => by rw [hp1] at hq; cases hq)⟩⟩
    | true =>
      simp only [] at h
      cases hpf : ParseFirstLine
          ({ s1 with CurrentLine_ := s1.FirstLine_, FirstLine_ := s1.CurrentLine_ } : THttpParser) with
      | error e => rw [hpf] at h; cases h
      | ok s2 =>
        rw [hpf] at h
        simp only [] at h
        have hfr := ParseFirstLine_frame _ _ hpf
        have hbody2 : s2.Content_ = [] := by rw [hfr]; exact hbody1
        have hbound2 : s2.HasContentLength_ = true → s2.ContentLength_ ≤ MaxUi64 := by
          rw [hfr]; exact hbound1
        exact HeadersLoop_inv _ s2 b s' hbody2 hbound2 h

/-- One `Parse` call keeps the body invariant and reports completion exactly when
the session becomes Done. -/
theorem Parse_inv (s : THttpParser) (d : TString) (b : Bool) (s' : THttpParser)
    (hinv : BodyInv s) (h : Parse s d = .ok (b, s')) :
    (b = true ↔ s'.Parser_ = .OnEndParsing) ∧ BodyInv s' := by
  cases hp : s.Parser_ with
  | FirstLineParser =>
    have e : Parse s d = FirstLineParser { s with Data_ := d } := by
      unfold Parse; simp only []; rw [hp]
    rw [e] at h
    refine FirstLineParser_inv _ b s' ?_ ?_ ?_ h
    · exact hp
    · exact hinv.empty (Or.inl hp)
    · exact hinv.bound (Or.inl hp)
  | HeadersParser =>
    have e : Parse s d = HeadersParser { s with Data_ := d } := by
      unfold Parse; simp only []; rw [hp]
    rw [e] at h
    exact HeadersLoop_inv _ { s with Data_ := d } b s' (hinv.empty (Or.inr hp))
      (hinv.bound (Or.inr (Or.inl hp))) h
  | ContentParser =>
    have e : Parse s d = .ok (ContentParser { s with Data_ := d }) := by
      unfold Parse; simp only []; rw [hp]
    rw [e] at h
    simp only [Except.ok.injEq] at h
    have := ContentParser_inv { s with Data_ := d } b s'
      (fun hc => ⟨Nat.le_of_lt (hinv.unfinished hp hc), hinv.bound (Or.inr (Or.inr hp)) hc⟩) h
    exact ⟨this.1, this.2.1⟩
  | ChunkedContentParser =>
    have e : Parse s d = ChunkedContentParser { s with Data_ := d } := by
      unfold Parse; simp only []; rw [hp]
    rw [e] at h
    exact BodyInv_of_chunked b s'
      (ChunkedContentLoop_inv _ { s with Data_ := d } b s' (hinv.chunked hp) h)
  | OnEndParsing =>
    have e : Parse s d = .ok (OnEndParsing { s with Data_ := d }) := by
      unfold Parse; simp only []; rw [hp]
    rw [e] at h
    simp only [OnEndParsing, Except.ok.injEq, Prod.mk.injEq] at h
    obtain ⟨rfl, rfl⟩ := h
    exact ⟨⟨fun _ => rfl, fun _ => rfl⟩,
      ⟨(fun hq => by rcases hq with hq | hq | hq <;> cases hq),
       (fun hq => by rcases hq with hq | hq <;> cases hq), (fun hq => by cases hq),
       (fun hq => by cases hq), (fun _ hc hl => hinv.complete hp hc hl)⟩⟩

theorem Feed_inv :
    ∀ (ds : List TString) (s : THttpParser) (b : Bool) (s' : THttpParser),
    BodyInv s → s.Parser_ ≠ .OnEndParsing → Feed s ds = .ok (b, s') →
    (b = true ↔ s'.Parser_ = .OnEndParsing) ∧ BodyInv s' := by
  intro ds
  induction ds with
  | nil =>
    intro s b s' hinv hnd h
    simp only [Feed, Except.ok.injEq, Prod.mk.injEq] at h
    obtain ⟨rfl, rfl⟩ := h
    exact ⟨⟨(fun hq => by cases hq), (fun hq => absurd hq hnd)⟩, hinv⟩
  | cons d ds ih =>
    intro s b s' hinv hnd h
    cases ds with
    | nil => exact Parse_inv s d b s' hinv h
    | cons d2 ds2 =>
      simp only [Feed] at h
      cases hp : Parse s d with
      | error e => rw [hp] at h; cases h
      | ok r =>
        obtain ⟨b1, s1⟩ := r
        rw [hp] at h
        simp only [] at h
        have h1 := Parse_inv s d b1 s1 hinv hp
        by_cases hd1 : s1.Parser_ = .OnEndParsing
        · -- once Done, every later call reports completion and stays Done
          have key : ∀ (es : List TString) (t : THttpParser) (c : Bool) (t' : THttpParser),
              es ≠ [] → BodyInv t → t.Parser_ = .OnEndParsing → Feed t es = .ok (c, t') →
              (c = true ↔ t'.Parser_ = .OnEndParsing) ∧ BodyInv t' := by
            intro es
            induction es with
            | nil => intro t c t' hne; exact absurd rfl hne
            | cons e es ih2 =>
              intro t c t' _ hti htp hfe
              cases es with
              | nil => exact Parse_inv t e c t' hti hfe
              | cons e2 es2 =>
                simp only [Feed] at hfe
                cases hpe : Parse t e with
                | error e => rw [hpe] at hfe; cases hfe
                | ok r =>
                  obtain ⟨c1, t1⟩ := r
                  rw [hpe] at hfe
                  simp only [] at hfe
                  have h2 := Parse_inv t e c1 t1 hti hpe
                  have e0 : Parse t e = .ok (OnEndParsing { t with Data_ := e }) := by
                    unfold Parse; simp only []; rw [htp]
                  rw [e0] at hpe
                  simp only [OnEndParsing, Except.ok.injEq, Prod.mk.injEq] at hpe
                  have ht1 : t1.Parser_ = .OnEndParsing := by rw [← hpe.2]
                  exact ih2 t1 c t' (by simp) h2.2 ht1 hfe
          exact key (d2 :: ds2) s1 b s' (by simp) h1.2 hd1 h
        · exact ih s1 b s' h1.2 hd1 h

end THttpParser

theorem StripCR_concat (q : TString) : StripCR (q ++ ['\r']) = q := by
  simp [StripCR]

theorem StripCR_of_ne (l : TString) (h : l.getLast? ≠ some '\r') : StripCR l = l := by
  simp [StripCR, h]

namespace THttpParser

/-- `ReadLine` on a buffer that holds a line feed. -/
theorem ReadLine_line (s : THttpParser) (a rest : TString) (ha : '\n' ∉ a)
    (hd : s.Data_ = a ++ '\n' :: rest) :
    ReadLine s = (true, { s with CurrentLine_ := StripCR (s.CurrentLine_ ++ a), Data_ := rest }) := by
  unfold ReadLine
  rw [hd, find_append_cons _ _ _ ha]
  simp only [take_append_cons, drop_append_cons, StripCR]
  by_cases h : (s.CurrentLine_ ++ a).getLast? = some '\r'
  · have hne : s.CurrentLine_ ++ a ≠ [] := by
      intro h0
      rw [h0] at h
      cases h
    simp only [h, hne, ne_eq, not_false_eq_true, and_self, if_true]
  · simp only [h, and_false, if_false]

/-- `ReadLine` on a buffer without a line feed. -/
theorem ReadLine_none (s : THttpParser) (hd : '\n' ∉ s.Data_) :
    ReadLine s = (false, { s with CurrentLine_ := s.CurrentLine_ ++ s.Data_ }) := by
  unfold ReadLine
  rw [find_eq_none _ _ hd]

end THttpParser

namespace THttpParser

theorem ContentParser_done (s : THttpParser) (s' : THttpParser)
    (h : ContentParser s = (true, s')) : s'.Parser_ = .OnEndParsing := by
  unfold ContentParser at h
  by_cases hcl : s.HasContentLength_ = true
  · rw [if_pos hcl] at h
    simp only [] at h
    split_ifs at h
    · simp only [OnEndParsing, Prod.mk.injEq] at h
      rw [← h.2]
    · simp at h
  · rw [if_neg hcl] at h
    split_ifs at h
    · simp only [OnEndParsing, Prod.mk.injEq] at h
      rw [← h.2]
    · simp only [OnEndParsing, Prod.mk.injEq] at h
      rw [← h.2]
    · simp at h

theorem ChunkedContentLoop_done (fuel : Nat) (s s' : THttpParser)
    (h : ChunkedContentLoop fuel s = .ok (true, s')) : s'.Parser_ = .OnEndParsing := by
  have hsome : s.ChunkInputState_.isSome = true := by
    cases fuel with
    | zero => cases h
    | succ f =>
      unfold ChunkedContentLoop at h
      cases hc : s.ChunkInputState_ with
      | none => rw [hc] at h; cases h
      | some ci => rfl
  exact ((ChunkedContentLoop_inv fuel s true s' hsome h).1 rfl).2

theorem HeadersLoop_done :
    ∀ (fuel : Nat) (s s' : THttpParser),
    HeadersLoop fuel s = .ok (true, s') → s'.Parser_ = .OnEndParsing := by
  intro fuel
  induction fuel with
  | zero => intro s s' h; cases h
  | succ f ih =>
    intro s s' h
    unfold HeadersLoop at h
    cases hr : ReadLine s with
    | mk b1 s1 =>
      rw [hr] at h
      cases b1 with
      | false => simp at h
      | true =>
        simp only [] at h
        by_cases hcur : s1.CurrentLine_ = []
        · rw [if_pos hcur] at h
          by_cases hz : s1.HasContentLength_ = true ∧ s1.ContentLength_ = 0
          · rw [if_pos hz] at h
            simp only [OnEndParsing, Except.ok.injEq, Prod.mk.injEq] at h
            rw [← h.2]
          · rw [if_neg hz] at h
            cases hp : ParseHeaderLine s1 with
            | error e => rw [hp] at h; cases h
            | ok s2 =>
              rw [hp] at h
              simp only [] at h
              by_cases hch : s2.ChunkInputState_.isSome = true
              · rw [if_pos hch] at h
                exact ChunkedContentLoop_done _ s2 s' h
              · rw [if_neg hch] at h
                simp only [Except.ok.injEq] at h
                exact ContentParser_done s2 s' h
        · rw [if_neg hcur] at h
          by_cases hcont : s1.CurrentLine_.head? = some ' ' ∨ s1.CurrentLine_.head? = some '\t'
          · rw [if_pos hcont] at h
            exact ih _ s' h
          · rw [if_neg hcont] at h
            cases hp : ParseHeaderLine s1 with
            | error e => rw [hp] at h; cases h
            | ok s2 =>
              rw [hp] at h
              exact ih _ s' h

/-- A `Parse` call that reports completion leaves the session Done. -/
theorem Parse_done (s : THttpParser) (d : TString) (s' : THttpParser)
    (h : Parse s d = .ok (true, s')) : s'.Parser_ = .OnEndParsing := by
  cases hp : s.Parser_ with
  | FirstLineParser =>
    have e : Parse s d = FirstLineParser { s with Data_ := d } := by
      unfold Parse; simp only []; rw [hp]
    rw [e] at h
    unfold FirstLineParser at h
    cases hr : ReadLine ({ s with Data_ := d } : THttpParser) with
    | mk b1 s1 =>
      rw [hr] at h
      cases b1 with
      | false => simp at h
      | true =>
        simp only [] at h
        cases hpf : ParseFirstLine
            ({ s1 with CurrentLine_ := s1.FirstLine_, FirstLine_ := s1.CurrentLine_ } : THttpParser) with
        | error e => rw [hpf] at h; cases h
        | ok s2 =>
          rw [hpf] at h
          exact HeadersLoop_done _ s2 s' h
  | HeadersParser =>
    have e : Parse s d = HeadersParser { s with Data_ := d } := by
      unfold Parse; simp only []; rw [hp]
    rw [e] at h
    exact HeadersLoop_done _ _ s' h
  | ContentParser =>
    have e : Parse s d = .ok (ContentParser { s with Data_ := d }) := by
      unfold Parse; simp only []; rw [hp]
    rw [e] at h
    simp only [Except.ok.injEq] at h
    exact ContentParser_done _ s' h
  | ChunkedContentParser =>
    have e : Parse s d = ChunkedContentParser { s with Data_ := d } := by
      unfold Parse; simp only []; rw [hp]
    rw [e] at h
    exact ChunkedContentLoop_done _ _ s' h
  | OnEndParsing =>
    have e : Parse s d = .ok (OnEndParsing { s with Data_ := d }) := by
      unfold Parse; simp only []; rw [hp]
    rw [e] at h
    simp only [OnEndParsing, Except.ok.injEq, Prod.mk.injEq] at h
    rw [← h.2]

/-- `Parse` on a Done session. -/
theorem Parse_of_done (s : THttpParser) (d : TString) (hp : s.Parser_ = .OnEndParsing) :
    Parse s d = .ok (true, { s with Data_ := d, ExtraDataSize_ := d.length }) := by
  have e : Parse s d = .ok (OnEndParsing { s with Data_ := d }) := by
    unfold Parse; simp only []; rw [hp]
  rw [e]
  simp only [OnEndParsing]
  rw [← hp]

end THttpParser

namespace THttpParser

/-- The zero-size chunk line followed by a complete line, whatever it holds. -/
theorem ChunkedSizeLine_zero_line (s : THttpParser) (pre line rest : TString)
    (hpre : pre = [] ∨ pre = Crlf) (hc : s.CurrentLine_ = []) (hline : '\n' ∉ line)
    (hd : s.Data_ = pre ++ ("0\r\n".toList ++ (line ++ '\n' :: rest))) :
    ChunkedSizeLine s ⟨0, false⟩ = .ok (.inl (true, { s with
      ChunkInputState_ := some ⟨0, true⟩, CurrentLine_ := StripCR line, Data_ := rest,
      Parser_ := .OnEndParsing, ExtraDataSize_ := rest.length })) := by
  obtain ⟨s1, hr1, hr2⟩ := ReadLine_skip s pre ['0'] (line ++ '\n' :: rest) hpre (by simp)
    (by decide) hc (by rw [hd]; rfl)
  have h3 : IntFromString 16 MaxUi32 ['0'] = .ok 0 := rfl
  have hr3 := ReadLine_line
    ({ s with
        CurrentLine_ := [], Data_ := line ++ '\n' :: rest,
        ChunkInputState_ := some ⟨0, true⟩ } : THttpParser)
    line rest hline rfl
  unfold ChunkedSizeLine
  simp only [if_true, hr1, Bool.false_eq_true, if_false, hr2,
    show find_first_of " \t;".toList ['0'] = none from by decide, List.length_singleton,
    List.take_succ_cons, List.take_zero, h3, show (['0'] : TString) ≠ [] from by simp, hr3,
    OnEndParsing, List.nil_append]

/-- The zero-size chunk line followed by bytes without a line feed. -/
theorem ChunkedSizeLine_zero_wait (s : THttpParser) (pre tail : TString)
    (hpre : pre = [] ∨ pre = Crlf) (hc : s.CurrentLine_ = []) (htail : '\n' ∉ tail)
    (hd : s.Data_ = pre ++ ("0\r\n".toList ++ tail)) :
    ChunkedSizeLine s ⟨0, false⟩ = .ok (.inl (false, { s with
      ChunkInputState_ := some ⟨0, true⟩, CurrentLine_ := tail, Data_ := tail,
      Parser_ := .ChunkedContentParser })) := by
  obtain ⟨s1, hr1, hr2⟩ := ReadLine_skip s pre ['0'] tail hpre (by simp)
    (by decide) hc (by rw [hd]; rfl)
  have h3 : IntFromString 16 MaxUi32 ['0'] = .ok 0 := rfl
  have hr3 := ReadLine_none
    ({ s with
        CurrentLine_ := [], Data_ := tail,
        ChunkInputState_ := some ⟨0, true⟩ } : THttpParser) htail
  unfold ChunkedSizeLine
  simp only [if_true, hr1, Bool.false_eq_true, if_false, hr2,
    show find_first_of " \t;".toList ['0'] = none from by decide, List.length_singleton,
    List.take_succ_cons, List.take_zero, h3, show (['0'] : TString) ≠ [] from by simp, hr3,
    List.nil_append]

/-- The chunk loop across a list of well-formed chunks that is followed by further
bytes: the loop goes on after the chunks, in front of the CR LF of the last one. -/
theorem ChunkedContentLoop_chunks (tail : TString) :
    ∀ (cs : List TChunk) (s : THttpParser) (fuel : Nat) (pre : TString),
    (∀ c ∈ cs, c.WellFormed) → s.ChunkInputState_ = some ⟨0, false⟩ → s.CurrentLine_ = [] →
    (pre = [] ∨ pre = Crlf) → s.Data_ = pre ++ (ChunkedData cs ++ tail) → cs.length ≤ fuel →
    ∃ pre2, (pre2 = [] ∨ pre2 = Crlf) ∧ (cs = [] → pre2 = pre) ∧ (cs ≠ [] → pre2 = Crlf) ∧
      ChunkedContentLoop fuel s = ChunkedContentLoop (fuel - cs.length) { s with
        Content_ := s.Content_ ++ ChunkPayload cs, ChunkInputState_ := some ⟨0, false⟩,
        CurrentLine_ := [], Data_ := pre2 ++ tail } := by
  intro cs
  induction cs with
  | nil =>
    intro s fuel pre _ hci hc hpre hd _
    refine ⟨pre, hpre, fun _ => rfl, fun h => absurd rfl h, ?_⟩
    have e : ({ s with
        Content_ := s.Content_ ++ ChunkPayload [],
        ChunkInputState_ := some ⟨0, false⟩, CurrentLine_ := [], Data_ := pre ++ tail }
        : THttpParser) = s := by
      have hd2 : s.Data_ = pre ++ tail := by simpa [ChunkedData] using hd
      rw [← hci, ← hc, ← hd2]
      simp [ChunkPayload]
    rw [e]
    rfl
  | cons c cs ih =>
    intro s fuel pre hall hci hc hpre hd hfuel
    obtain ⟨f, rfl⟩ : ∃ f, fuel = f + 1 := ⟨fuel - 1, by simp at hfuel; omega⟩
    have hwf := hall c (List.mem_cons_self _ _)
    have hd2 : s.Data_ = pre ++ (c.Size ++ c.Ext ++ Crlf ++
        (c.Data ++ (Crlf ++ (ChunkedData cs ++ tail)))) := by
      rw [hd]; simp [ChunkedData, TChunk.Encode, List.append_assoc]
    have hsz := ChunkedSizeLine_chunk s c pre _ hwf hpre hc hd2
    have hne : Crlf ++ (ChunkedData cs ++ tail) ≠ [] := by simp [Crlf]
    obtain ⟨pre2, hp2, h0, h1, hih⟩ := ih
      ({ s with
          Content_ := s.Content_ ++ c.Data, ChunkInputState_ := some ⟨0, false⟩,
          CurrentLine_ := [], Data_ := Crlf ++ (ChunkedData cs ++ tail) } : THttpParser)
      f Crlf (fun x hx => hall x (List.mem_cons_of_mem _ hx)) rfl rfl (Or.inr rfl) rfl
      (by simp at hfuel; omega)
    have hpre2 : pre2 = Crlf := by
      by_cases hcs : cs = []
      · exact h0 hcs
      · exact h1 hcs
    subst hpre2
    refine ⟨Crlf, Or.inr rfl, (fun h => by cases h), (fun _ => rfl), ?_⟩
    conv_lhs => unfold ChunkedContentLoop
    rw [hci]
    simp only [hsz, ChunkedCopy, List.length_append, Nat.le_add_right, min_eq_right,
      List.take_left', List.drop_left', Nat.sub_self, ne_eq, hne, not_false_eq_true, if_true]
    rw [hih]
    simp [ChunkPayload, List.append_assoc]

end THttpParser

theorem ChunkedData_length (cs : List TChunk) : cs.length ≤ (ChunkedData cs).length := by
  induction cs with
  | nil => simp
  | cons c cs ih => simp [ChunkedData, TChunk.Encode, Crlf]; omega

namespace THttpParser

/-- Feeding the head of a message that declares chunked transfer encoding and what
follows it: the chunk loop starts on the bytes after the empty line, with a fresh
chunk state and an empty body. -/
theorem Parse_chunked_head (mt : TMessageType) (collect : Bool) (fl : TString)
    (lines : List TString) (rest : TString)
    (hfl : '\n' ∉ fl) (hok : FirstLineOk mt fl = true)
    (hall : ∀ l ∈ lines, PlainHeader l ∨ l = ChunkedLine) (hte : ChunkedLine ∈ lines) :
    ∃ sF, Parse (Init mt collect) (fl ++ Crlf ++ HeaderBlock lines ++ Crlf ++ rest)
        = ChunkedContentLoop (rest.length + 1) sF ∧
      sF.Data_ = rest ∧ sF.ChunkInputState_ = some ⟨0, false⟩ ∧ sF.Content_ = [] ∧
      sF.CurrentLine_ = [] ∧ sF.HasContentLength_ = false := by
  have hall2 : ∀ l ∈ lines, AllowedHeader none true l := by
    intro l hl
    rcases hall l hl with h | h
    · exact Or.inl h
    · exact Or.inr (Or.inr ⟨rfl, h⟩)
  obtain ⟨s2, hpf⟩ := ParseFirstLine_of_FirstLineOk mt fl hok
    ({ Init mt collect with
        FirstLine_ := fl, Data_ := HeaderBlock lines ++ Crlf ++ rest } : THttpParser)
    rfl rfl
  have hfr := ParseFirstLine_frame _ _ hpf
  have hbody : s2.Content_ = [] := by rw [hfr]; rfl
  obtain ⟨sF, hd, hcur, hres⟩ := Parse_message mt collect fl lines rest none true
    hfl hall2 s2 hpf
  rcases hres with ⟨hinv, h1, -, -⟩ | ⟨hinv, -, hp⟩
  · exact absurd (hinv.cl h1) (by simp)
  · have hch : sF.ChunkInputState_ = some ⟨0, false⟩ :=
      hinv.teDone rfl (List.mem_cons_of_mem _ hte)
    rw [hch] at hp
    simp only [Option.isSome_some, if_true] at hp
    refine ⟨sF, ?_, hd, hch, hinv.body.trans hbody, hcur, ?_⟩
    · rw [hp, ChunkedContentParser, hd]
    · cases hc : sF.HasContentLength_ with
      | false => rfl
      | true => exact absurd (hinv.cl hc) (by simp)

end THttpParser

namespace THttpParser

theorem ChunkedContentLoop_zero_line (s : THttpParser) (f : Nat) (pre line rest : TString)
    (hci : s.ChunkInputState_ = some ⟨0, false⟩)
    (hpre : pre = [] ∨ pre = Crlf) (hc : s.CurrentLine_ = []) (hline : '\n' ∉ line)
    (hd : s.Data_ = pre ++ ("0\r\n".toList ++ (line ++ '\n' :: rest))) :
    ChunkedContentLoop (f + 1) s = .ok (true, { s with
      ChunkInputState_ := some ⟨0, true⟩, CurrentLine_ := StripCR line, Data_ := rest,
      Parser_ := .OnEndParsing, ExtraDataSize_ := rest.length }) := by
  unfold ChunkedContentLoop
  rw [hci]
  simp only [ChunkedSizeLine_zero_line s pre line rest hpre hc hline hd]

theorem ChunkedContentLoop_zero_wait (s : THttpParser) (f : Nat) (pre tail : TString)
    (hci : s.ChunkInputState_ = some ⟨0, false⟩)
    (hpre : pre = [] ∨ pre = Crlf) (hc : s.CurrentLine_ = []) (htail : '\n' ∉ tail)
    (hd : s.Data_ = pre ++ ("0\r\n".toList ++ tail)) :
    ChunkedContentLoop (f + 1) s = .ok (false, { s with
      ChunkInputState_ := some ⟨0, true⟩, CurrentLine_ := tail, Data_ := tail,
      Parser_ := .ChunkedContentParser }) := by
  unfold ChunkedContentLoop
  rw [hci]
  simp only [ChunkedSizeLine_zero_wait s pre tail hpre hc htail hd]

end THttpParser


namespace THttpParser

theorem ParseFirstLine_congr_code (s r s' : THttpParser) (hm : s'.MessageType_ = s.MessageType_)
    (hf : s'.FirstLine_ = s.FirstLine_) (hc : s'.RetCode_ = s.RetCode_)
    (h : ParseFirstLine s = .ok r) :
    ∃ r', ParseFirstLine s' = .ok r' ∧ r'.RetCode_ = r.RetCode_ := by
  unfold ParseFirstLine at h ⊢
  rw [hm, hf]
  by_cases hresp : s.MessageType_ = .Response
  · rw [if_pos hresp] at h ⊢
    cases hg : GetNext (some s.FirstLine_) ' ' with
    | error e => rw [hg] at h; cases h
    | ok p =>
      obtain ⟨v, rest⟩ := p
      rw [hg] at h
      simp only [] at h ⊢
      cases hv : ParseHttpVersion s v with
      | error e => rw [hv] at h; cases h
      | ok s1 =>
        rw [hv] at h
        simp only [] at h
        obtain ⟨s1', hv'⟩ := ParseHttpVersion_congr s s1 s' v hv
        rw [hv']
        simp only []
        cases hg2 : GetNext rest ' ' with
        | error e => rw [hg2] at h; cases h
        | ok p2 =>
          obtain ⟨c, rest2⟩ := p2
          rw [hg2] at h
          simp only [] at h ⊢
          cases hcd : IntFromString 10 MaxUi32 c with
          | error e => rw [hcd] at h; cases h
          | ok code =>
            rw [hcd] at h
            cases h
            exact ⟨_, rfl, rfl⟩
  · rw [if_neg hresp] at h ⊢
    obtain ⟨r', hr'⟩ := ParseHttpVersion_congr s r s' _ h
    refine ⟨r', hr', ?_⟩
    have f1 := ParseHttpVersion_frame s r _ h
    have f2 := ParseHttpVersion_frame s' r' _ hr'
    rw [f1, f2]
    exact hc

/-- Feeding the head of a message whose header block holds no framing header and
what follows it: `ContentParser` is entered with no content length known, no
chunk state, an empty body, and the status code of the first line. -/
theorem Parse_plain_head (mt : TMessageType) (collect : Bool) (fl : TString)
    (lines : List TString) (rest : TString) (code : Nat)
    (hfl : '\n' ∉ fl) (hcode : FirstLineCode mt fl = some code)
    (hall : ∀ l ∈ lines, PlainHeader l) :
    ∃ sF, Parse (Init mt collect) (fl ++ Crlf ++ HeaderBlock lines ++ Crlf ++ rest)
        = .ok (ContentParser sF) ∧
      sF.Data_ = rest ∧ sF.HasContentLength_ = false ∧ sF.ChunkInputState_ = none ∧
      sF.Content_ = [] ∧ sF.MessageType_ = mt ∧ sF.RetCode_ = code := by
  have hall2 : ∀ l ∈ lines, AllowedHeader none false l := fun l hl => Or.inl (hall l hl)
  unfold FirstLineCode at hcode
  cases hp0 : ParseFirstLine ({ Init mt true with FirstLine_ := fl } : THttpParser) with
  | error e => rw [hp0] at hcode; cases hcode
  | ok r0 =>
    rw [hp0] at hcode
    simp only [Option.some.injEq] at hcode
    obtain ⟨s2, hpf, hrc⟩ := ParseFirstLine_congr_code
      ({ Init mt true with
          FirstLine_ := fl } : THttpParser) r0
      ({ Init mt collect with
          FirstLine_ := fl, Data_ := HeaderBlock lines ++ Crlf ++ rest } : THttpParser)
      rfl rfl rfl hp0
    have hfr := ParseFirstLine_frame _ _ hpf
    have hbody : s2.Content_ = [] := by rw [hfr]; rfl
    have hmt : s2.MessageType_ = mt := by rw [hfr]; rfl
    obtain ⟨sF, hd, hcur, hres⟩ := Parse_message mt collect fl lines rest none false
      hfl hall2 s2 hpf
    rcases hres with ⟨hinv, h1, -, -⟩ | ⟨hinv, -, hp⟩
    · exact absurd (hinv.cl h1) (by simp)
    · have hch : sF.ChunkInputState_ = none := by
        rcases hinv.ch with h | h
        · exact h
        · exact absurd h.1 (by decide)
      rw [hch] at hp
      simp only [Option.isSome_none, Bool.false_eq_true, if_false] at hp
      refine ⟨sF, hp, hd, ?_, hch, hinv.body.trans hbody, hinv.msg.trans hmt,
        (hinv.code.trans hrc).trans hcode⟩
      cases hc : sF.HasContentLength_ with
      | false => rfl
      | true => exact absurd (hinv.cl hc) (by simp)

theorem Feed_cons_false (s : THttpParser) (d : TString) (ds : List TString) (s1 : THttpParser)
    (h : Parse s d = .ok (false, s1)) : Feed s (d :: ds) = Feed s1 ds := by
  cases ds with
  | nil => simp only [Feed, h]
  | cons d2 ds2 => simp only [Feed, h]

/-- A response body that ends with the stream: every feed is appended whole and no
`Parse` call reports completion. -/
theorem Feed_until_eof :
    ∀ (ds : List TString) (s : THttpParser),
    s.Parser_ = .ContentParser → s.HasContentLength_ = false → s.MessageType_ = .Response →
    ¬ (s.RetCode_ < 200 ∨ s.RetCode_ = 204 ∨ s.RetCode_ = 304) →
    ∃ s', Feed s ds = .ok (false, s') ∧ s'.Parser_ = .ContentParser ∧
      s'.HasContentLength_ = false ∧ s'.ChunkInputState_ = s.ChunkInputState_ ∧
      s'.Content_ = s.Content_ ++ ds.flatten := by
  intro ds
  induction ds with
  | nil =>
    intro s hp hcl _ _
    exact ⟨s, rfl, hp, hcl, rfl, by simp⟩
  | cons d ds ih =>
    intro s hp hcl hmt hcode
    have e : Parse s d = .ok (false, { s with
        Content_ := s.Content_ ++ d, Data_ := [], Parser_ := .ContentParser }) := by
      have e0 : Parse s d = .ok (ContentParser { s with Data_ := d }) := by
        unfold Parse; simp only []; rw [hp]
      rw [e0]
      unfold ContentParser
      simp only [hcl, Bool.false_eq_true, if_false, hmt, hcode]
      rfl
    rw [Feed_cons_false s d ds _ e]
    obtain ⟨s', h1, h2, h4, h5, h3⟩ := ih
      ({ s with Content_ := s.Content_ ++ d, Data_ := [], Parser_ := .ContentParser } : THttpParser)
      rfl hcl hmt hcode
    exact ⟨s', h1, h2, h4, h5, by rw [h3]; simp⟩

end THttpParser

theorem DigitValue_not_hex (c : Char) (h : IsHexDigit c = false) : DigitValue 16 c = none := by
  unfold IsHexDigit at h
  have e0 : ('0' : Char).toNat = 48 := rfl
  have e9 : ('9' : Char).toNat = 57 := rfl
  have ea : ('a' : Char).toNat = 97 := rfl
  have ef : ('f' : Char).toNat = 102 := rfl
  have eA : ('A' : Char).toNat = 65 := rfl
  have eF : ('F' : Char).toNat = 70 := rfl
  simp only [Bool.or_eq_false_iff, Bool.and_eq_false_iff, decide_eq_false_iff_not,
    e0, e9, ea, ef, eA, eF] at h
  obtain ⟨⟨h1, h2⟩, h3⟩ := h
  unfold DigitValue
  rw [if_neg, if_neg, if_neg]
  · rintro ⟨-, h4, h5⟩
    rcases h3 with h | h <;> omega
  · rintro ⟨-, h4, h5⟩
    rcases h2 with h | h <;> omega
  · rintro ⟨h4, h5⟩
    rcases h1 with h | h <;> omega

theorem ParseDigits_not_hex (max : Nat) :
    ∀ (l : TString) (acc : Nat), l.any (fun c => !IsHexDigit c) = true →
      ParseDigits 16 max l acc = none := by
  intro l
  induction l with
  | nil => intro acc h; simp at h
  | cons c cs ih =>
    intro acc h
    unfold ParseDigits
    cases hc : IsHexDigit c with
    | false => rw [DigitValue_not_hex c hc]
    | true =>
      have h2 : cs.any (fun c => !IsHexDigit c) = true := by
        simpa [hc] using h
      cases DigitValue 16 c with
      | none => rfl
      | some dv =>
        simp only []
        split_ifs
        · exact ih _ h2
        · rfl

theorem IntFromString_bad (line : TString) (h : BadSizeField line = true) :
    IntFromString 16 MaxUi32 (line.take (match find_first_of " \t;".toList line with
      | none => line.length
      | some i => i)) = .error .yexception := by
  have e : line.take (match find_first_of " \t;".toList line with
      | none => line.length
      | some i => i) = SizeField line := by
    unfold SizeField
    cases find_first_of " \t;".toList line with
    | none => simp
    | some i => rfl
  rw [e]
  unfold BadSizeField at h
  unfold IntFromString
  by_cases h0 : SizeField line = []
  · rw [if_pos h0]
  · rw [if_neg h0]
    have h1 : (SizeField line).any (fun c => !IsHexDigit c) = true := by
      simpa [h0] using h
    rw [ParseDigits_not_hex _ _ _ h1]

namespace THttpParser

/-- A chunk-size line with a bad size field, read directly or after one blank
line, makes the size-line step throw. -/
theorem ChunkedSizeLine_bad (s : THttpParser) (d rest : TString) (hd : '\n' ∉ d)
    (hdata : s.Data_ = d ++ '\n' :: rest)
    (hbad : (StripCR (s.CurrentLine_ ++ d) ≠ [] ∧
              BadSizeField (StripCR (s.CurrentLine_ ++ d)) = true) ∨
            (StripCR (s.CurrentLine_ ++ d) = [] ∧ ∃ d2 rest2, '\n' ∉ d2 ∧
              rest = d2 ++ '\n' :: rest2 ∧ BadSizeField (StripCR d2) = true)) :
    ChunkedSizeLine s ⟨0, false⟩ = .error .yexception := by
  have hr1 := ReadLine_line s d rest hd hdata
  unfold ChunkedSizeLine
  simp only [if_true, hr1, Bool.false_eq_true, if_false]
  rcases hbad with ⟨hne, hb⟩ | ⟨he, d2, rest2, hd2, hrest, hb⟩
  · rw [if_neg hne]
    simp only []
    rw [if_neg hne, IntFromString_bad _ hb]
  · rw [if_pos he]
    have hr2 := ReadLine_line
      ({ s with
          CurrentLine_ := StripCR (s.CurrentLine_ ++ d), Data_ := rest } : THttpParser)
      d2 rest2 hd2 hrest
    rw [hr2]
    simp only [he, List.nil_append]
    by_cases h0 : StripCR d2 = []
    · rw [if_pos h0]
    · rw [if_neg h0, IntFromString_bad _ hb]

end THttpParser

namespace THttpParser

/-- Header folding in the header loop: continuation lines (each starting with a
space or a tab) are appended unchanged, leading white space included, to the
pending header line, and nothing is applied while they are read. -/
theorem HeadersLoop_fold :
    ∀ (conts : List TString) (s : THttpParser) (rest : TString) (fuel : Nat),
    (∀ l ∈ conts, '\n' ∉ l ∧ (l.head? = some ' ' ∨ l.head? = some '\t')) →
    s.CurrentLine_ = [] → s.Data_ = HeaderBlock conts ++ rest →
    HeadersLoop (fuel + conts.length) s
      = HeadersLoop fuel { s with HeaderLine_ := s.HeaderLine_ ++ conts.flatten, Data_ := rest } := by
  intro conts
  induction conts with
  | nil =>
    intro s rest fuel _ _ hd
    have e : ({ s with
        HeaderLine_ := s.HeaderLine_ ++ ([] : List TString).flatten, Data_ := rest } : THttpParser)
        = s := by
      cases s
      simp only [HeaderBlock, List.nil_append] at hd
      simp [hd]
    rw [e]
    rfl
  | cons l ls ih =>
    intro s rest fuel hall hc hd
    obtain ⟨hl, hh⟩ := hall l (List.mem_cons_self _ _)
    have hne : l ≠ [] := by
      intro h0
      rw [h0] at hh
      rcases hh with h | h <;> cases h
    have hd2 : s.Data_ = l ++ Crlf ++ (HeaderBlock ls ++ rest) := by
      rw [hd]; simp [HeaderBlock]
    have hr := ReadLine_crlf s l _ hl hc hd2
    have e : fuel + (l :: ls).length = (fuel + ls.length) + 1 := by
      simp only [List.length_cons]; omega
    rw [e]
    conv => lhs; unfold HeadersLoop
    simp only [hr, if_neg hne, if_pos hh]
    rw [ih _ rest fuel (fun x hx => hall x (List.mem_cons_of_mem _ hx)) rfl rfl]
    simp only [List.flatten_cons, List.append_assoc, hc]

end THttpParser

theorem IntFromString_exc (b m : Nat) (x : TString) (e : TError)
    (h : IntFromString b m x = .error e) : e.IsException = true := by
  unfold IntFromString at h
  split_ifs at h
  · cases h; rfl
  · split at h
    · cases h; rfl
    · cases h

theorem GetNext_exc (s : Option TString) (c : Char) (e : TError)
    (h : GetNext s c = .error e) : e.IsException = true := by
  unfold GetNext at h
  split at h
  · cases h; rfl
  · split_ifs at h
    cases h; rfl

theorem THttpInputHeader_exc (l : TString) (e : TError)
    (h : THttpInputHeader l = .error e) : e.IsException = true := by
  unfold THttpInputHeader at h
  split at h
  · cases h; rfl
  · cases h

namespace THttpParser

theorem ApplyHeaderLine_exc (s : THttpParser) (name val : TString) (e : TError)
    (h : ApplyHeaderLine s name val = .error e) : e.IsException = true := by
  unfold ApplyHeaderLine at h
  split_ifs at h
  · cases h; rfl
  · cases hi : IntFromString 10 MaxUi64 val with
    | error e2 =>
      rw [hi] at h
      cases h
      exact IntFromString_exc _ _ _ _ hi
    | ok n => rw [hi] at h; cases h
  · obtain ⟨r, hr⟩ := AcceptEncodingLoop_ok (val.length + 1) val s.AcceptEncodings_
      (Nat.lt_succ_self _)
    rw [hr] at h
    cases h

theorem ParseHeaderLine_exc (s : THttpParser) (e : TError)
    (h : ParseHeaderLine s = .error e) : e.IsException = true := by
  unfold ParseHeaderLine at h
  split_ifs at h
  · cases hh : THttpInputHeader s.HeaderLine_ with
    | error e2 =>
      rw [hh] at h
      cases h
      exact THttpInputHeader_exc _ _ hh
    | ok hdr =>
      rw [hh] at h
      simp only [] at h
      split at h
      · rename_i e2 ha
        cases h
        exact ApplyHeaderLine_exc _ _ _ _ ha
      · cases h
  · split at h
    · cases h; rfl
    · simp only [] at h
      split at h
      · rename_i e2 ha
        cases h
        exact ApplyHeaderLine_exc _ _ _ _ ha
      · cases h

/-- `ReadLine` leaves a suffix of the unread bytes, strictly shorter when a line
was read. -/
theorem ReadLine_suffix (s : THttpParser) (b : Bool) (s1 : THttpParser)
    (h : ReadLine s = (b, s1)) :
    s1.Data_ <:+ s.Data_ ∧ (b = true → s1.Data_.length < s.Data_.length) := by
  unfold ReadLine at h
  cases hf : find '\n' s.Data_ with
  | none =>
    rw [hf] at h
    simp only [Prod.mk.injEq] at h
    obtain ⟨rfl, rfl⟩ := h
    exact ⟨List.suffix_refl _, fun hb => by cases hb⟩
  | some i =>
    rw [hf] at h
    simp only [Prod.mk.injEq] at h
    obtain ⟨_, rfl⟩ := h
    have hi := find_some_le _ _ _ hf
    refine ⟨List.drop_suffix _ _, fun _ => ?_⟩
    simp only [List.length_drop]
    omega

theorem StaysInBuffer_mono (d1 d : TString) (r : Except TError (Bool × THttpParser))
    (hs : d1 <:+ d) (h : StaysInBuffer d1 r) : StaysInBuffer d r := by
  unfold StaysInBuffer at h ⊢
  cases r with
  | error e => exact h
  | ok p =>
    obtain ⟨b, s1⟩ := p
    exact ⟨h.1.trans hs, h.2⟩

theorem OnEndParsing_stays (s : THttpParser) : StaysInBuffer s.Data_ (.ok (OnEndParsing s)) :=
  ⟨List.suffix_refl _, fun _ => rfl⟩

theorem ContentParser_stays (s : THttpParser) (b : Bool) (s1 : THttpParser)
    (h : ContentParser s = (b, s1)) :
    s1.Data_ <:+ s.Data_ ∧ (b = true → s1.ExtraDataSize_ = s1.Data_.length) := by
  unfold ContentParser at h
  simp only [OnEndParsing] at h
  split_ifs at h <;> simp only [Prod.mk.injEq] at h <;> obtain ⟨rfl, rfl⟩ := h
  · exact ⟨List.drop_suffix _ _, fun _ => rfl⟩
  · exact ⟨List.drop_suffix _ _, fun hb => by cases hb⟩
  · exact ⟨List.suffix_refl _, fun _ => rfl⟩
  · exact ⟨List.suffix_refl _, fun _ => rfl⟩
  · exact ⟨List.nil_suffix, fun hb => by cases hb⟩

end THttpParser
namespace THttpParser

/-- The size-line step of the chunk loop: it throws only C++ exceptions, leaves a
suffix of the unread bytes, and consumes at least one byte when it reads a chunk
size and goes on to copy. -/
theorem ChunkedSizeLine_stays (s : THttpParser) (ci : TChunkInputState) :
    (∀ e, ChunkedSizeLine s ci = .error e → e.IsException = true) ∧
    (∀ b s1, ChunkedSizeLine s ci = .ok (.inl (b, s1)) →
      s1.Data_ <:+ s.Data_ ∧ (b = true → s1.ExtraDataSize_ = s1.Data_.length)) ∧
    (∀ s1, ChunkedSizeLine s ci = .ok (.inr s1) →
      s1.Data_ <:+ s.Data_ ∧ (ci.LeftBytes_ = 0 → s1.Data_.length < s.Data_.length) ∧
      (ci.LeftBytes_ ≠ 0 → s1 = s)) := by
  unfold ChunkedSizeLine
  by_cases h0 : ci.LeftBytes_ = 0
  · rw [if_pos h0]
    cases hr : ReadLine s with
    | mk b1 s1 =>
      have f1 := ReadLine_suffix s b1 s1 hr
      cases b1 with
      | false =>
        refine ⟨(fun _ h => by cases h), ?_, (fun _ h => by cases h)⟩
        intro b s' h
        simp only [Except.ok.injEq, Sum.inl.injEq, Prod.mk.injEq] at h
        obtain ⟨rfl, rfl⟩ := h
        exact ⟨f1.1, (fun h => by cases h)⟩
      | true =>
        have hlt1 := f1.2 rfl
        simp only []
        by_cases hlast : ci.ReadLastChunk_ = true
        · rw [if_pos hlast]
          refine ⟨(fun _ h => by cases h), ?_, (fun _ h => by cases h)⟩
          intro b s' h
          simp only [OnEndParsing, Except.ok.injEq, Sum.inl.injEq, Prod.mk.injEq] at h
          obtain ⟨rfl, rfl⟩ := h
          exact ⟨f1.1, (fun _ => rfl)⟩
        · rw [if_neg hlast]
          cases hr2 : (if s1.CurrentLine_ = [] then ReadLine s1 else (true, s1)) with
          | mk b2 s2 =>
            have f2 : s2.Data_ <:+ s1.Data_ := by
              split_ifs at hr2 with hc
              · exact (ReadLine_suffix s1 b2 s2 hr2).1
              · cases hr2
                exact List.suffix_refl _
            have f2s : s2.Data_ <:+ s.Data_ := f2.trans f1.1
            have f2l : s2.Data_.length < s.Data_.length :=
              Nat.lt_of_le_of_lt f2.length_le hlt1
            cases b2 with
            | false =>
              refine ⟨(fun _ h => by cases h), ?_, (fun _ h => by cases h)⟩
              intro b s' h
              simp only [Except.ok.injEq, Sum.inl.injEq, Prod.mk.injEq] at h
              obtain ⟨rfl, rfl⟩ := h
              exact ⟨f2s, (fun h => by cases h)⟩
            | true =>
              simp only []
              by_cases hc2 : s2.CurrentLine_ = []
              · rw [if_pos hc2]
                refine ⟨?_, (fun _ _ h => by cases h), (fun _ h => by cases h)⟩
                intro e h
                cases h
                rfl
              · rw [if_neg hc2]
                cases hint : IntFromString 16 MaxUi32 (s2.CurrentLine_.take
                    (match find_first_of " \t;".toList s2.CurrentLine_ with
                      | none => s2.CurrentLine_.length
                      | some i => i)) with
                | error e =>
                  refine ⟨?_, (fun _ _ h => by cases h), (fun _ h => by cases h)⟩
                  intro e2 h
                  simp only [Except.error.injEq] at h
                  subst h
                  exact IntFromString_exc _ _ _ _ hint
                | ok n =>
                  simp only []
                  by_cases hn : n = 0
                  · rw [if_pos hn]
                    cases hr3 : ReadLine ({ s2 with ChunkInputState_ := some ⟨n, true⟩, CurrentLine_ := [] } : THttpParser) with
                    | mk b3 s3 =>
                      have f3 := (ReadLine_suffix _ b3 s3 hr3).1
                      cases b3 with
                      | true =>
                        refine ⟨(fun _ h => by cases h), ?_, (fun _ h => by cases h)⟩
                        intro b s' h
                        simp only [OnEndParsing, Except.ok.injEq, Sum.inl.injEq,
                          Prod.mk.injEq] at h
                        obtain ⟨rfl, rfl⟩ := h
                        exact ⟨f3.trans f2s, (fun _ => rfl)⟩
                      | false =>
                        refine ⟨(fun _ h => by cases h), ?_, (fun _ h => by cases h)⟩
                        intro b s' h
                        simp only [Except.ok.injEq, Sum.inl.injEq, Prod.mk.injEq] at h
                        obtain ⟨rfl, rfl⟩ := h
                        exact ⟨f3.trans f2s, (fun h => by cases h)⟩
                  · rw [if_neg hn]
                    refine ⟨(fun _ h => by cases h), (fun _ _ h => by cases h), ?_⟩
                    intro s' h
                    simp only [Except.ok.injEq, Sum.inr.injEq] at h
                    subst h
                    exact ⟨f2s, (fun _ => f2l), (fun hq => absurd h0 hq)⟩
  · rw [if_neg h0]
    refine ⟨(fun _ h => by cases h), (fun _ _ h => by cases h), ?_⟩
    intro s' h
    simp only [Except.ok.injEq, Sum.inr.injEq] at h
    subst h
    exact ⟨List.suffix_refl _, (fun hq => absurd hq h0), (fun _ => rfl)⟩

/-- The chunk loop with more fuel than unread bytes never runs out of fuel, never
dereferences an empty chunk state, and stays inside the buffer. -/
theorem ChunkedContentLoop_stays :
    ∀ (fuel : Nat) (s : THttpParser),
    s.ChunkInputState_.isSome = true → s.Data_.length < fuel →
    StaysInBuffer s.Data_ (ChunkedContentLoop fuel s) := by
  intro fuel
  induction fuel with
  | zero => intro s _ h; omega
  | succ f ih =>
    intro s hsome hfuel
    obtain ⟨ci, hci⟩ := Option.isSome_iff_exists.mp hsome
    have hinv := ChunkedSizeLine_inv s ci hci
    have hst := ChunkedSizeLine_stays s ci
    unfold ChunkedContentLoop
    rw [hci]
    simp only []
    cases hsz : ChunkedSizeLine s ci with
    | error e => exact hst.1 e hsz
    | ok r =>
      cases r with
      | inl r1 =>
        obtain ⟨b, s1⟩ := r1
        exact hst.2.1 b s1 hsz
      | inr s1 =>
        simp only []
        obtain ⟨ci1, hci1⟩ := Option.isSome_iff_exists.mp (hinv.2 s1 hsz).2
        obtain ⟨hsuf, hzero, hsame⟩ := hst.2.2 s1 hsz
        rw [hci1]
        simp only []
        have hcopy : (ChunkedCopy s1 ci1).Data_ = s1.Data_.drop (min s1.Data_.length ci1.LeftBytes_) :=
          rfl
        have hsuf2 : (ChunkedCopy s1 ci1).Data_ <:+ s.Data_ := by
          rw [hcopy]
          exact (List.drop_suffix _ _).trans hsuf
        by_cases hd : (ChunkedCopy s1 ci1).Data_ ≠ []
        · rw [if_pos hd]
          refine StaysInBuffer_mono _ _ _ hsuf2 (ih (ChunkedCopy s1 ci1) rfl ?_)
          have hlen : (ChunkedCopy s1 ci1).Data_.length
              = s1.Data_.length - min s1.Data_.length ci1.LeftBytes_ := by
            rw [hcopy, List.length_drop]
          by_cases h0 : ci.LeftBytes_ = 0
          · have := hzero h0
            omega
          · have e1 := hsame h0
            subst e1
            have e2 : ci1 = ci := by
              rw [hci] at hci1
              exact (Option.some.inj hci1).symm
            subst e2
            have hpos : 0 < (ChunkedCopy s1 ci1).Data_.length :=
              List.length_pos.mpr hd
            rw [hlen] at hpos ⊢
            have : 0 < ci1.LeftBytes_ := Nat.pos_of_ne_zero h0
            omega
        · rw [if_neg hd]
          exact ⟨hsuf2, (fun h => by cases h)⟩

end THttpParser
namespace THttpParser

/-- The header loop with more fuel than unread bytes never runs out of fuel and
stays inside the buffer. -/
theorem HeadersLoop_stays :
    ∀ (fuel : Nat) (s : THttpParser), s.Data_.length < fuel →
    StaysInBuffer s.Data_ (HeadersLoop fuel s) := by
  intro fuel
  induction fuel with
  | zero => intro s h; omega
  | succ f ih =>
    intro s hfuel
    unfold HeadersLoop
    cases hr : ReadLine s with
    | mk b1 s1 =>
      have f1 := ReadLine_suffix s b1 s1 hr
      cases b1 with
      | false => exact ⟨f1.1, (fun h => by cases h)⟩
      | true =>
        have hlt := f1.2 rfl
        simp only []
        by_cases hc : s1.CurrentLine_ = []
        · rw [if_pos hc]
          by_cases hz : s1.HasContentLength_ = true ∧ s1.ContentLength_ = 0
          · rw [if_pos hz]
            exact ⟨f1.1, (fun _ => rfl)⟩
          · rw [if_neg hz]
            cases hp : ParseHeaderLine s1 with
            | error e => exact ParseHeaderLine_exc s1 e hp
            | ok s2 =>
              have hd := (ParseHeaderLine_frame s1 s2 hp).data
              simp only []
              by_cases hch : s2.ChunkInputState_.isSome = true
              · rw [if_pos hch]
                refine StaysInBuffer_mono s2.Data_ _ _ (by rw [hd]; exact f1.1) ?_
                exact ChunkedContentLoop_stays _ s2 hch (Nat.lt_succ_self _)
              · rw [if_neg hch]
                cases hcp : ContentParser s2 with
                | mk b s3 =>
                  have := ContentParser_stays s2 b s3 hcp
                  exact ⟨this.1.trans (by rw [hd]; exact f1.1), this.2⟩
        · rw [if_neg hc]
          by_cases hh : s1.CurrentLine_.head? = some ' ' ∨ s1.CurrentLine_.head? = some '\t'
          · rw [if_pos hh]
            refine StaysInBuffer_mono s1.Data_ _ _ f1.1 ?_
            exact ih ({ s1 with
              HeaderLine_ := s1.HeaderLine_ ++ s1.CurrentLine_, CurrentLine_ := [] } : THttpParser)
              (by show s1.Data_.length < f; omega)
          · rw [if_neg hh]
            cases hp : ParseHeaderLine s1 with
            | error e => exact ParseHeaderLine_exc s1 e hp
            | ok s2 =>
              have hd := (ParseHeaderLine_frame s1 s2 hp).data
              simp only []
              refine StaysInBuffer_mono s1.Data_ _ _ f1.1 ?_
              have := ih ({ s2 with
                HeaderLine_ := s2.CurrentLine_, CurrentLine_ := s2.HeaderLine_ } : THttpParser)
                (by show s2.Data_.length < f; rw [hd]; omega)
              rw [← hd]
              exact this

theorem FirstLineParser_stays (s : THttpParser) :
    StaysInBuffer s.Data_ (FirstLineParser s) := by
  unfold FirstLineParser
  cases hr : ReadLine s with
  | mk b1 s1 =>
    have f1 := ReadLine_suffix s b1 s1 hr
    cases b1 with
    | false => exact ⟨f1.1, (fun h => by cases h)⟩
    | true =>
      simp only []
      cases hp : ParseFirstLine ({ s1 with
          CurrentLine_ := s1.FirstLine_, FirstLine_ := s1.CurrentLine_ } : THttpParser) with
      | error e => exact rfl
      | ok s2 =>
        simp only []
        have hd : s2.Data_ = s1.Data_ := by
          rw [ParseFirstLine_frame _ _ hp]
        refine StaysInBuffer_mono s2.Data_ _ _ (by rw [hd]; exact f1.1) ?_
        exact HeadersLoop_stays _ s2 (Nat.lt_succ_self _)

/-- Every `Parse` call on a session whose chunked state has a chunk state ends
without running out of fuel and stays inside its buffer. -/
theorem Parse_stays (s : THttpParser) (d : TString)
    (hch : s.Parser_ = .ChunkedContentParser → s.ChunkInputState_.isSome = true) :
    StaysInBuffer d (Parse s d) := by
  cases hp : s.Parser_ with
  | FirstLineParser =>
    have e : Parse s d = FirstLineParser { s with Data_ := d } := by
      unfold Parse; simp only []; rw [hp]
    rw [e]
    exact FirstLineParser_stays _
  | HeadersParser =>
    have e : Parse s d = HeadersParser { s with Data_ := d } := by
      unfold Parse; simp only []; rw [hp]
    rw [e]
    exact HeadersLoop_stays _ ({ s with Data_ := d } : THttpParser) (Nat.lt_succ_self _)
  | ContentParser =>
    have e : Parse s d = .ok (ContentParser { s with Data_ := d }) := by
      unfold Parse; simp only []; rw [hp]
    rw [e]
    cases hcp : ContentParser ({ s with Data_ := d } : THttpParser) with
    | mk b s3 => exact ContentParser_stays _ b s3 hcp
  | ChunkedContentParser =>
    have e : Parse s d = ChunkedContentParser { s with Data_ := d } := by
      unfold Parse; simp only []; rw [hp]
    rw [e]
    exact ChunkedContentLoop_stays _ ({ s with Data_ := d } : THttpParser) (hch hp)
      (Nat.lt_succ_self _)
  | OnEndParsing =>
    have e : Parse s d = .ok (OnEndParsing { s with Data_ := d }) := by
      unfold Parse; simp only []; rw [hp]
    rw [e]
    exact ⟨List.suffix_refl _, (fun _ => rfl)⟩

end THttpParser

namespace NHelpers

theorem atoiDigits_digits : ∀ (t : TString) (acc : Nat), t.all isdigit = true →
    atoiDigits t acc = t.foldl (fun acc c => acc * 10 + (c.toNat - '0'.toNat)) acc := by
  intro t
  induction t with
  | nil => intro acc _; rfl
  | cons c cs ih =>
    intro acc h
    simp only [List.all_cons, Bool.and_eq_true] at h
    unfold atoiDigits
    rw [if_pos h.1, ih _ h.2]
    rfl

theorem isdigit_not_space (c : Char) (h : isdigit c = true) : isspace c = false := by
  unfold isdigit at h
  simp only [Bool.and_eq_true, decide_eq_true_eq] at h
  have e0 : ('0' : Char).toNat = 48 := rfl
  have e9 : ('9' : Char).toNat = 57 := rfl
  rw [e0, e9] at h
  unfold isspace
  simp only [Bool.or_eq_false_iff, decide_eq_false_iff_not]
  refine ⟨⟨⟨⟨⟨?_, ?_⟩, ?_⟩, ?_⟩, ?_⟩, ?_⟩ <;> (intro hc; rw [hc] at h; revert h; decide)

theorem isdigit_ne (c x : Char) (h : isdigit c = true) (hx : isdigit x = false) : c ≠ x := by
  intro hc
  rw [hc, hx] at h
  cases h

/-- On a text of decimal digits whose value fits `int`, `atoi` gives that value. -/
theorem atoi_digits (t : TString) (hd : t.all isdigit = true)
    (hb : DecimalValue t ≤ 2147483647) : atoi t = .ok (DecimalValue t : Int) := by
  have hdrop : t.dropWhile isspace = t := by
    cases t with
    | nil => rfl
    | cons c cs =>
      simp only [List.all_cons, Bool.and_eq_true] at hd
      simp only [List.dropWhile, isdigit_not_space c hd.1]
  have e : atoiDigits t 0 = DecimalValue t := atoiDigits_digits t 0 hd
  have hin : IntMin ≤ (DecimalValue t : Int) ∧ (DecimalValue t : Int) ≤ IntMax := by
    unfold IntMin IntMax
    constructor <;> omega
  have hs : atoiSigned t = (DecimalValue t : Int) := by
    rw [← e]
    cases t with
    | nil => rfl
    | cons c cs =>
      simp only [List.all_cons, Bool.and_eq_true] at hd
      have h1 : c ≠ '-' := isdigit_ne _ _ hd.1 (by decide)
      have h2 : c ≠ '+' := isdigit_ne _ _ hd.1 (by decide)
      unfold atoiSigned
      split
      · rename_i heq
        exact absurd (List.cons.inj heq).1 h1
      · rename_i heq
        exact absurd (List.cons.inj heq).1 h2
      · rfl
  unfold atoi
  simp only [hdrop, hs]
  rw [if_pos hin]

theorem mem_Insert (x y : Nat) (data : List Nat) : x ∈ Insert y data ↔ x ∈ data ∨ x = y := by
  unfold Insert
  split_ifs with h
  · constructor
    · exact Or.inl
    · rintro (h1 | h1)
      · exact h1
      · rw [h1]; exact h
  · simp

/-- The insertion loop from `first` up to `last`, both non-negative and `last`
below the largest `int` when the loop runs at all: it ends with enough fuel and
adds exactly the numbers from `first` to `last`. -/
theorem InsertLoop_range :
    ∀ (k fuel : Nat) (first last : Int) (data : List Nat),
    0 ≤ first → (first ≤ last → last < IntMax) → (last + 1 - first).toNat ≤ k → k < fuel →
    ∃ data1, InsertLoop fuel first last data = .ok data1 ∧
      ∀ x : Nat, x ∈ data1 ↔ x ∈ data ∨ (first ≤ (x : Int) ∧ (x : Int) ≤ last) := by
  intro k
  induction k with
  | zero =>
    intro fuel first last data h0 hmax hk hfuel
    obtain ⟨f, rfl⟩ : ∃ f, fuel = f + 1 := ⟨fuel - 1, by omega⟩
    have hlt : ¬ first ≤ last := by omega
    unfold InsertLoop
    rw [if_neg hlt]
    refine ⟨data, rfl, fun x => ⟨Or.inl, ?_⟩⟩
    rintro (h | ⟨h1, h2⟩)
    · exact h
    · omega
  | succ k ih =>
    intro fuel first last data h0 hmax hk hfuel
    obtain ⟨f, rfl⟩ : ∃ f, fuel = f + 1 := ⟨fuel - 1, by omega⟩
    unfold InsertLoop
    by_cases hle : first ≤ last
    · have hl := hmax hle
      have hne : first ≠ IntMax := by omega
      rw [if_pos hle, if_neg hne]
      obtain ⟨data1, h1, h2⟩ := ih f (first + 1) last (Insert (ToUi32 first) data)
        (by omega) (fun _ => hl) (by omega) (by omega)
      refine ⟨data1, h1, fun x => ?_⟩
      rw [h2, mem_Insert]
      have hu : ToUi32 first = first.toNat := by
        unfold ToUi32
        unfold IntMax at hl
        rw [Int.emod_eq_of_lt h0 (by omega)]
      rw [hu]
      constructor
      · rintro ((h | h) | ⟨h3, h4⟩)
        · exact Or.inl h
        · exact Or.inr ⟨by omega, by omega⟩
        · exact Or.inr ⟨by omega, h4⟩
      · rintro (h | ⟨h3, h4⟩)
        · exact Or.inl (Or.inl h)
        · by_cases hx : (x : Int) = first
          · exact Or.inl (Or.inr (by omega))
          · exact Or.inr ⟨by omega, h4⟩
    · rw [if_neg hle]
      refine ⟨data, rfl, fun x => ⟨Or.inl, ?_⟩⟩
      rintro (h | ⟨h1, h2⟩)
      · exact h
      · omega

end NHelpers

namespace NHelpers

theorem digits_not_mem (t : TString) (x : Char) (hx : isdigit x = false)
    (h : t.all isdigit = true) : x ∉ t := by
  intro hm
  rw [List.all_eq_true] at h
  have := h x hm
  rw [hx] at this
  cases this

theorem ToUi32_natCast (v : Nat) (h : v ≤ 2147483647) : ToUi32 (v : Int) = v := by
  unfold ToUi32
  rw [Int.emod_eq_of_lt (by omega) (by omega)]
  rfl

theorem ParseItem_single (n : TString) (data : List Nat) (hne : n ≠ [])
    (hd : n.all isdigit = true) (hb : DecimalValue n ≤ 2147483647) :
    ParseItem n data = .ok (Insert (DecimalValue n) data) := by
  have hlen : n.length ≠ 0 := fun h => hne (List.length_eq_zero.mp h)
  unfold ParseItem
  simp only [find_eq_none '-' n (digits_not_mem n '-' (by decide) hd), if_pos hlen,
    atoi_digits n hd hb, ToUi32_natCast _ hb]

theorem ParseItem_range (a b : TString) (data : List Nat) (ha : a ≠ []) (hb : b ≠ [])
    (hda : a.all isdigit = true) (hdb : b.all isdigit = true)
    (hva : DecimalValue a ≤ 2147483647) (hvb : DecimalValue b ≤ 2147483647) :
    ParseItem (a ++ '-' :: b) data
      = InsertLoop (((DecimalValue b : Int) + 1 - (DecimalValue a : Int)).toNat + 1)
          (DecimalValue a) (DecimalValue b) data := by
  have hla : 0 < a.length := List.length_pos.mpr ha
  have hlb : 0 < b.length := List.length_pos.mpr hb
  have hlen : (a ++ '-' :: b).length ≠ 0 := by simp
  have hcond : a.length > 0 ∧ a.length < (a ++ '-' :: b).length - 1 := by
    simp only [List.length_append, List.length_cons]
    omega
  unfold ParseItem
  simp only [find_append_cons '-' a b (digits_not_mem a '-' (by decide) hda), if_pos hlen,
    if_pos hcond, substr, List.drop_zero, take_append_cons, drop_append_cons,
    atoi_digits a hda hva, atoi_digits b hdb hvb]

theorem ParseItem_invalid (a b : TString) (data : List Nat) (hda : a.all isdigit = true)
    (h : a = [] ∨ b = []) :
    ParseItem (a ++ '-' :: b) data = .error (.InvalidRange (a ++ '-' :: b)) := by
  have hlen : (a ++ '-' :: b).length ≠ 0 := by simp
  have hcond : ¬ (a.length > 0 ∧ a.length < (a ++ '-' :: b).length - 1) := by
    simp only [List.length_append, List.length_cons]
    rcases h with h | h
    · rw [h]; simp
    · rw [h]; simp
  unfold ParseItem
  simp only [find_append_cons '-' a b (digits_not_mem a '-' (by decide) hda), if_pos hlen,
    if_neg hcond]

/-- What the loop body does with one item of the grammar whose numbers are in
bounds. -/
theorem ParseItem_item (it : TRangeItem) (data : List Nat) (hb : it.InBounds = true) :
    (it.Invalid = true → ParseItem it.Text data = .error (.InvalidRange it.Text)) ∧
    (it.Invalid = false → ∃ data1, ParseItem it.Text data = .ok data1 ∧
      ∀ x : Nat, x ∈ data1 ↔ x ∈ data ∨ it.Holds x) := by
  cases it with
  | empty =>
    refine ⟨(fun h => by cases h), fun _ => ⟨data, rfl, fun x => ?_⟩⟩
    simp [TRangeItem.Holds]
  | single n =>
    simp only [TRangeItem.InBounds, Bool.and_eq_true, decide_eq_true_eq, bne_iff_ne, ne_eq,
      Bool.not_eq_true', decide_eq_false_iff_not] at hb
    obtain ⟨⟨hne, hd⟩, hv⟩ := hb
    refine ⟨(fun h => by cases h), fun _ => ⟨_, ParseItem_single n data hne hd hv, fun x => ?_⟩⟩
    rw [mem_Insert]
    rfl
  | range a b =>
    simp only [TRangeItem.InBounds, Bool.and_eq_true, Bool.or_eq_true, decide_eq_true_eq] at hb
    obtain ⟨⟨⟨⟨hda, hdb⟩, hva⟩, hvb⟩, hlast⟩ := hb
    constructor
    · intro h
      simp only [TRangeItem.Invalid, Bool.or_eq_true, decide_eq_true_eq] at h
      exact ParseItem_invalid a b data hda h
    · intro h
      simp only [TRangeItem.Invalid, Bool.or_eq_false_iff, decide_eq_false_iff_not] at h
      show ∃ data1, ParseItem (a ++ '-' :: b) data = .ok data1 ∧ _
      rw [ParseItem_range a b data h.1 h.2 hda hdb hva hvb]
      obtain ⟨data1, h1, h2⟩ := InsertLoop_range
        ((DecimalValue b : Int) + 1 - (DecimalValue a : Int)).toNat _
        (DecimalValue a : Int) (DecimalValue b : Int) data (by omega)
        (fun hle => by unfold IntMax; omega) (Nat.le_refl _) (Nat.lt_succ_self _)
      refine ⟨data1, h1, fun x => ?_⟩
      rw [h2]
      simp only [TRangeItem.Holds, Nat.cast_le]

end NHelpers

namespace NHelpers

theorem RangeString_cons_cons (t u : TString) (ts : List TString) :
    RangeString (t :: u :: ts) = t ++ ':' :: RangeString (u :: ts) := rfl

theorem RangeString_length (t : TString) (ts : List TString) :
    ts.length ≤ (RangeString (t :: ts)).length := by
  induction ts generalizing t with
  | nil => exact Nat.zero_le _
  | cons u us ih =>
    rw [RangeString_cons_cons]
    have := ih u
    simp only [List.length_append, List.length_cons] at this ⊢
    omega

/-- The loop of `ParseRangeString`, started at the position where the colon-joined
items `t :: ts` begin, handles these items one after the other. -/
theorem RangeLoop_items :
    ∀ (ts : List TString) (t : TString) (fuel : Nat) (str : TString) (prev : Nat)
      (data : List Nat),
    (∀ u ∈ t :: ts, ':' ∉ u) → str.drop prev = RangeString (t :: ts) → ts.length < fuel →
    RangeLoop fuel str prev data = ParseItems (t :: ts) data := by
  intro ts
  induction ts with
  | nil =>
    intro t fuel str prev data hno hdrop hfuel
    obtain ⟨f, rfl⟩ : ∃ f, fuel = f + 1 := ⟨fuel - 1, by omega⟩
    have ht : ':' ∉ t := hno t (List.mem_cons_self _ _)
    have hd : str.drop prev = t := hdrop
    unfold RangeLoop
    simp only [findFrom, hd, find_eq_none ':' t ht, Option.map_none', substr, ParseItems]
  | cons u us ih =>
    intro t fuel str prev data hno hdrop hfuel
    obtain ⟨f, rfl⟩ : ∃ f, fuel = f + 1 := ⟨fuel - 1, by omega⟩
    have ht : ':' ∉ t := hno t (List.mem_cons_self _ _)
    rw [RangeString_cons_cons] at hdrop
    have hnext : str.drop (t.length + prev + 1) = RangeString (u :: us) := by
      have e : t.length + prev + 1 = prev + (t.length + 1) := by omega
      rw [e, ← List.drop_drop, hdrop, drop_append_cons]
    unfold RangeLoop
    simp only [findFrom, hdrop, find_append_cons ':' t _ ht, Option.map_some', substr,
      Nat.add_sub_cancel, take_append_cons]
    conv => rhs; unfold ParseItems
    cases ParseItem t data with
    | error e => rfl
    | ok d1 =>
      simp only []
      exact ih u f str _ d1 (fun x hx => hno x (List.mem_cons_of_mem _ hx)) hnext
        (by simp only [List.length_cons] at hfuel; omega)

theorem Text_no_colon (it : TRangeItem) (hb : it.InBounds = true) : ':' ∉ it.Text := by
  cases it with
  | empty => simp [TRangeItem.Text]
  | single n =>
    simp only [TRangeItem.InBounds, Bool.and_eq_true] at hb
    exact digits_not_mem n ':' (by decide) hb.1.2
  | range a b =>
    simp only [TRangeItem.InBounds, Bool.and_eq_true] at hb
    obtain ⟨⟨⟨⟨hda, hdb⟩, -⟩, -⟩, -⟩ := hb
    simp only [TRangeItem.Text, List.mem_append, List.mem_cons, not_or]
    exact ⟨digits_not_mem a ':' (by decide) hda, by decide,
      digits_not_mem b ':' (by decide) hdb⟩

/-- The items of the grammar handled in order: without an invalid item the set
gains exactly the numbers the items stand for; with one, the run ends with the
exception that names an invalid item. -/
theorem ParseItems_items :
    ∀ (items : List TRangeItem) (data : List Nat), (∀ it ∈ items, it.InBounds = true) →
    ((∀ it ∈ items, it.Invalid = false) →
      ∃ data1, ParseItems (items.map TRangeItem.Text) data = .ok data1 ∧
        ∀ x : Nat, x ∈ data1 ↔ x ∈ data ∨ ∃ it ∈ items, it.Holds x) ∧
    ((∃ it ∈ items, it.Invalid = true) →
      ∃ it ∈ items, it.Invalid = true ∧
        ParseItems (items.map TRangeItem.Text) data = .error (.InvalidRange it.Text)) := by
  intro items
  induction items with
  | nil =>
    intro data _
    refine ⟨fun _ => ⟨data, rfl, fun x => ?_⟩, ?_⟩
    · simp
    · rintro ⟨it, hm, -⟩
      cases hm
  | cons i is ih =>
    intro data hb
    have hbi := hb i (List.mem_cons_self _ _)
    have hbs : ∀ it ∈ is, it.InBounds = true := fun it h => hb it (List.mem_cons_of_mem _ h)
    have hi := ParseItem_item i data hbi
    simp only [List.map_cons]
    cases hinv : i.Invalid with
    | true =>
      have he := hi.1 hinv
      refine ⟨fun h => ?_, fun _ => ⟨i, List.mem_cons_self _ _, hinv, ?_⟩⟩
      · have := h i (List.mem_cons_self _ _)
        rw [hinv] at this
        cases this
      · unfold ParseItems
        rw [he]
    | false =>
      obtain ⟨d1, h1, h2⟩ := hi.2 hinv
      have hrec := ih d1 hbs
      have e : ParseItems (i.Text :: is.map TRangeItem.Text) data
          = ParseItems (is.map TRangeItem.Text) d1 := by
        conv => lhs; unfold ParseItems
        rw [h1]
      rw [e]
      constructor
      · intro h
        obtain ⟨d2, h3, h4⟩ := hrec.1 (fun it hm => h it (List.mem_cons_of_mem _ hm))
        refine ⟨d2, h3, fun x => ?_⟩
        rw [h4, h2]
        simp only [List.mem_cons, exists_eq_or_imp, or_assoc]
      · rintro ⟨it, hm, hbad⟩
        have hm2 : it ∈ is := by
          rcases List.mem_cons.mp hm with h | h
          · rw [h, hinv] at hbad
            cases hbad
          · exact h
        obtain ⟨it2, hm3, hbad2, h5⟩ := hrec.2 ⟨it, hm2, hbad⟩
        exact ⟨it2, List.mem_cons_of_mem _ hm3, hbad2, h5⟩

/-- `ParseRangeString` on colon-joined item texts is the run over the items. -/
theorem ParseRangeString_items (t : TString) (ts : List TString)
    (hno : ∀ u ∈ t :: ts, ':' ∉ u) :
    ParseRangeString (RangeString (t :: ts)) = ParseItems (t :: ts) [] := by
  unfold ParseRangeString
  exact RangeLoop_items ts t _ _ 0 [] hno rfl
    (Nat.lt_succ_of_le (RangeString_length t ts))

/-- An item of the grammar lacks a number exactly when its text is not empty and
its first dash is its first or its last character. -/
theorem Invalid_iff (it : TRangeItem) (hb : it.InBounds = true) :
    it.Invalid = true ↔
      it.Text ≠ [] ∧ (find '-' it.Text = some 0 ∨ find '-' it.Text = some (it.Text.length - 1)) := by
  cases it with
  | empty => simp [TRangeItem.Invalid, TRangeItem.Text]
  | single n =>
    simp only [TRangeItem.InBounds, Bool.and_eq_true] at hb
    have := find_eq_none '-' n (digits_not_mem n '-' (by decide) hb.1.2)
    simp [TRangeItem.Invalid, TRangeItem.Text, this]
  | range a b =>
    simp only [TRangeItem.InBounds, Bool.and_eq_true] at hb
    obtain ⟨⟨⟨⟨hda, -⟩, -⟩, -⟩, -⟩ := hb
    have hf := find_append_cons '-' a b (digits_not_mem a '-' (by decide) hda)
    simp only [TRangeItem.Invalid, TRangeItem.Text, hf, Bool.or_eq_true, decide_eq_true_eq,
      Option.some.injEq, List.length_append, List.length_cons, ne_eq, List.append_eq_nil,
      and_false, not_false_eq_true, true_and, reduceCtorEq]
    constructor
    · rintro (h | h)
      · exact Or.inl (by rw [h]; rfl)
      · exact Or.inr (by rw [h]; simp)
    · rintro (h | h)
      · exact Or.inl (List.length_eq_zero.mp h)
      · exact Or.inr (List.length_eq_zero.mp (by omega))

end NHelpers

namespace NHelpers

theorem ToUi32_lt (v : Int) : ToUi32 v < 4294967296 := by
  unfold ToUi32
  have h1 := Int.emod_lt_of_pos v (show (0 : Int) < 4294967296 by decide)
  have h2 := Int.emod_nonneg v (show (4294967296 : Int) ≠ 0 by decide)
  omega

theorem Insert_ui32 (x : Nat) (data : List Nat) (hx : x < 4294967296)
    (h : ∀ y ∈ data, y < 4294967296) : ∀ y ∈ Insert x data, y < 4294967296 := by
  intro y hy
  rcases (mem_Insert y x data).mp hy with h1 | h1
  · exact h y h1
  · rw [h1]; exact hx

theorem InsertLoop_ui32 :
    ∀ (fuel : Nat) (first last : Int) (data d1 : List Nat),
    (∀ y ∈ data, y < 4294967296) → InsertLoop fuel first last data = .ok d1 →
    ∀ y ∈ d1, y < 4294967296 := by
  intro fuel
  induction fuel with
  | zero => intro first last data d1 _ h; cases h
  | succ f ih =>
    intro first last data d1 hd h
    unfold InsertLoop at h
    split_ifs at h
    · exact ih _ _ _ d1 (Insert_ui32 _ _ (ToUi32_lt first) hd) h
    · cases h
      exact hd

theorem ParseItem_ui32 (range : TString) (data d1 : List Nat)
    (hd : ∀ y ∈ data, y < 4294967296) (h : ParseItem range data = .ok d1) :
    ∀ y ∈ d1, y < 4294967296 := by
  unfold ParseItem at h
  simp only [] at h
  split_ifs at h with hlen
  · split at h
    · split at h
      · cases h
      · cases h
        exact Insert_ui32 _ _ (ToUi32_lt _) hd
    · split_ifs at h
      split at h
      · cases h
      · split at h
        · cases h
        · exact InsertLoop_ui32 _ _ _ data d1 hd h
  · cases h
    exact hd

theorem RangeLoop_ui32 :
    ∀ (fuel : Nat) (str : TString) (prev : Nat) (data d1 : List Nat),
    (∀ y ∈ data, y < 4294967296) → RangeLoop fuel str prev data = .ok d1 →
    ∀ y ∈ d1, y < 4294967296 := by
  intro fuel
  induction fuel with
  | zero => intro str prev data d1 _ h; cases h
  | succ f ih =>
    intro str prev data d1 hd h
    unfold RangeLoop at h
    simp only [] at h
    split at h
    · cases h
    · rename_i d2 hp
      have h2 := ParseItem_ui32 _ data d2 hd hp
      split at h
      · cases h
        exact h2
      · exact ih _ _ _ d1 h2 h

/-- The returned set is a `TSet<ui32>`: whatever the string, every member is below
2^32. -/
theorem ParseRangeString_ui32 (str : TString) (data : List Nat)
    (h : ParseRangeString str = .ok data) : ∀ y ∈ data, y < 4294967296 :=
  RangeLoop_ui32 _ str 0 [] data (fun _ hy => by cases hy) h

end NHelpers

namespace THttpParser

/-- The line after the zero-size chunk line is read and not examined: in a chunked
message fed as one slice, `Parse` reports completion once that line has its line
feed, for every text of the line, and counts the bytes after it as trailing;
while the line feed is missing it waits in the chunked state with the last-chunk
flag set. -/
theorem Parse_line_after_last_chunk (mt : TMessageType) (collect : Bool) (fl : TString)
    (lines : List TString) (cs : List TChunk) (line rest : TString)
    (hfl : '\n' ∉ fl) (hok : FirstLineOk mt fl = true)
    (hall : ∀ l ∈ lines, PlainHeader l ∨ l = ChunkedLine) (hte : ChunkedLine ∈ lines)
    (hcs : ∀ c ∈ cs, c.WellFormed) (hline : '\n' ∉ line) :
    (∃ s, Parse (Init mt collect)
          (fl ++ Crlf ++ HeaderBlock lines ++ Crlf ++
            (ChunkedData cs ++ ("0\r\n".toList ++ (line ++ '\n' :: rest))))
          = .ok (true, s) ∧
      s.Parser_ = .OnEndParsing ∧ s.Content_ = ChunkPayload cs ∧
      s.ExtraDataSize_ = rest.length) ∧
    (∃ s, Parse (Init mt collect)
          (fl ++ Crlf ++ HeaderBlock lines ++ Crlf ++ (ChunkedData cs ++ ("0\r\n".toList ++ line)))
          = .ok (false, s) ∧
      s.Parser_ = .ChunkedContentParser ∧ s.ChunkInputState_ = some ⟨0, true⟩ ∧
      s.Content_ = ChunkPayload cs) := by
  constructor
  · obtain ⟨sF, hp, hd, hch, hbody, hcur, -⟩ := Parse_chunked_head mt collect fl lines
      (ChunkedData cs ++ ("0\r\n".toList ++ (line ++ '\n' :: rest))) hfl hok hall hte
    obtain ⟨pre2, hp2, -, -, hloop⟩ := ChunkedContentLoop_chunks
      ("0\r\n".toList ++ (line ++ '\n' :: rest)) cs sF
      ((ChunkedData cs ++ ("0\r\n".toList ++ (line ++ '\n' :: rest))).length + 1) [] hcs hch hcur
      (Or.inl rfl) (by simp [hd])
      (by have := ChunkedData_length cs; simp only [List.length_append]; omega)
    obtain ⟨f, hf⟩ : ∃ f, (ChunkedData cs ++ ("0\r\n".toList ++ (line ++ '\n' :: rest))).length
        + 1 - cs.length = f + 1 := by
      refine ⟨(ChunkedData cs ++ ("0\r\n".toList ++ (line ++ '\n' :: rest))).length - cs.length, ?_⟩
      have := ChunkedData_length cs
      simp only [List.length_append]
      omega
    rw [hp, hloop, hf]
    rw [ChunkedContentLoop_zero_line _ f pre2 line rest rfl hp2 rfl hline rfl]
    exact ⟨_, rfl, rfl, by simp [hbody], rfl⟩
  · obtain ⟨sF, hp, hd, hch, hbody, hcur, -⟩ := Parse_chunked_head mt collect fl lines
      (ChunkedData cs ++ ("0\r\n".toList ++ line)) hfl hok hall hte
    obtain ⟨pre2, hp2, -, -, hloop⟩ := ChunkedContentLoop_chunks
      ("0\r\n".toList ++ line) cs sF
      ((ChunkedData cs ++ ("0\r\n".toList ++ line)).length + 1) [] hcs hch hcur
      (Or.inl rfl) (by simp [hd])
      (by have := ChunkedData_length cs; simp only [List.length_append]; omega)
    obtain ⟨f, hf⟩ : ∃ f, (ChunkedData cs ++ ("0\r\n".toList ++ line)).length
        + 1 - cs.length = f + 1 := by
      refine ⟨(ChunkedData cs ++ ("0\r\n".toList ++ line)).length - cs.length, ?_⟩
      have := ChunkedData_length cs
      simp only [List.length_append]
      omega
    rw [hp, hloop, hf]
    rw [ChunkedContentLoop_zero_wait _ f pre2 line rfl hp2 rfl hline rfl]
    exact ⟨_, rfl, rfl, rfl, by simp [hbody]⟩

/-- The resume of the chunked state with the last-chunk flag set: the first line of
the next slice is read and not examined, and `Parse` reports completion. -/
theorem Parse_resume_after_last_chunk (s : THttpParser) (line rest : TString)
    (hp : s.Parser_ = .ChunkedContentParser) (hci : s.ChunkInputState_ = some ⟨0, true⟩)
    (hline : '\n' ∉ line) :
    ∃ s1, Parse s (line ++ '\n' :: rest) = .ok (true, s1) ∧ s1.Parser_ = .OnEndParsing ∧
      s1.CurrentLine_ = StripCR (s.CurrentLine_ ++ line) ∧ s1.Content_ = s.Content_ ∧
      s1.ExtraDataSize_ = rest.length := by
  have e : Parse s (line ++ '\n' :: rest)
      = ChunkedContentParser { s with Data_ := line ++ '\n' :: rest } := by
    unfold Parse; simp only []; rw [hp]
  have hr := ReadLine_line
    ({ s with
        Data_ := line ++ '\n' :: rest } : THttpParser) line rest hline rfl
  have hs : ChunkedSizeLine
      ({ s with
          Data_ := line ++ '\n' :: rest } : THttpParser) ⟨0, true⟩
      = .ok (.inl (OnEndParsing { s with
          CurrentLine_ := StripCR (s.CurrentLine_ ++ line), Data_ := rest })) := by
    unfold ChunkedSizeLine
    simp only [if_true, hr]
  rw [e]
  unfold ChunkedContentParser ChunkedContentLoop
  simp only [hci] at hs ⊢
  rw [hs]
  exact ⟨_, rfl, rfl, rfl, rfl, rfl⟩

end THttpParser
namespace THttpParser

/-! ## The claims -/

/-- C1: incremental feeding is not transparent on the code. The response below,
whose chunked body starts with two empty lines, raises an exception when it is
fed in one slice, while the same bytes cut after the first of the two empty
lines are parsed to completion with body `hello`. -/
theorem C1_slicing_changes_outcome :
    "HTTP/1.1 200 OK\r\nTransfer-Encoding: chunked\r\n\r\n\r\n".toList
        ++ "\r\n5\r\nhello\r\n0\r\n\r\n".toList
      = "HTTP/1.1 200 OK\r\nTransfer-Encoding: chunked\r\n\r\n\r\n\r\n5\r\nhello\r\n0\r\n\r\n".toList ∧
    Feed (Init .Response true)
        ["HTTP/1.1 200 OK\r\nTransfer-Encoding: chunked\r\n\r\n\r\n\r\n5\r\nhello\r\n0\r\n\r\n".toList]
      = .error .yexception ∧
    (Feed (Init .Response true)
        ["HTTP/1.1 200 OK\r\nTransfer-Encoding: chunked\r\n\r\n\r\n".toList,
         "\r\n5\r\nhello\r\n0\r\n\r\n".toList]).toOption.map
        (fun r => (r.1, r.2.Content_, r.2.RetCode_, r.2.KeepAlive_))
      = some (true, "hello".toList, 200, true) := by
  refine ⟨by decide, rfl, by decide⟩

/-- C2: a response fed in one slice that consists of the status line with version
`major.minor` and code `code`, a header block whose only framing header is
`Content-Length: n` (any number of headers that do not affect framing may
surround it), the empty line, `n` body bytes `b` and further bytes `extra` is
parsed to completion with that status code and version, body exactly `b`, and
`extra.length` trailing bytes. -/
theorem C2_content_length_response (collect : Bool) (major minor code n : Nat)
    (reason : TString) (lines : List TString) (b extra : TString)
    (hM : major ≤ MaxUi32) (hm : minor ≤ MaxUi32) (hc : code ≤ MaxUi32) (hn : n ≤ MaxUi64)
    (hr : '\n' ∉ reason)
    (hall : ∀ l ∈ lines, PlainHeader l ∨ l = ContentLengthLine n)
    (hcl : ContentLengthLine n ∈ lines) (hb : b.length = n) :
    ∃ s, Parse (Init .Response collect)
          (StatusLine major minor code reason ++ Crlf ++ HeaderBlock lines ++ Crlf ++ b ++ extra)
          = .ok (true, s) ∧
      s.Parser_ = .OnEndParsing ∧ s.RetCode_ = code ∧ s.HttpVersion_ = ⟨major, minor⟩ ∧
      s.Content_ = b ∧ s.ExtraDataSize_ = extra.length := by
  have hall2 : ∀ l ∈ lines, AllowedHeader (some n) false l := by
    intro l hl
    rcases hall l hl with h | h
    · exact Or.inl h
    · exact Or.inr (Or.inl ⟨n, rfl, hn, h⟩)
  obtain ⟨ka, hpf⟩ := ParseFirstLine_StatusLine
    ({ Init TMessageType.Response collect with
        FirstLine_ := StatusLine major minor code reason,
        Data_ := HeaderBlock lines ++ Crlf ++ (b ++ extra) } : THttpParser)
    major minor code reason rfl rfl hM hm hc
  obtain ⟨sF, hd, -, hres⟩ := Parse_message .Response collect
    (StatusLine major minor code reason) lines (b ++ extra) (some n) false
    (StatusLine_no_newline _ _ _ _ hr) hall2 _ hpf
  have e : StatusLine major minor code reason ++ Crlf ++ HeaderBlock lines ++ Crlf ++ b ++ extra
      = StatusLine major minor code reason ++ Crlf ++ HeaderBlock lines ++ Crlf ++ (b ++ extra) := by
    simp only [List.append_assoc]
  rw [e]
  rcases hres with ⟨hinv, h1, h0, hp⟩ | ⟨hinv, -, hp⟩
  · have hn0 : n = 0 := by
      have := hinv.cl h1
      rw [h0] at this
      exact Option.some.inj this
    have hb0 : b = [] := List.length_eq_zero.mp (hb.trans hn0)
    refine ⟨_, hp, rfl, hinv.code, hinv.ver, ?_, ?_⟩
    · show sF.Content_ = b
      rw [hinv.body, hb0]
      rfl
    · show sF.Data_.length = extra.length
      rw [hd, hb0]
      rfl
  · have h1 : sF.HasContentLength_ = true :=
      hinv.clDone n rfl (List.mem_cons_of_mem _ hcl)
    have h2 : sF.ContentLength_ = n := (Option.some.inj (hinv.cl h1)).symm
    have h3 : sF.ChunkInputState_ = none := by
      rcases hinv.ch with h | h
      · exact h
      · exact absurd h.1 (by decide)
    rw [h3] at hp
    rw [hp]
    have hcp := ContentParser_exact sF n b extra h1 h2 hn hinv.body hd hb
    refine ⟨{ sF with Content_ := b, Data_ := extra, Parser_ := .OnEndParsing,
                      ExtraDataSize_ := extra.length }, ?_, rfl, hinv.code, hinv.ver, rfl, rfl⟩
    simp only [Option.isSome_none, Bool.false_eq_true, if_false]
    rw [hcp]

/-- C2, witness: the response of the claim, status 200, version 1.1, body `hello`
and no trailing byte. -/
theorem C2_content_length_response_witness :
    StatusLine 1 1 200 "OK".toList ++ Crlf ++ HeaderBlock [ContentLengthLine 5] ++ Crlf
        ++ "hello".toList ++ []
      = "HTTP/1.1 200 OK\r\nContent-Length: 5\r\n\r\nhello".toList ∧
    (∃ s, Parse (Init .Response true)
          (StatusLine 1 1 200 "OK".toList ++ Crlf ++ HeaderBlock [ContentLengthLine 5] ++ Crlf
            ++ "hello".toList ++ [])
          = .ok (true, s) ∧
      s.Parser_ = .OnEndParsing ∧ s.RetCode_ = 200 ∧ s.HttpVersion_ = ⟨1, 1⟩ ∧
      s.Content_ = "hello".toList ∧ s.ExtraDataSize_ = ([] : TString).length) ∧
    (Parse (Init .Response true)
        "HTTP/1.1 200 OK\r\nContent-Length: 5\r\n\r\nhello".toList).toOption.map
        (fun r => (r.1, r.2.KeepAlive_, r.2.Parser_)) = some (true, true, .OnEndParsing) :=
  ⟨by decide,
   C2_content_length_response true 1 1 200 5 "OK".toList [ContentLengthLine 5] "hello".toList []
    (by decide) (by decide) (by decide) (by decide) (by decide)
    (fun l hl => Or.inr (List.mem_singleton.mp hl)) (List.mem_singleton.mpr rfl) rfl, rfl⟩

/-- C3, counterexample: with `Content-Length: 3` and `Transfer-Encoding: chunked`
the content length is known, yet the accumulated body is the five bytes of the
chunk, and completion is reported with a body size different from the content
length. -/
theorem C3_chunked_body_exceeds_content_length :
    (Feed (Init .Response true)
        ["HTTP/1.1 200 OK\r\nContent-Length: 3\r\nTransfer-Encoding: chunked\r\n\r\n5\r\nhello\r\n0\r\n\r\n".toList]).toOption.map
        (fun r => (r.1, r.2.HasContentLength_, r.2.ContentLength_, r.2.Content_.length))
      = some (true, true, 3, 5) := by
  rfl

/-- C3, amended: in every session state reachable by feeding slices to a fresh
session, when the content length is known and no chunk state exists, the
accumulated body is at most the content length; and once the header block has been
read (the state is neither FirstLine nor Headers), the last `Parse` call reported
completion exactly when the body size equals the content length. -/
theorem C3_body_within_content_length (mt : TMessageType) (collect : Bool)
    (feeds : List TString) (b : Bool) (s : THttpParser)
    (h : Feed (Init mt collect) feeds = .ok (b, s))
    (hcl : s.HasContentLength_ = true) (hch : s.ChunkInputState_ = none) :
    s.Content_.length ≤ s.ContentLength_ ∧
    (s.Parser_ ≠ .FirstLineParser → s.Parser_ ≠ .HeadersParser →
      (b = true ↔ s.Content_.length = s.ContentLength_)) := by
  have hinit : BodyInv (Init mt collect) :=
    ⟨(fun _ hc => by cases hc), (fun _ => rfl), (fun hq => by cases hq),
     (fun hq => by cases hq), (fun hq => by cases hq)⟩
  obtain ⟨hb, hinv⟩ := Feed_inv feeds (Init mt collect) b s hinit (fun hq => by cases hq) h
  cases hp : s.Parser_ with
  | FirstLineParser =>
    refine ⟨?_, fun hq => absurd rfl hq⟩
    rw [hinv.empty (Or.inl hp)]
    exact Nat.zero_le _
  | HeadersParser =>
    refine ⟨?_, fun _ hq => absurd rfl hq⟩
    rw [hinv.empty (Or.inr hp)]
    exact Nat.zero_le _
  | ContentParser =>
    have hlt := hinv.unfinished hp hcl
    refine ⟨Nat.le_of_lt hlt, fun _ _ => ⟨fun hbt => ?_, fun he => ?_⟩⟩
    · have := hb.1 hbt
      rw [hp] at this
      cases this
    · omega
  | ChunkedContentParser =>
    have := hinv.chunked hp
    rw [hch] at this
    cases this
  | OnEndParsing =>
    have he := hinv.complete hp hch hcl
    exact ⟨Nat.le_of_eq he, fun _ _ => ⟨fun _ => he, fun _ => hb.2 hp⟩⟩

/-- C3, witness: a response with `Content-Length: 5` fed in two slices. -/
theorem C3_body_within_content_length_witness :
    (Feed (Init .Response true)
        ["HTTP/1.1 200 OK\r\nContent-Length: 5\r\n\r\nhe".toList, "llo".toList]).toOption.map
        (fun r => (r.1, r.2.Parser_, r.2.HasContentLength_, r.2.ContentLength_,
          r.2.ChunkInputState_, r.2.Content_))
      = some (true, .OnEndParsing, true, 5, none, "hello".toList) ∧
    ("hello".toList.length ≤ 5 ∧
      (TParserFn.OnEndParsing ≠ .FirstLineParser → TParserFn.OnEndParsing ≠ .HeadersParser →
        (true = true ↔ "hello".toList.length = 5))) :=
  ⟨rfl, C3_body_within_content_length .Response true
    ["HTTP/1.1 200 OK\r\nContent-Length: 5\r\n\r\nhe".toList, "llo".toList] true
    { Parser_ := .OnEndParsing, MessageType_ := .Response, CollectHeaders_ := true,
      Data_ := [], CurrentLine_ := [], HeaderLine_ := [], FirstLine_ := "HTTP/1.1 200 OK".toList,
      HttpVersion_ := ⟨1, 1⟩, RetCode_ := 200, KeepAlive_ := true,
      Headers_ := [("Content-Length".toList, "5".toList)], HasContentLength_ := true,
      ContentLength_ := 5, ChunkInputState_ := none, AcceptEncodings_ := [],
      ContentEncoding_ := [], Content_ := "hello".toList, DecodedContent_ := [],
      ExtraDataSize_ := 0 }
    rfl rfl rfl⟩

/-- C5: the header line that follows `Content-Length: 0` is not applied. The
response `Content-Length: 0` then `Connection: close` completes with `keepAlive`
still true and with the `Connection` header missing from the collected headers,
while the same two lines in the other order complete with `keepAlive` false. -/
theorem C5_last_header_skipped_after_zero_length :
    (Parse (Init .Response true)
        "HTTP/1.1 200 OK\r\nContent-Length: 0\r\nConnection: close\r\n\r\n".toList).toOption.map
        (fun r => (r.1, r.2.KeepAlive_, r.2.Headers_))
      = some (true, true, [("Content-Length".toList, "0".toList)]) ∧
    (Parse (Init .Response true)
        "HTTP/1.1 200 OK\r\nConnection: close\r\nContent-Length: 0\r\n\r\n".toList).toOption.map
        (fun r => (r.1, r.2.KeepAlive_, r.2.Headers_))
      = some (true, false, [("Connection".toList, "close".toList),
                            ("Content-Length".toList, "0".toList)]) := by
  refine ⟨by decide, by decide⟩

/-- C6, counterexample: with `Content-Length: 0` applied before the end of the
header block, a message that also declares `Transfer-Encoding: chunked` is
reported complete at the empty line; no chunk is read, the body stays empty and
the whole chunked body is left as trailing bytes. -/
theorem C6_zero_length_ends_chunked_message :
    (Parse (Init .Response true)
        ("HTTP/1.1 200 OK\r\nContent-Length: 0\r\nTransfer-Encoding: chunked\r\nX: y\r\n\r\n".toList
          ++ "5\r\nhello\r\n0\r\n\r\n".toList)).toOption.map
        (fun r => (r.1, r.2.Content_, r.2.ExtraDataSize_, r.2.ChunkInputState_,
          r.2.HasContentLength_, r.2.ContentLength_))
      = some (true, [], 15, some ⟨0, false⟩, true, 0) := by
  rfl

/-- C6, amended: when the header block holds both `Transfer-Encoding: chunked` and
`Content-Length: n` with `n` not zero, in either order and next to any number of
headers that do not affect framing, the parser enters the chunked-content state at
the end of the headers (the content length stays recorded); every later report of
completion, whatever bytes are fed, comes with the last-chunk flag set, that is
after a zero-size chunk line; and a well-formed chunked body is decoded to the end
whatever `n` is. -/
theorem C6_chunked_governs_nonzero_length (mt : TMessageType) (collect : Bool)
    (fl : TString) (lines : List TString) (n : Nat)
    (hfl : '\n' ∉ fl) (hok : FirstLineOk mt fl = true) (hn0 : n ≠ 0) (hn : n ≤ MaxUi64)
    (hall : ∀ l ∈ lines, PlainHeader l ∨ l = ContentLengthLine n ∨ l = ChunkedLine)
    (hcl : ContentLengthLine n ∈ lines) (hte : ChunkedLine ∈ lines) :
    (∀ rest, ∃ sF,
      Parse (Init mt collect) (fl ++ Crlf ++ HeaderBlock lines ++ Crlf ++ rest)
        = ChunkedContentParser sF ∧
      sF.Data_ = rest ∧ sF.ChunkInputState_ = some ⟨0, false⟩ ∧ sF.Content_ = [] ∧
      sF.HasContentLength_ = true ∧ sF.ContentLength_ = n) ∧
    (∃ s, Parse (Init mt collect) (fl ++ Crlf ++ HeaderBlock lines ++ Crlf ++ [])
        = .ok (false, s) ∧ s.Parser_ = .ChunkedContentParser) ∧
    (∀ rest feeds s,
      Feed (Init mt collect) ((fl ++ Crlf ++ HeaderBlock lines ++ Crlf ++ rest) :: feeds)
        = .ok (true, s) →
      s.ChunkInputState_ = some ⟨0, true⟩) ∧
    (∀ cs : List TChunk, (∀ c ∈ cs, c.WellFormed) → ∃ s,
      Parse (Init mt collect) (fl ++ Crlf ++ HeaderBlock lines ++ Crlf ++ ChunkedBody cs)
        = .ok (true, s) ∧ s.Content_ = ChunkPayload cs ∧ s.ExtraDataSize_ = 0) := by
  have hall2 : ∀ l ∈ lines, AllowedHeader (some n) true l := by
    intro l hl
    rcases hall l hl with h | h | h
    · exact Or.inl h
    · exact Or.inr (Or.inl ⟨n, rfl, hn, h⟩)
    · exact Or.inr (Or.inr ⟨rfl, h⟩)
  have key : ∀ rest, ∃ sF,
      Parse (Init mt collect) (fl ++ Crlf ++ HeaderBlock lines ++ Crlf ++ rest)
        = ChunkedContentParser sF ∧
      sF.Data_ = rest ∧ sF.ChunkInputState_ = some ⟨0, false⟩ ∧ sF.Content_ = [] ∧
      sF.HasContentLength_ = true ∧ sF.ContentLength_ = n ∧ sF.CurrentLine_ = [] := by
    intro rest
    obtain ⟨s2, hpf⟩ := ParseFirstLine_of_FirstLineOk mt fl hok
      ({ Init mt collect with
          FirstLine_ := fl, Data_ := HeaderBlock lines ++ Crlf ++ rest } : THttpParser)
      rfl rfl
    have hfr := ParseFirstLine_frame _ _ hpf
    have hbody : s2.Content_ = [] := by rw [hfr]; rfl
    obtain ⟨sF, hd, hcur, hres⟩ := Parse_message mt collect fl lines rest (some n) true
      hfl hall2 s2 hpf
    rcases hres with ⟨hinv, h1, h0, -⟩ | ⟨hinv, -, hp⟩
    · have := hinv.cl h1
      rw [h0] at this
      exact absurd (Option.some.inj this) hn0
    · have hch : sF.ChunkInputState_ = some ⟨0, false⟩ :=
        hinv.teDone rfl (List.mem_cons_of_mem _ hte)
      have h1 : sF.HasContentLength_ = true := hinv.clDone n rfl (List.mem_cons_of_mem _ hcl)
      rw [hch] at hp
      simp only [Option.isSome_some, if_true] at hp
      exact ⟨sF, hp, hd, hch, hinv.body.trans hbody, h1, (Option.some.inj (hinv.cl h1)).symm,
        hcur⟩
  refine ⟨?_, ?_, ?_, ?_⟩
  · intro rest
    obtain ⟨sF, h1, h2, h3, h4, h5, h6, -⟩ := key rest
    exact ⟨sF, h1, h2, h3, h4, h5, h6⟩
  · obtain ⟨sF, h1, h2, h3, -, -, -, -⟩ := key []
    rw [h1]
    refine ⟨{ sF with CurrentLine_ := sF.CurrentLine_ ++ [], Parser_ := .ChunkedContentParser },
      ?_, rfl⟩
    simp only [ChunkedContentParser, h2, List.length_nil, ChunkedContentLoop, h3,
      ChunkedSizeLine, if_true, ReadLine, find]
  · intro rest feeds s h
    obtain ⟨sF, h1, -, h3, -, -, -, -⟩ := key rest
    cases feeds with
    | nil =>
      simp only [Feed] at h
      rw [h1] at h
      exact ((ChunkedContentLoop_inv _ sF true s (by rw [h3]; rfl) h).1 rfl).1
    | cons d ds =>
      simp only [Feed] at h
      rw [h1] at h
      cases hr : ChunkedContentParser sF with
      | error e => rw [hr] at h; cases h
      | ok r =>
        obtain ⟨b1, s1⟩ := r
        rw [hr] at h
        simp only [] at h
        have hinv := ChunkedContentLoop_inv _ sF b1 s1 (by rw [h3]; rfl) hr
        refine (Feed_chunked_inv (d :: ds) s1 true s ?_ h rfl).1
        cases b1 with
        | true => exact Or.inr ⟨(hinv.1 rfl).2, (hinv.1 rfl).1⟩
        | false => exact Or.inl ⟨(hinv.2 rfl).2, (hinv.2 rfl).1⟩
  · intro cs hcs
    obtain ⟨sF, h1, h2, h3, h4, -, -, hcur⟩ := key (ChunkedBody cs)
    have hloop := ChunkedContentLoop_body [] cs sF (sF.Data_.length + 1) [] hcs h3 hcur
      (Or.inl rfl) (by simp [h2])
      (by rw [h2]; have := ChunkedBody_length cs; omega)
    refine ⟨_, h1.trans hloop, ?_, rfl⟩
    show sF.Content_ ++ ChunkPayload cs = ChunkPayload cs
    rw [h4, List.nil_append]

/-- C6, witness: a response with `Content-Length: 3` and `Transfer-Encoding: chunked`. -/
theorem C6_chunked_governs_nonzero_length_witness :
    "HTTP/1.1 200 OK".toList ++ Crlf ++ HeaderBlock [ContentLengthLine 3, ChunkedLine] ++ Crlf
        ++ ChunkedBody [⟨"5".toList, [], "hello".toList⟩]
      = ("HTTP/1.1 200 OK\r\nContent-Length: 3\r\nTransfer-Encoding: chunked\r\n\r\n".toList
          ++ "5\r\nhello\r\n0\r\n\r\n".toList) ∧
    ∃ s, Parse (Init .Response true)
          ("HTTP/1.1 200 OK".toList ++ Crlf ++ HeaderBlock [ContentLengthLine 3, ChunkedLine]
            ++ Crlf ++ ChunkedBody [⟨"5".toList, [], "hello".toList⟩])
        = .ok (true, s) ∧ s.Content_ = ChunkPayload [⟨"5".toList, [], "hello".toList⟩] ∧
        s.ExtraDataSize_ = 0 :=
  ⟨by decide,
   (C6_chunked_governs_nonzero_length .Response true "HTTP/1.1 200 OK".toList
      [ContentLengthLine 3, ChunkedLine] 3 (by decide) (by decide) (by decide) (by decide)
      (by decide) (by decide) (by decide)).2.2.2 [⟨"5".toList, [], "hello".toList⟩] (by decide)⟩

/-- C7: `OnEof` returns normally exactly in the state Content with no content
length known and no chunk state, raises the incomplete-message exception in every
other state, and never changes the session. -/
theorem C7_OnEof_legal_iff (s : THttpParser) :
    ((OnEof s).2 = .ok () ↔
      (s.Parser_ = .ContentParser ∧ s.HasContentLength_ = false ∧ s.ChunkInputState_ = none)) ∧
    ((OnEof s).2 ≠ .ok () → (OnEof s).2 = .error .THttpException) ∧
    (OnEof s).1 = s := by
  unfold OnEof
  split_ifs with h
  · exact ⟨⟨fun _ => h, fun _ => rfl⟩, fun hne => absurd rfl hne, rfl⟩
  · refine ⟨⟨fun hk => ?_, fun hk => absurd hk h⟩, fun _ => rfl, rfl⟩
    cases hk

/-- C8: `GetBestCompressionScheme` returns `gzip` when the accepted set holds the
wildcard; otherwise it returns the first coding of the fixed priority list that
is in the accepted set; and it returns the empty string exactly when the set holds
neither the wildcard nor any coding of the list. -/
theorem C8_GetBestCompressionScheme (s : THttpParser) :
    BestCodings = ["gzip".toList, "deflate".toList, "br".toList, "x-gzip".toList,
      "x-deflate".toList, "y-lzo".toList, "y-lzf".toList, "y-lzq".toList, "y-bzip2".toList,
      "y-lzma".toList] ∧
    ("*".toList ∈ s.AcceptEncodings_ → GetBestCompressionScheme s = "gzip".toList) ∧
    ("*".toList ∉ s.AcceptEncodings_ →
      GetBestCompressionScheme s
        = (BestCodings.find? (fun c => decide (c ∈ s.AcceptEncodings_))).getD []) ∧
    (GetBestCompressionScheme s = [] ↔
      ("*".toList ∉ s.AcceptEncodings_ ∧ ∀ c ∈ BestCodings, c ∉ s.AcceptEncodings_)) := by
  have hne : ∀ c ∈ BestCodings, c ≠ [] := by decide
  refine ⟨rfl, ?_, ?_, ?_⟩
  · intro h
    simp only [GetBestCompressionScheme, if_pos h]
    rfl
  · intro h
    simp only [GetBestCompressionScheme, if_neg h]
    exact FirstAccepted_eq_find _ _
  · by_cases h : "*".toList ∈ s.AcceptEncodings_
    · simp only [GetBestCompressionScheme, if_pos h]
      constructor
      · intro hk
        exact absurd hk (by decide)
      · intro hk
        exact absurd h hk.1
    · simp only [GetBestCompressionScheme, if_neg h]
      rw [FirstAccepted_nil_iff _ _ hne]
      exact ⟨fun hk => ⟨h, hk⟩, fun hk => hk.2⟩

/-- C9: the accept-encoding value `gzip ,  deflate` adds no token at all, because a
piece is cut after its first space and before the next one instead of being
trimmed; the two witnesses of the claim do hold (`identity, br` selects `br`,
`unknown-scheme` selects nothing). -/
theorem C9_accept_encoding_spaces_drop_tokens :
    (ApplyHeaderLine (Init .Request true) "accept-encoding".toList
        "gzip ,  deflate".toList).toOption.map (fun r => r.AcceptEncodings_) = some [] ∧
    (Parse (Init .Request true)
        "GET / HTTP/1.1\r\nAccept-Encoding: gzip ,  deflate\r\n\r\n".toList).toOption.map
        (fun r => (r.1, r.2.AcceptEncodings_, GetBestCompressionScheme r.2))
      = some (true, [], []) ∧
    (Parse (Init .Request true)
        "GET / HTTP/1.1\r\nAccept-Encoding: identity, br\r\n\r\n".toList).toOption.map
        (fun r => GetBestCompressionScheme r.2) = some "br".toList ∧
    (Parse (Init .Request true)
        "GET / HTTP/1.1\r\nAccept-Encoding: unknown-scheme\r\n\r\n".toList).toOption.map
        (fun r => GetBestCompressionScheme r.2) = some [] := by
  refine ⟨by decide, by decide, by decide, by decide⟩

/-- C10: a first line with version 0.9 sets `keepAlive` to true although the
version is below 1.1, because the test is `Major > 1 || Minor > 0`; the witness of
the claim (version 1.0 leaves `keepAlive` false) does hold. -/
theorem C10_keepalive_for_version_0_9 :
    (Parse (Init .Request true) "GET / HTTP/0.9\r\n\r\n".toList).toOption.map
        (fun r => (r.1, r.2.HttpVersion_, r.2.KeepAlive_, r.2.Headers_))
      = some (true, ⟨0, 9⟩, true, []) ∧
    (Parse (Init .Request true) "GET / HTTP/1.0\r\n\r\n".toList).toOption.map
        (fun r => (r.1, r.2.HttpVersion_, r.2.KeepAlive_, r.2.Content_))
      = some (true, ⟨1, 0⟩, false, []) := by
  refine ⟨rfl, rfl⟩

end THttpParser

namespace THttpParser

/-- C11: a chunked response whose zero-size chunk line is followed by the trailer
field `X-Trailer: v` is reported complete as soon as that non-empty line has been
read, with the empty line after it left as two trailing bytes. This happens when
the whole message is one slice, and also when the trailer line arrives in a later
slice, where the parser resumes with the last-chunk flag set. The same message
with the empty line directly after the zero-size chunk line completes with no
trailing byte. -/
theorem C11_trailer_line_completes_message :
    (Parse (Init .Response true)
        ("HTTP/1.1 200 OK\r\nTransfer-Encoding: chunked\r\n\r\n".toList
          ++ "5\r\nhello\r\n0\r\nX-Trailer: v\r\n\r\n".toList)).toOption.map
        (fun r => (r.1, r.2.Parser_, r.2.Content_, r.2.CurrentLine_, r.2.ExtraDataSize_))
      = some (true, .OnEndParsing, "hello".toList, "X-Trailer: v".toList, 2) ∧
    (Feed (Init .Response true)
        ["HTTP/1.1 200 OK\r\nTransfer-Encoding: chunked\r\n\r\n5\r\nhello\r\n0\r\n".toList]).toOption.map
        (fun r => (r.1, r.2.Parser_, r.2.Content_, r.2.ChunkInputState_))
      = some (false, .ChunkedContentParser, "hello".toList, some ⟨0, true⟩) ∧
    (Feed (Init .Response true)
        ["HTTP/1.1 200 OK\r\nTransfer-Encoding: chunked\r\n\r\n5\r\nhello\r\n0\r\n".toList,
         "X-Trailer: v\r\n\r\n".toList]).toOption.map
        (fun r => (r.1, r.2.Parser_, r.2.Content_, r.2.CurrentLine_, r.2.ExtraDataSize_))
      = some (true, .OnEndParsing, "hello".toList, "X-Trailer: v".toList, 2) ∧
    (Parse (Init .Response true)
        ("HTTP/1.1 200 OK\r\nTransfer-Encoding: chunked\r\n\r\n".toList
          ++ "5\r\nhello\r\n0\r\n\r\n".toList)).toOption.map
        (fun r => (r.1, r.2.Parser_, r.2.Content_, r.2.CurrentLine_, r.2.ExtraDataSize_))
      = some (true, .OnEndParsing, "hello".toList, [], 0) := by
  refine ⟨rfl, rfl, rfl, rfl⟩

/-- C12: a message whose header block holds no framing header enters the Content
state with no content length known. With `code` the status code read from the
first line: a request, and a response whose code is below 200, 204 or 304,
completes in the same `Parse` call with an empty body and every byte after the
end of the headers counted as trailing; a response with any other code (the two
cases exclude each other, so the completion is an equivalence) appends the bytes
after the headers and all bytes of every later feed to the body, no `Parse`
call reports completion, and the session is left where `OnEof` is legal. -/
theorem C12_no_content_length (mt : TMessageType) (collect : Bool) (fl : TString)
    (lines : List TString) (code : Nat)
    (hfl : '\n' ∉ fl) (hcode : FirstLineCode mt fl = some code)
    (hall : ∀ l ∈ lines, PlainHeader l) :
    ((mt = .Request ∨ code < 200 ∨ code = 204 ∨ code = 304) →
      ∀ rest : TString, ∃ s,
        Parse (Init mt collect) (fl ++ Crlf ++ HeaderBlock lines ++ Crlf ++ rest) = .ok (true, s) ∧
        s.Parser_ = .OnEndParsing ∧ s.Content_ = [] ∧ s.ExtraDataSize_ = rest.length) ∧
    (¬ (mt = .Request ∨ code < 200 ∨ code = 204 ∨ code = 304) →
      ∀ (rest : TString) (feeds : List TString), ∃ s,
        Feed (Init mt collect) ((fl ++ Crlf ++ HeaderBlock lines ++ Crlf ++ rest) :: feeds)
          = .ok (false, s) ∧
        s.Parser_ = .ContentParser ∧ s.Content_ = rest ++ feeds.flatten ∧
        (OnEof s).2 = .ok ()) := by
  constructor
  · intro hc rest
    obtain ⟨sF, hp, hd, hcl, -, hbody, hmt, hrc⟩ :=
      Parse_plain_head mt collect fl lines rest code hfl hcode hall
    refine ⟨(OnEndParsing sF).2, ?_, rfl, hbody, by rw [← hd]; rfl⟩
    rw [hp]
    unfold ContentParser
    rw [hmt, hrc]
    simp only [hcl, Bool.false_eq_true, if_false]
    rcases hc with h | h
    · rw [if_pos h]; rfl
    · by_cases hm : mt = .Request
      · rw [if_pos hm]; rfl
      · rw [if_neg hm, if_pos h]; rfl
  · intro hc rest feeds
    obtain ⟨sF, hp, hd, hcl, hch, hbody, hmt, hrc⟩ :=
      Parse_plain_head mt collect fl lines rest code hfl hcode hall
    have hm : mt = .Response := by
      cases mt with
      | Request => exact absurd (Or.inl rfl) hc
      | Response => rfl
    have hc2 : ¬ (code < 200 ∨ code = 204 ∨ code = 304) := fun h => hc (Or.inr h)
    have e : Parse (Init mt collect) (fl ++ Crlf ++ HeaderBlock lines ++ Crlf ++ rest)
        = .ok (false, { sF with
            Content_ := sF.Content_ ++ sF.Data_, Data_ := [], Parser_ := .ContentParser }) := by
      rw [hp]
      unfold ContentParser
      rw [hmt, hrc]
      simp only [hcl, Bool.false_eq_true, if_false]
      rw [if_neg (by rw [hm]; decide), if_neg hc2]
    rw [Feed_cons_false _ _ feeds _ e]
    obtain ⟨s, h1, h2, h3, h4, h5⟩ := Feed_until_eof feeds
      ({ sF with
          Content_ := sF.Content_ ++ sF.Data_, Data_ := [], Parser_ := .ContentParser } : THttpParser)
      rfl hcl (hmt.trans hm) (by rw [show sF.RetCode_ = code from hrc]; exact hc2)
    refine ⟨s, h1, h2, ?_, ?_⟩
    · rw [h5]
      show (sF.Content_ ++ sF.Data_) ++ feeds.flatten = rest ++ feeds.flatten
      rw [hbody, hd]; rfl
    · unfold OnEof
      rw [if_pos ⟨h2, h3, h4.trans hch⟩]

/-- C12, witness: a 304 response without `Content-Length` followed by the bytes
`extra` completes with an empty body and five trailing bytes. -/
theorem C12_no_content_length_witness :
    StatusLine 1 1 304 "Not Modified".toList ++ Crlf ++ HeaderBlock ["X-A: 1".toList] ++ Crlf
        ++ "extra".toList
      = "HTTP/1.1 304 Not Modified\r\nX-A: 1\r\n\r\nextra".toList ∧
    (∃ s, Parse (Init .Response true)
          (StatusLine 1 1 304 "Not Modified".toList ++ Crlf ++ HeaderBlock ["X-A: 1".toList]
            ++ Crlf ++ "extra".toList) = .ok (true, s) ∧
        s.Parser_ = .OnEndParsing ∧ s.Content_ = [] ∧
        s.ExtraDataSize_ = "extra".toList.length) :=
  ⟨by decide,
   (C12_no_content_length .Response true (StatusLine 1 1 304 "Not Modified".toList)
      ["X-A: 1".toList] 304 (by decide) (by rfl)
      (by decide)).1 (Or.inr (Or.inr (Or.inr rfl))) "extra".toList⟩

/-- C13: in the chunked state with no byte left in the current chunk and the last
chunk not yet seen, let the buffer start with a complete line. When that line
(joined to the pending partial line, carriage return dropped) is not empty and
its size field is empty or holds a character that is not a hexadecimal digit, or
when that line is blank and the line after it has such a size field (a second
blank line included), the chunk loop throws at any iteration, and so does
`Parse` on that buffer. -/
theorem C13_bad_chunk_size_raises (s : THttpParser) (d rest : TString)
    (hci : s.ChunkInputState_ = some ⟨0, false⟩) (hd : '\n' ∉ d)
    (hbad : (StripCR (s.CurrentLine_ ++ d) ≠ [] ∧
              BadSizeField (StripCR (s.CurrentLine_ ++ d)) = true) ∨
            (StripCR (s.CurrentLine_ ++ d) = [] ∧ ∃ d2 rest2, '\n' ∉ d2 ∧
              rest = d2 ++ '\n' :: rest2 ∧ BadSizeField (StripCR d2) = true)) :
    (∀ fuel, ChunkedContentLoop (fuel + 1) { s with Data_ := d ++ '\n' :: rest }
        = .error .yexception) ∧
    (s.Parser_ = .ChunkedContentParser → Parse s (d ++ '\n' :: rest) = .error .yexception) := by
  have hs := ChunkedSizeLine_bad
    ({ s with
        Data_ := d ++ '\n' :: rest } : THttpParser) d rest hd rfl hbad
  have hl : ∀ fuel, ChunkedContentLoop (fuel + 1)
      ({ s with
          Data_ := d ++ '\n' :: rest } : THttpParser) = .error .yexception := by
    intro fuel
    unfold ChunkedContentLoop
    simp only [hci] at hs ⊢
    rw [hs]
  refine ⟨hl, fun hp => ?_⟩
  have e : Parse s (d ++ '\n' :: rest)
      = ChunkedContentParser { s with Data_ := d ++ '\n' :: rest } := by
    unfold Parse; simp only []; rw [hp]
  rw [e]
  exact hl _

/-- C13, witness: the size line `zz` in a session waiting for a chunk-size line,
and the whole response whose chunked body is `zz`, both fed to `Parse`. -/
theorem C13_bad_chunk_size_raises_witness :
    Parse { Init .Response true with Parser_ := .ChunkedContentParser,
                                     ChunkInputState_ := some ⟨0, false⟩ } "zz\r\n".toList
      = .error .yexception ∧
    Parse (Init .Response true)
        "HTTP/1.1 200 OK\r\nTransfer-Encoding: chunked\r\n\r\nzz\r\n".toList
      = .error .yexception ∧
    Parse (Init .Response true)
        "HTTP/1.1 200 OK\r\nTransfer-Encoding: chunked\r\n\r\n;x\r\n".toList
      = .error .yexception :=
  ⟨(C13_bad_chunk_size_raises
      { Init .Response true with Parser_ := .ChunkedContentParser,
                                 ChunkInputState_ := some ⟨0, false⟩ }
      "zz\r".toList [] rfl (by decide) (Or.inl ⟨by decide, by decide⟩)).2 rfl, rfl, rfl⟩

/-- C14: folding is raw concatenation, but the folded header is not always
applied. In a collecting response session the header `X-A: 1` continued by the
line of two spaces and `2` is collected as `X-A` with value `1  2` when the
content length is unknown or when `Content-Length: 0` comes after it. When it is
the last header after `Content-Length: 0`, the message completes at the blank
line with the folded line `X-A: 1  2` still pending: it is never applied and is
missing from the collected headers. Without header collection a folded
`Content-Encoding` in that position leaves the content encoding empty. -/
theorem C14_folded_last_header_not_applied :
    (Parse (Init .Response true) "HTTP/1.1 200 OK\r\nX-A: 1\r\n  2\r\n\r\n".toList).toOption.map
        (fun r => (r.1, r.2.Headers_, r.2.HeaderLine_))
      = some (false, [("X-A".toList, "1  2".toList)], []) ∧
    (Parse (Init .Response true)
        "HTTP/1.1 200 OK\r\nX-A: 1\r\n  2\r\nContent-Length: 0\r\n\r\n".toList).toOption.map
        (fun r => (r.1, r.2.Headers_, r.2.HeaderLine_))
      = some (true, [("X-A".toList, "1  2".toList), ("Content-Length".toList, "0".toList)], []) ∧
    (Parse (Init .Response true)
        "HTTP/1.1 200 OK\r\nContent-Length: 0\r\nX-A: 1\r\n  2\r\n\r\n".toList).toOption.map
        (fun r => (r.1, r.2.Headers_, r.2.HeaderLine_))
      = some (true, [("Content-Length".toList, "0".toList)], "X-A: 1  2".toList) ∧
    (Parse (Init .Response false)
        "HTTP/1.1 200 OK\r\nContent-Encoding: gz\r\n\tip\r\nContent-Length: 0\r\n\r\n".toList).toOption.map
        (fun r => (r.1, r.2.ContentEncoding_))
      = some (true, "gz\tip".toList) ∧
    (Parse (Init .Response false)
        "HTTP/1.1 200 OK\r\nContent-Length: 0\r\nContent-Encoding: gz\r\n\tip\r\n\r\n".toList).toOption.map
        (fun r => (r.1, r.2.ContentEncoding_))
      = some (true, []) := by
  refine ⟨by decide, by decide, by decide, by decide, by decide⟩

/-- C15: Done is absorbing. After a `Parse` call that reported completion, every
later sequence of `Parse` calls again reports completion and leaves the session as
it was (state Done, version, status code, keep-alive flag, headers, content
length, body), except that the read position is the start of the last buffer and
the trailing-byte count is the length of the last buffer. -/
theorem C15_done_absorbing (s : THttpParser) (d0 : TString) (s1 : THttpParser)
    (h : Parse s d0 = .ok (true, s1)) (ds : List TString) (d : TString) :
    s1.Parser_ = .OnEndParsing ∧
    Feed s1 (ds ++ [d]) = .ok (true, { s1 with Data_ := d, ExtraDataSize_ := d.length }) := by
  have hdone := Parse_done s d0 s1 h
  refine ⟨hdone, ?_⟩
  have key : ∀ (es : List TString) (t : THttpParser), t.Parser_ = .OnEndParsing →
      Feed t (es ++ [d]) = .ok (true, { t with Data_ := d, ExtraDataSize_ := d.length }) := by
    intro es
    induction es with
    | nil =>
      intro t ht
      exact Parse_of_done t d ht
    | cons e es ih =>
      intro t ht
      have hne : ∃ x xs, es ++ [d] = x :: xs := by
        cases es with
        | nil => exact ⟨d, [], rfl⟩
        | cons y ys => exact ⟨y, ys ++ [d], rfl⟩
      obtain ⟨x, xs, hx⟩ := hne
      have ih2 := ih ({ t with Data_ := e, ExtraDataSize_ := e.length } : THttpParser) ht
      rw [hx] at ih2
      rw [List.cons_append, hx]
      simp only [Feed, Parse_of_done t e ht]
      exact ih2
  exact key ds s1 hdone

/-- C15, witness: a 204 response, then two further buffers. -/
theorem C15_done_absorbing_witness :
    Feed { Parser_ := .OnEndParsing, MessageType_ := .Response, CollectHeaders_ := true,
           Data_ := [], CurrentLine_ := [], HeaderLine_ := [],
           FirstLine_ := "HTTP/1.1 204 No Content".toList, HttpVersion_ := ⟨1, 1⟩,
           RetCode_ := 204, KeepAlive_ := true, Headers_ := [], HasContentLength_ := false,
           ContentLength_ := 0, ChunkInputState_ := none, AcceptEncodings_ := [],
           ContentEncoding_ := [], Content_ := [], DecodedContent_ := [], ExtraDataSize_ := 0 }
        (["GET /".toList] ++ ["abc".toList])
      = .ok (true,
         { Parser_ := .OnEndParsing, MessageType_ := .Response, CollectHeaders_ := true,
           Data_ := "abc".toList, CurrentLine_ := [], HeaderLine_ := [],
           FirstLine_ := "HTTP/1.1 204 No Content".toList, HttpVersion_ := ⟨1, 1⟩,
           RetCode_ := 204, KeepAlive_ := true, Headers_ := [], HasContentLength_ := false,
           ContentLength_ := 0, ChunkInputState_ := none, AcceptEncodings_ := [],
           ContentEncoding_ := [], Content_ := [], DecodedContent_ := [],
           ExtraDataSize_ := "abc".toList.length }) :=
  (C15_done_absorbing (Init .Response true) "HTTP/1.1 204 No Content\r\n\r\n".toList
    { Parser_ := .OnEndParsing, MessageType_ := .Response, CollectHeaders_ := true,
      Data_ := [], CurrentLine_ := [], HeaderLine_ := [],
      FirstLine_ := "HTTP/1.1 204 No Content".toList, HttpVersion_ := ⟨1, 1⟩,
      RetCode_ := 204, KeepAlive_ := true, Headers_ := [], HasContentLength_ := false,
      ContentLength_ := 0, ChunkInputState_ := none, AcceptEncodings_ := [],
      ContentEncoding_ := [], Content_ := [], DecodedContent_ := [], ExtraDataSize_ := 0 }
    rfl ["GET /".toList] "abc".toList).2

/-- C16: `DecodeContent` on a session without content encoding returns false and
changes nothing but the decoded content, which becomes the raw content; a second
call gives the same result; on a session whose content encoding is a non-empty
token other than `gzip` and `deflate` it raises the parse exception. This holds
whatever the decompressors do. -/
theorem C16_DecodeContent (gzip zlib : TString → Except TError TString) (s : THttpParser) :
    (s.ContentEncoding_ = [] →
      DecodeContent gzip zlib s = .ok (false, { s with DecodedContent_ := s.Content_ }) ∧
      DecodeContent gzip zlib { s with DecodedContent_ := s.Content_ }
        = .ok (false, { s with DecodedContent_ := s.Content_ })) ∧
    (s.ContentEncoding_ ≠ [] → s.ContentEncoding_ ≠ "gzip".toList →
      s.ContentEncoding_ ≠ "deflate".toList →
      DecodeContent gzip zlib s = .error .THttpParseException) := by
  refine ⟨fun h => ⟨?_, ?_⟩, fun h1 h2 h3 => ?_⟩
  · unfold DecodeContent
    rw [if_pos h]
  · unfold DecodeContent
    rw [if_pos h]
  · unfold DecodeContent
    rw [if_neg h1, if_neg h2, if_neg h3]

/-- C16, witness: a session with raw content `abc`, once without content encoding
and once with content encoding `br`. -/
theorem C16_DecodeContent_witness :
    (DecodeContent (fun x => .ok x) (fun x => .ok x)
        { Init .Response true with Content_ := "abc".toList }
      = .ok (false, { Init .Response true with
          Content_ := "abc".toList, DecodedContent_ := "abc".toList })) ∧
    (DecodeContent (fun x => .ok x) (fun x => .ok x)
        { Init .Response true with Content_ := "abc".toList, ContentEncoding_ := "br".toList }
      = .error .THttpParseException) :=
  ⟨((C16_DecodeContent (fun x => .ok x) (fun x => .ok x)
      { Init .Response true with Content_ := "abc".toList }).1 rfl).1,
   (C16_DecodeContent (fun x => .ok x) (fun x => .ok x)
      { Init .Response true with Content_ := "abc".toList, ContentEncoding_ := "br".toList }).2
      (by decide) (by decide) (by decide)⟩

/-- C17: `ReadLine` with partial-line buffer `CurrentLine_` and unread slice `Data_`:
when the slice holds a line feed with first occurrence at index `i`, it returns
true, the current line becomes the buffer followed by the first `i` bytes of the
slice with one trailing carriage return removed if present, and `i + 1` bytes are
consumed; when the slice holds no line feed it returns false and the buffer
becomes the buffer followed by the slice. -/
theorem C17_ReadLine (s : THttpParser) :
    (∀ i, s.Data_[i]? = some '\n' → '\n' ∉ s.Data_.take i →
      ReadLine s = (true, { s with
        CurrentLine_ := StripCR (s.CurrentLine_ ++ s.Data_.take i),
        Data_ := s.Data_.drop (i + 1) })) ∧
    ('\n' ∉ s.Data_ →
      ReadLine s = (false, { s with CurrentLine_ := s.CurrentLine_ ++ s.Data_ })) ∧
    (∀ q : TString, StripCR (q ++ ['\r']) = q) ∧
    (∀ l : TString, l.getLast? ≠ some '\r' → StripCR l = l) := by
  refine ⟨?_, ReadLine_none s, StripCR_concat, StripCR_of_ne⟩
  intro i hi hfirst
  have hlt : i < s.Data_.length := by
    by_contra hge
    rw [List.getElem?_eq_none (by omega)] at hi
    cases hi
  have hget : s.Data_[i] = '\n' := by
    rw [List.getElem?_eq_getElem hlt] at hi
    exact Option.some.inj hi
  have hsplit : s.Data_ = s.Data_.take i ++ '\n' :: s.Data_.drop (i + 1) := by
    rw [← hget, ← List.drop_eq_getElem_cons hlt, List.take_append_drop]
  exact ReadLine_line s (s.Data_.take i) (s.Data_.drop (i + 1)) hfirst hsplit

/-- C17, witness: the buffer `x` and the slice `ab`, CR, LF, `cd`. -/
theorem C17_ReadLine_witness :
    ReadLine { Init .Response true with CurrentLine_ := "x".toList, Data_ := "ab\r\ncd".toList }
      = (true, { Init .Response true with
          CurrentLine_ := StripCR ("x".toList ++ "ab\r\ncd".toList.take 3),
          Data_ := "ab\r\ncd".toList.drop (3 + 1) }) ∧
    StripCR ("x".toList ++ "ab\r\ncd".toList.take 3) = "xab".toList ∧
    "ab\r\ncd".toList.drop (3 + 1) = "cd".toList :=
  ⟨(C17_ReadLine { Init .Response true with
      CurrentLine_ := "x".toList, Data_ := "ab\r\ncd".toList }).1 3 (by decide) (by decide),
   by decide, by decide⟩

/-- C18: `ParseHeaderLine` does nothing on an empty accumulated header line;
raises the parse exception, without calling `ApplyHeaderLine`, on a non-empty line
without a colon; and on a line `a : b` whose first colon follows `a` it passes the
lower-cased, trimmed `a` and `b` to `ApplyHeaderLine` (after adding the trimmed
pair to the collected headers when header collection is enabled) and then clears
the accumulated line. -/
theorem C18_ParseHeaderLine (s : THttpParser) :
    (s.HeaderLine_ = [] → ParseHeaderLine s = .ok s) ∧
    (s.HeaderLine_ ≠ [] → ':' ∉ s.HeaderLine_ →
      ParseHeaderLine s = .error .THttpParseException) ∧
    (∀ a b : TString, ':' ∉ a → s.HeaderLine_ = a ++ ':' :: b →
      (s.CollectHeaders_ = true →
        ParseHeaderLine s =
          match ApplyHeaderLine
              { s with Headers_ := s.Headers_ ++ [(StripString a, StripString b)] }
              (to_lower (StripString a)) (to_lower (StripString b)) with
          | .error e => .error e
          | .ok s2 => .ok { s2 with HeaderLine_ := [] }) ∧
      (s.CollectHeaders_ = false →
        ParseHeaderLine s =
          match ApplyHeaderLine { s with HeaderLine_ := to_lower s.HeaderLine_ }
              (to_lower (StripString a)) (to_lower (StripString b)) with
          | .error e => .error e
          | .ok s2 => .ok { s2 with HeaderLine_ := [] })) := by
  refine ⟨ParseHeaderLine_nil s, ?_, ?_⟩
  · intro hne hcolon
    unfold ParseHeaderLine
    rw [if_pos hne]
    simp only [THttpInputHeader, find_eq_none _ _ hcolon]
    split_ifs <;> rfl
  · intro a b ha hl
    have hne : s.HeaderLine_ ≠ [] := by rw [hl]; simp
    have hpos : find ':' s.HeaderLine_ = some a.length := by
      rw [hl]; exact find_append_cons _ _ _ ha
    have htake : s.HeaderLine_.take a.length = a := by rw [hl]; exact take_append_cons _ _ _
    have hdrop : s.HeaderLine_.drop (a.length + 1) = b := by
      rw [hl]; exact drop_append_cons _ _ _
    refine ⟨?_, ?_⟩
    · intro hc
      unfold ParseHeaderLine
      rw [if_pos hne]
      simp only [hc, if_true, THttpInputHeader, hpos, htake, hdrop]
    · intro hc
      unfold ParseHeaderLine
      rw [if_pos hne]
      simp only [hc, Bool.false_eq_true, if_false, hpos]
      have t1 : (to_lower s.HeaderLine_).take a.length = to_lower a := by
        have : (to_lower s.HeaderLine_).take a.length
            = to_lower (s.HeaderLine_.take a.length) := by simp [to_lower, List.map_take]
        rw [this, htake]
      have t2 : (to_lower s.HeaderLine_).drop (a.length + 1) = to_lower b := by
        have : (to_lower s.HeaderLine_).drop (a.length + 1)
            = to_lower (s.HeaderLine_.drop (a.length + 1)) := by simp [to_lower, List.map_drop]
        rw [this, hdrop]
      rw [t1, t2, StripString_to_lower, StripString_to_lower]

/-- C18, witness: the line `Connection : Close ` without header collection sets the
keep-alive flag to false and clears the line; the line `nocolon` is a parse error. -/
theorem C18_ParseHeaderLine_witness :
    (ParseHeaderLine { Init .Response false with
        HeaderLine_ := "Connection".toList ++ ':' :: " Close ".toList, KeepAlive_ := true } =
      match ApplyHeaderLine { Init .Response false with
          HeaderLine_ := to_lower ("Connection".toList ++ ':' :: " Close ".toList),
          KeepAlive_ := true }
          (to_lower (StripString "Connection".toList)) (to_lower (StripString " Close ".toList)) with
      | .error e => .error e
      | .ok s2 => .ok { s2 with HeaderLine_ := [] }) ∧
    (ParseHeaderLine { Init .Response false with
        HeaderLine_ := "Connection".toList ++ ':' :: " Close ".toList, KeepAlive_ := true }).toOption.map
        (fun r => (r.KeepAlive_, r.HeaderLine_)) = some (false, []) ∧
    ParseHeaderLine { Init .Response true with HeaderLine_ := "nocolon".toList }
      = .error .THttpParseException :=
  ⟨((C18_ParseHeaderLine { Init .Response false with
        HeaderLine_ := "Connection".toList ++ ':' :: " Close ".toList, KeepAlive_ := true }).2.2
      "Connection".toList " Close ".toList (by decide) rfl).2 rfl,
   by decide,
   (C18_ParseHeaderLine { Init .Response true with HeaderLine_ := "nocolon".toList }).2.1
      (by decide) (by decide)⟩

/-- C19: every `Parse` call ends and stays inside its buffer. For every session
reached by feeding slices to a fresh session and every buffer `d`: the header
loop and the chunk loop, which are given `d.length + 1` iterations, never run out
of them, and no empty chunk state is dereferenced, so `Parse` either throws a C++
exception or returns; when it returns, the unread bytes are a suffix of `d`, and
when it reports completion the trailing-byte count is at most `d.length`. The
subtraction `ContentLength_ - Content_.Size()` never wraps: the body is empty
until the header block has been read, and in the Content state with a known
content length the body is not longer than the content length, which fits 64
bits. The subtraction `LeftBytes_ - rd` of the chunk copy never goes below zero
and the copy takes its bytes from the front of the unread bytes. -/
theorem C19_parse_terminates_in_buffer (mt : TMessageType) (collect : Bool)
    (feeds : List TString) (b0 : Bool) (s : THttpParser)
    (hreach : Feed (Init mt collect) feeds = .ok (b0, s)) (d : TString) :
    (∀ e, Parse s d = .error e → e ≠ .FuelExhausted ∧ e ≠ .NullDereference) ∧
    (∀ b s1, Parse s d = .ok (b, s1) →
      s1.Data_ <:+ d ∧ (b = true → s1.ExtraDataSize_ ≤ d.length)) ∧
    ((s.Parser_ = .FirstLineParser ∨ s.Parser_ = .HeadersParser) → s.Content_ = []) ∧
    (s.Parser_ = .ContentParser → s.HasContentLength_ = true →
      s.Content_.length ≤ s.ContentLength_ ∧ s.ContentLength_ ≤ MaxUi64 ∧
      (s.ContentLength_ + (MaxUi64 + 1) - s.Content_.length % (MaxUi64 + 1)) % (MaxUi64 + 1)
        = s.ContentLength_ - s.Content_.length) ∧
    (∀ (t : THttpParser) (ci : TChunkInputState),
      min t.Data_.length ci.LeftBytes_ ≤ ci.LeftBytes_ ∧
      min t.Data_.length ci.LeftBytes_ ≤ t.Data_.length ∧
      (ChunkedCopy t ci).ChunkInputState_
        = some ⟨ci.LeftBytes_ - min t.Data_.length ci.LeftBytes_, ci.ReadLastChunk_⟩ ∧
      (ChunkedCopy t ci).Content_ ++ (ChunkedCopy t ci).Data_ = t.Content_ ++ t.Data_) := by
  have hinit : BodyInv (Init mt collect) :=
    ⟨(fun _ hc => by cases hc), (fun _ => rfl), (fun hq => by cases hq),
     (fun hq => by cases hq), (fun hq => by cases hq)⟩
  obtain ⟨-, hinv⟩ := Feed_inv feeds (Init mt collect) b0 s hinit (fun hq => by cases hq) hreach
  have hst := Parse_stays s d hinv.chunked
  refine ⟨?_, ?_, hinv.empty, ?_, ?_⟩
  · intro e he
    rw [he] at hst
    have h1 : e.IsException = true := hst
    constructor <;> (intro h; rw [h] at h1; cases h1)
  · intro b s1 he
    rw [he] at hst
    have h1 : s1.Data_ <:+ d ∧ (b = true → s1.ExtraDataSize_ = s1.Data_.length) := hst
    exact ⟨h1.1, fun hb => by rw [h1.2 hb]; exact h1.1.length_le⟩
  · intro hp hcl
    have h1 := hinv.unfinished hp hcl
    have h2 := hinv.bound (Or.inr (Or.inr hp)) hcl
    refine ⟨Nat.le_of_lt h1, h2, ?_⟩
    unfold MaxUi64 at h2 ⊢
    omega
  · intro t ci
    refine ⟨Nat.min_le_right _ _, Nat.min_le_left _ _, rfl, ?_⟩
    show (t.Content_ ++ t.Data_.take _) ++ t.Data_.drop _ = _
    rw [List.append_assoc, List.take_append_drop]

/-- C19, witness: the session reached after the head of a response with
`Content-Length: 5` and two body bytes, fed the remaining three bytes and two
more. -/
theorem C19_parse_terminates_in_buffer_witness :
    (∀ b s1,
      Parse { Parser_ := .ContentParser, MessageType_ := .Response, CollectHeaders_ := true,
              Data_ := [], CurrentLine_ := [], HeaderLine_ := [],
              FirstLine_ := "HTTP/1.1 200 OK".toList, HttpVersion_ := ⟨1, 1⟩,
              RetCode_ := 200, KeepAlive_ := true,
              Headers_ := [("Content-Length".toList, "5".toList)], HasContentLength_ := true,
              ContentLength_ := 5, ChunkInputState_ := none, AcceptEncodings_ := [],
              ContentEncoding_ := [], Content_ := "he".toList, DecodedContent_ := [],
              ExtraDataSize_ := 0 } "lloXY".toList = .ok (b, s1) →
      s1.Data_ <:+ "lloXY".toList ∧ (b = true → s1.ExtraDataSize_ ≤ "lloXY".toList.length)) ∧
    (Parse { Parser_ := .ContentParser, MessageType_ := .Response, CollectHeaders_ := true,
              Data_ := [], CurrentLine_ := [], HeaderLine_ := [],
              FirstLine_ := "HTTP/1.1 200 OK".toList, HttpVersion_ := ⟨1, 1⟩,
              RetCode_ := 200, KeepAlive_ := true,
              Headers_ := [("Content-Length".toList, "5".toList)], HasContentLength_ := true,
              ContentLength_ := 5, ChunkInputState_ := none, AcceptEncodings_ := [],
              ContentEncoding_ := [], Content_ := "he".toList, DecodedContent_ := [],
              ExtraDataSize_ := 0 } "lloXY".toList).toOption.map
        (fun r => (r.1, r.2.Content_, r.2.Data_, r.2.ExtraDataSize_))
      = some (true, "hello".toList, "XY".toList, 2) :=
  ⟨(C19_parse_terminates_in_buffer .Response true
      ["HTTP/1.1 200 OK\r\nContent-Length: 5\r\n\r\nhe".toList] false
      { Parser_ := .ContentParser, MessageType_ := .Response, CollectHeaders_ := true,
        Data_ := [], CurrentLine_ := [], HeaderLine_ := [],
        FirstLine_ := "HTTP/1.1 200 OK".toList, HttpVersion_ := ⟨1, 1⟩,
        RetCode_ := 200, KeepAlive_ := true,
        Headers_ := [("Content-Length".toList, "5".toList)], HasContentLength_ := true,
        ContentLength_ := 5, ChunkInputState_ := none, AcceptEncodings_ := [],
        ContentEncoding_ := [], Content_ := "he".toList, DecodedContent_ := [],
        ExtraDataSize_ := 0 } rfl "lloXY".toList).2.1, by decide⟩

end THttpParser

namespace NHelpers

/-- C20, counterexample: the single item `4294967296` is a decimal number, so the
claim has the returned set hold 4294967296; the value does not fit `int`, `atoi`
leaves it undefined, and no returned set, being a set of `ui32`, could hold it. -/
theorem C20_number_beyond_ui32 :
    RangeString ([TRangeItem.single "4294967296".toList].map TRangeItem.Text)
      = "4294967296".toList ∧
    (TRangeItem.single "4294967296".toList).Holds 4294967296 ∧
    ParseRangeString "4294967296".toList = .error .Undefined ∧
    ¬ ∃ data, ParseRangeString "4294967296".toList = .ok data ∧ 4294967296 ∈ data := by
  refine ⟨rfl, ?_, rfl, ?_⟩
  · show 4294967296 = DecimalValue "4294967296".toList
    decide
  rintro ⟨data, h, hm⟩
  exact absurd (ParseRangeString_ui32 _ data h _ hm) (by decide)

/-- C20, amended: take colon-joined items, each empty, a decimal number, or two
decimal numbers joined by a dash where a number may be missing; let every number
fit `int` and the upper end of a dash item that is not below its lower end be
less than the largest `int`. An item lacks a number exactly when its first dash
is its first or last character. When no item lacks a number, `ParseRangeString`
returns a set whose members are exactly the numbers of the single items and the
numbers from `a` to `b` of the dash items, none for `a > b` and for empty items.
It raises `Invalid range` exactly when some item lacks a number, and the raised
text is such an item. -/
theorem C20_ParseRangeString (items : List TRangeItem)
    (hb : ∀ it ∈ items, it.InBounds = true) :
    (∀ it ∈ items, (it.Invalid = true ↔
      it.Text ≠ [] ∧
        (find '-' it.Text = some 0 ∨ find '-' it.Text = some (it.Text.length - 1)))) ∧
    ((∀ it ∈ items, it.Invalid = false) →
      ∃ data, ParseRangeString (RangeString (items.map TRangeItem.Text)) = .ok data ∧
        ∀ x : Nat, x ∈ data ↔ ∃ it ∈ items, it.Holds x) ∧
    ((∃ r, ParseRangeString (RangeString (items.map TRangeItem.Text))
        = .error (.InvalidRange r)) ↔ ∃ it ∈ items, it.Invalid = true) ∧
    (∀ r, ParseRangeString (RangeString (items.map TRangeItem.Text))
        = .error (.InvalidRange r) → ∃ it ∈ items, it.Invalid = true ∧ r = it.Text) := by
  have hrun : ParseRangeString (RangeString (items.map TRangeItem.Text))
      = ParseItems (items.map TRangeItem.Text) [] := by
    cases items with
    | nil => rfl
    | cons i is =>
      refine ParseRangeString_items i.Text (is.map TRangeItem.Text) ?_
      intro u hu
      rw [← List.map_cons, List.mem_map] at hu
      obtain ⟨it, hm, rfl⟩ := hu
      exact Text_no_colon it (hb it hm)
  have hitems := ParseItems_items items [] hb
  rw [hrun]
  have hto : (∃ r, ParseItems (items.map TRangeItem.Text) []
      = .error (.InvalidRange r)) → ∃ it ∈ items, it.Invalid = true := by
    rintro ⟨r, hr⟩
    by_contra hno
    have hall : ∀ it ∈ items, it.Invalid = false := by
      intro it hm
      cases hinv : it.Invalid with
      | false => rfl
      | true => exact absurd ⟨it, hm, hinv⟩ hno
    obtain ⟨data, hd, -⟩ := hitems.1 hall
    rw [hd] at hr
    cases hr
  refine ⟨fun it hm => Invalid_iff it (hb it hm), ?_, ⟨hto, ?_⟩, ?_⟩
  · intro hall
    obtain ⟨data, hd, hmem⟩ := hitems.1 hall
    refine ⟨data, hd, fun x => ?_⟩
    rw [hmem]
    simp
  · intro hex
    obtain ⟨it, -, -, he⟩ := hitems.2 hex
    exact ⟨_, he⟩
  · intro r hr
    obtain ⟨it, hm, hinv, he⟩ := hitems.2 (hto ⟨r, hr⟩)
    rw [he] at hr
    simp only [Except.error.injEq, TRangeError.InvalidRange.injEq] at hr
    exact ⟨it, hm, hinv, hr.symm⟩

/-- C20, witness: the string `1:3-5::7` gives the set of 1, 3, 4, 5 and 7, and the
string `1:5-:3` raises `Invalid range` on the item `5-`. -/
theorem C20_ParseRangeString_witness :
    RangeString ([TRangeItem.single "1".toList, .range "3".toList "5".toList, .empty,
        .single "7".toList].map TRangeItem.Text) = "1:3-5::7".toList ∧
    (∃ data, ParseRangeString (RangeString ([TRangeItem.single "1".toList,
        .range "3".toList "5".toList, .empty, .single "7".toList].map TRangeItem.Text))
        = .ok data ∧
      ∀ x : Nat, x ∈ data ↔ ∃ it ∈ [TRangeItem.single "1".toList,
        .range "3".toList "5".toList, .empty, .single "7".toList], it.Holds x) ∧
    ParseRangeString "1:3-5::7".toList = .ok [1, 3, 4, 5, 7] ∧
    ParseRangeString "1:5-:3".toList = .error (.InvalidRange "5-".toList) ∧
    ParseRangeString "5-3:2".toList = .ok [2] :=
  ⟨by decide,
   (C20_ParseRangeString [TRangeItem.single "1".toList, .range "3".toList "5".toList, .empty,
      .single "7".toList] (by decide)).2.1 (by decide), rfl, rfl, rfl⟩

end NHelpers
